import Mathlib

/-!
# gotcha / draw: rasterization primitives, text wrapping and transforms

A shallow embedding of `draw/draw.go`, `draw/fonts.go`, `draw/transform.go` and of
`parseExpr` from `gotcha.go`.

Conventions of the embedding.

* Go `int` is the 64-bit signed type.  Where a value can come near its limits
  (`drawLine`, the line equations of `Bands` and `AccurateBands`, `parseExpr`)
  sums, differences and products wrap (`wrapInt`), and `float64(n)` rounds to
  53 bits; elsewhere an `int` is an unbounded `Int`, since the coordinates of a
  canvas that can be allocated stay far away from the limits.
* A drawing primitive mutates its canvas only through `img.Set(x, y, c)` with a
  fixed colour, so it is embedded as the sequence of coordinates it passes to
  `Set`, in call order.
* Unbounded `for` loops take a fuel argument and return `none` when the fuel
  runs out before the loop exits.
* A `float64` taken from the fuzzer configuration is a `Float64`: a rational,
  an infinity or NaN.  The factor of `Scale` and the trigonometric values of
  `Rotate` are rationals.  Finite arithmetic is exact.
* Calls of `rand.Intn` read a stream of raw draws; a panic is the result `none`.
* The goroutines that a fuzzer or the text layout starts are run one after the
  other, in the order in which they are started.
-/

namespace Gotcha

/-! ## Machine numbers

The arguments of a function that takes `int`s are values of the 64-bit type,
between `-2^63` and `2^63 - 1`. -/

/-- The value of an `int` expression after wrap-around to 64 bits. -/
def wrapInt (z : Int) : Int :=
  (z + 9223372036854775808) % 18446744073709551616 - 9223372036854775808

/-- The conversion `float64(n)` of an `int`, as the integer the result denotes:
`n` itself up to `2^53` in magnitude, beyond that `n` rounded to 53
significant bits, ties to even. -/
def float64OfInt (n : Int) : Int :=
  let m := n.natAbs
  if m ≤ 9007199254740992 then n
  else
    let e := ((List.range 11).filter (fun (k : Nat) => decide (2 ^ (53 + k) ≤ m))).length
    let q := m / 2 ^ e
    let r := m % 2 ^ e
    let q1 := if 2 * r > 2 ^ e ∨ (2 * r = 2 ^ e ∧ q % 2 = 1) then q + 1 else q
    n.sign * ((q1 * 2 ^ e : Nat) : Int)

/-- The conversion `int(f)` of an integral `float64` value `v`.  The language
leaves the result open when `v` does not fit; the value given is the one of
amd64, `-2^63`. -/
def toInt64 (v : Int) : Int :=
  if -9223372036854775808 ≤ v ∧ v < 9223372036854775808 then v else -9223372036854775808

/-! ## `drawLine` (draw.go, Bresenham) -/

/-- The expression `int(math.Abs(float64(a - b)))`. -/
def absDiff (a b : Int) : Int :=
  toInt64 |float64OfInt (wrapInt (a - b))|

/-- The body of the `for { ... }` loop of `drawLine` after the `img.Set` call:
`none` at the `break`, otherwise the next values of `x0`, `y0` and `err`.
`x1 y1 dx dy sx sy` are the values fixed before the loop. -/
def drawLineStep (x1 y1 dx dy sx sy : Int) (x0 y0 err : Int) : Option (Int × Int × Int) :=
  if x0 = x1 ∧ y0 = y1 then
    none
  else
    let e2 := wrapInt (2 * err)
    let err1 := if e2 ≥ dy then wrapInt (err + dy) else err
    let x0n := if e2 ≥ dy then wrapInt (x0 + sx) else x0
    let err2 := if e2 ≤ dx then wrapInt (err1 + dx) else err1
    let y0n := if e2 ≤ dx then wrapInt (y0 + sy) else y0
    some (x0n, y0n, err2)

/-- The `for { ... }` loop of `drawLine`.  `x0 y0` are the loop variables and
`err` the error accumulator.  One unit of fuel is one loop iteration; the
result lists the coordinates passed to `img.Set`. -/
def drawLineLoop (x1 y1 dx dy sx sy : Int) :
    Nat → Int → Int → Int → Option (List (Int × Int))
  | 0, _, _, _ => none
  | fuel + 1, x0, y0, err =>
    match drawLineStep x1 y1 dx dy sx sy x0 y0 err with
    | none => some [(x0, y0)]
    | some s =>
      (drawLineLoop x1 y1 dx dy sx sy fuel s.1 s.2.1 s.2.2).map (fun ws => (x0, y0) :: ws)

/-- The coordinates passed to `img.Set` in the first `n` iterations of the
loop of `drawLine` (fewer when the `break` comes earlier). -/
def drawLineLoopFirst (x1 y1 dx dy sx sy : Int) : Nat → Int → Int → Int → List (Int × Int)
  | 0, _, _, _ => []
  | n + 1, x0, y0, err =>
    match drawLineStep x1 y1 dx dy sx sy x0 y0 err with
    | none => [(x0, y0)]
    | some s => (x0, y0) :: drawLineLoopFirst x1 y1 dx dy sx sy n s.1 s.2.1 s.2.2

/-- The function `drawLine(img, x0, y0, x1, y1, col)`: the coordinates written,
in order, or `none` if `fuel` iterations do not reach the `break`. -/
def drawLine (fuel : Nat) (x0 y0 x1 y1 : Int) : Option (List (Int × Int)) :=
  let dx : Int := absDiff x1 x0
  let sx : Int := if x0 < x1 then 1 else -1
  let dy : Int := wrapInt (-absDiff y1 y0)
  let sy : Int := if y0 < y1 then 1 else -1
  let err := wrapInt (dx + dy)
  drawLineLoop x1 y1 dx dy sx sy fuel x0 y0 err

/-- The coordinates written by `drawLine(img, x0, y0, x1, y1, col)` in its
first `n` loop iterations. -/
def drawLineFirst (n : Nat) (x0 y0 x1 y1 : Int) : List (Int × Int) :=
  let dx : Int := absDiff x1 x0
  let sx : Int := if x0 < x1 then 1 else -1
  let dy : Int := wrapInt (-absDiff y1 y0)
  let sy : Int := if y0 < y1 then 1 else -1
  let err := wrapInt (dx + dy)
  drawLineLoopFirst x1 y1 dx dy sx sy n x0 y0 err

/-- The loop of `drawLine` on unbounded integers, for runs in which no
operation of the loop overflows (`drawLineLoop_of_exact`). -/
def drawLineLoopExact (x1 y1 dx dy sx sy : Int) :
    Nat → Int → Int → Int → Option (List (Int × Int))
  | 0, _, _, _ => none
  | fuel + 1, x0, y0, err =>
    if x0 = x1 ∧ y0 = y1 then
      some [(x0, y0)]
    else
      let e2 := 2 * err
      let err1 := if e2 ≥ dy then err + dy else err
      let x0n := if e2 ≥ dy then x0 + sx else x0
      let err2 := if e2 ≤ dx then err1 + dx else err1
      let y0n := if e2 ≤ dx then y0 + sy else y0
      (drawLineLoopExact x1 y1 dx dy sx sy fuel x0n y0n err2).map (fun ws => (x0, y0) :: ws)

/-- The function `drawLine` on unbounded integers, with exact `|x1 - x0|` and
`|y1 - y0|`. -/
def drawLineExact (fuel : Nat) (x0 y0 x1 y1 : Int) : Option (List (Int × Int)) :=
  let dx : Int := |x1 - x0|
  let sx : Int := if x0 < x1 then 1 else -1
  let dy : Int := -|y1 - y0|
  let sy : Int := if y0 < y1 then 1 else -1
  let err := dx + dy
  drawLineLoopExact x1 y1 dx dy sx sy fuel x0 y0 err

/-- Two pixels are 8-adjacent: they differ by at most one in each coordinate
and are not the same pixel. -/
def adj8 (p q : Int × Int) : Prop :=
  |q.1 - p.1| ≤ 1 ∧ |q.2 - p.2| ≤ 1 ∧ p ≠ q

instance (p q : Int × Int) : Decidable (adj8 p q) := by
  unfold adj8; infer_instance

/-- The facts about one run of the line loop that the line claims need. -/
structure LineTrace (x0 y0 x1 y1 : Int) (n : Nat) (ws : List (Int × Int)) : Prop where
  len : ws.length = n + 1
  head : ws.head? = some (x0, y0)
  last : ws.getLast? = some (x1, y1)
  chain : ws.Chain' adj8
  nodup : ws.Nodup

/-! ## `drawCircle` (draw.go, midpoint circle) -/

/-- The `for x >= y` loop of `drawCircle`.  One unit of fuel is one evaluation
of the loop condition; the result lists the first-octant offsets `(x, y)` at
which the loop body issues its eight `img.Set` calls. -/
def drawCircleLoop (r : Int) :
    Nat → Int → Int → Int → Int → Int → Option (List (Int × Int))
  | 0, _, _, _, _, _ => none
  | fuel + 1, x, y, dx, dy, err =>
    if x ≥ y then
      let y1 := if err ≤ 0 then y + 1 else y
      let err1 := if err ≤ 0 then err + dy else err
      let dy1 := if err ≤ 0 then dy + 2 else dy
      let x2 := if err1 > 0 then x - 1 else x
      let dx2 := if err1 > 0 then dx + 2 else dx
      let err2 := if err1 > 0 then err1 + (dx2 - r * 2) else err1
      (drawCircleLoop r fuel x2 y1 dx2 dy1 err2).map (fun ps => (x, y) :: ps)
    else
      some []

/-- The eight `img.Set` calls of one loop iteration, in source order. -/
def octantWrites (x0 y0 : Int) (p : Int × Int) : List (Int × Int) :=
  [(x0 + p.1, y0 + p.2), (x0 + p.2, y0 + p.1), (x0 - p.2, y0 + p.1), (x0 - p.1, y0 + p.2),
   (x0 - p.1, y0 - p.2), (x0 - p.2, y0 - p.1), (x0 + p.2, y0 - p.1), (x0 + p.1, y0 - p.2)]

/-- The first-octant offsets generated by `drawCircle` for radius `r`:
`x, y, dx, dy := r-1, 0, 1, 1` and `err := dx - (r * 2)`. -/
def drawCirclePoints (fuel : Nat) (r : Int) : Option (List (Int × Int)) :=
  drawCircleLoop r fuel (r - 1) 0 1 1 (1 - r * 2)

/-- The function `drawCircle(img, x0, y0, r, c)`: the coordinates written, in
order. -/
def drawCircle (fuel : Nat) (x0 y0 r : Int) : Option (List (Int × Int)) :=
  (drawCirclePoints fuel r).map (fun ps => ps.flatMap (octantWrites x0 y0))

/-- Chebyshev distance at most one: the same pixel or an 8-adjacent one. -/
def near8 (p q : Int × Int) : Prop :=
  |q.1 - p.1| ≤ 1 ∧ |q.2 - p.2| ≤ 1

instance (p q : Int × Int) : Decidable (near8 p q) := by
  unfold near8; infer_instance

/-! ## `breakLines` (fonts.go)

A Go string is its sequence of bytes; `len` and indexing count bytes. -/

/-- The UTF-8 encodings of the code points for which `unicode.IsSpace` holds:
tab, LF, VT, FF, CR, space, U+0085, U+00A0, U+1680, U+2000..U+200A, U+2028,
U+2029, U+202F, U+205F, U+3000. -/
def spaceEncodings : List (List Nat) :=
  [[9], [10], [11], [12], [13], [32], [194, 133], [194, 160], [225, 154, 128],
   [226, 128, 128], [226, 128, 129], [226, 128, 130], [226, 128, 131], [226, 128, 132],
   [226, 128, 133], [226, 128, 134], [226, 128, 135], [226, 128, 136], [226, 128, 137],
   [226, 128, 138], [226, 128, 168], [226, 128, 169], [226, 128, 175], [226, 129, 159],
   [227, 128, 128]]

/-- Number of bytes of the white-space rune that `s` starts with, `0` if it
starts with none. -/
def leadingSpaceWidth (s : List Nat) : Nat :=
  match spaceEncodings.find? (fun w => s.take w.length == w) with
  | some w => w.length
  | none => 0

/-- Number of bytes of the white-space rune that `s` ends with, `0` if it ends
with none. -/
def trailingSpaceWidth (s : List Nat) : Nat :=
  match spaceEncodings.find? (fun w => s.reverse.take w.length == w.reverse) with
  | some w => w.length
  | none => 0

/-- Removes leading white-space runes, at most `n` of them. -/
def trimLeftN : Nat → List Nat → List Nat
  | 0, s => s
  | n + 1, s =>
    if leadingSpaceWidth s = 0 then s else trimLeftN n (s.drop (leadingSpaceWidth s))

/-- Removes trailing white-space runes, at most `n` of them. -/
def trimRightN : Nat → List Nat → List Nat
  | 0, s => s
  | n + 1, s =>
    if trailingSpaceWidth s = 0 then s
    else trimRightN n (s.take (s.length - trailingSpaceWidth s))

/-- The library function `strings.TrimSpace`: all leading and trailing white
space removed. -/
def TrimSpace (s : List Nat) : List Nat :=
  let t := trimLeftN s.length s
  trimRightN t.length t

/-- The call `strings.ReplaceAll(text, "\t", "  ")`. -/
def replaceTabs (text : List Nat) : List Nat :=
  text.flatMap (fun c => if c = 9 then [32, 32] else [c])

/-- The Go slice expression `text[i:j]`. -/
def slice (text : List Nat) (i j : Nat) : List Nat :=
  (text.take j).drop i

/-- The variables `i`, `lines` and `longest` of `breakLines`. -/
structure BreakState where
  i : Nat
  lines : List (List Nat)
  longest : Int

/-- One iteration of the `for j < len(text)` loop of `breakLines`, for the
index `j` (the `j++` is the enumeration of the indices). -/
def breakStep (text : List Nat) (count : Int) (st : BreakState) (j : Nat) : BreakState :=
  if (text.getD j 0 = 32 ∧ ((slice text st.i j).length : Int) > count) ∨ text.getD j 0 = 10 then
    let part := TrimSpace (slice text st.i j)
    let lines := st.lines ++ [part]
    let longest := if (part.length : Int) > st.longest then (part.length : Int) else st.longest
    let i := j
    let lines :=
      if ((text.drop i).length : Int) < count then lines ++ [TrimSpace (text.drop i)] else lines
    { i := i, lines := lines, longest := longest }
  else
    st

/-- The function `breakLines(text, count)`, returning `(lines, longest)`. -/
def breakLines (text : List Nat) (count : Int) : List (List Nat) × Int :=
  let text := replaceTabs text
  let st := (List.range' 1 (text.length - 1)).foldl (breakStep text count)
    { i := 0, lines := [], longest := 0 }
  if st.lines.length ≤ 1 then ([text], (text.length : Int)) else (st.lines, st.longest)

/-- The bytes of an ASCII string literal. -/
def ascii (s : String) : List Nat :=
  s.toList.map Char.toNat

/-! ## `Rotate` and `Scale` (transform.go)

`float64` values are embedded as the rationals they denote and `float64`
arithmetic as exact rational arithmetic.  For the guard of `Scale` this is
exact: the difference `c - 1.0` is computed without rounding for
`0.5 ≤ c ≤ 2`, and outside that interval its rounded value stays at least
`0.5` away from zero.  The values of `math.Cos` and `math.Sin` are parameters. -/

/-- The type `color.RGBA`. -/
structure RGBA where
  R : Nat
  G : Nat
  B : Nat
  A : Nat
deriving DecidableEq, Repr

/-- The type `image.Point`. -/
structure Point where
  X : Int
  Y : Int
deriving DecidableEq, Repr

/-- The type `image.Rectangle`. -/
structure Rectangle where
  Min : Point
  Max : Point
deriving DecidableEq, Repr

/-- The width of the rectangle. -/
def Rectangle.Dx (r : Rectangle) : Int := r.Max.X - r.Min.X

/-- The height of the rectangle. -/
def Rectangle.Dy (r : Rectangle) : Int := r.Max.Y - r.Min.Y

/-- The test `image.Point{x, y}.In(r)`. -/
def Rectangle.has (r : Rectangle) (x y : Int) : Bool :=
  decide (r.Min.X ≤ x) && decide (x < r.Max.X) && decide (r.Min.Y ≤ y) && decide (y < r.Max.Y)

/-- The constructor `image.Rect(x0, y0, x1, y1)`, which orders its corners. -/
def Rect (x0 y0 x1 y1 : Int) : Rectangle :=
  { Min := { X := min x0 x1, Y := min y0 y1 }, Max := { X := max x0 x1, Y := max y0 y1 } }

/-- A canvas (`*image.RGBA` behind `draw.Image`): its bounds and the colour
stored for each coordinate. -/
structure Image where
  Rect : Rectangle
  Pix : Int → Int → RGBA

/-- The method `Bounds()`. -/
def Image.Bounds (img : Image) : Rectangle := img.Rect

/-- The method `At(x, y)`: the zero colour outside the bounds. -/
def Image.At (img : Image) (x y : Int) : RGBA :=
  if img.Rect.has x y then img.Pix x y else { R := 0, G := 0, B := 0, A := 0 }

/-- The method `Set(x, y, c)`: no effect outside the bounds. -/
def Image.Set (img : Image) (x y : Int) (c : RGBA) : Image :=
  if img.Rect.has x y then
    { img with Pix := fun u v => if u = x ∧ v = y then c else img.Pix u v }
  else img

/-- The constructor `image.NewRGBA(r)`: every pixel zero. -/
def NewRGBA (r : Rectangle) : Image :=
  { Rect := r, Pix := fun _ _ => { R := 0, G := 0, B := 0, A := 0 } }

/-- The call `draw.Draw(canvas, canvas.Bounds(), &image.Uniform{bg}, image.ZP,
draw.Src)`: every pixel becomes `bg`. -/
def fillUniform (canvas : Image) (bg : RGBA) : Image :=
  { canvas with Pix := fun _ _ => bg }

/-- The colour read from the context key `BackgroundColor`, with the default
`color.RGBA{192, 192, 192, 255}`. -/
def bgColorOf (ctxBg : Option RGBA) : RGBA :=
  match ctxBg with
  | some v => v
  | none => { R := 192, G := 192, B := 192, A := 255 }

/-- The function `math.Round`: nearest integer, halves away from zero. -/
def goRound (q : ℚ) : Int :=
  if 0 ≤ q then ⌊q + 1 / 2⌋ else -⌊-q + 1 / 2⌋

/-- The conversion `int(f)`: truncation toward zero. -/
def goTrunc (q : ℚ) : Int :=
  if 0 ≤ q then ⌊q⌋ else -⌊-q⌋

/-- The values `math.Cos(degToRad(d))` and `math.Sin(degToRad(d))`, as
functions of `d % 360` (the only part of `d` that `degToRad` uses). -/
structure Trig where
  cos : Int → ℚ
  sin : Int → ℚ

/-- The function `Rotate(ctx, img, deg)`; `ctxBg` is the context value for
`BackgroundColor`. -/
def Rotate (trig : Trig) (ctxBg : Option RGBA) (img : Image) (deg : Int) : Image :=
  if deg.tmod 360 = 0 then img
  else
    let c := trig.cos ((-deg).tmod 360)
    let s := trig.sin ((-deg).tmod 360)
    let wide : ℚ := if (deg ≥ 55 ∧ deg < 125) ∨ (deg ≥ 235 ∧ deg < 305) then 13 / 10 else 1
    let w := img.Bounds.Dx
    let h := img.Bounds.Dy
    let canvas := NewRGBA
      { Min := { X := goRound (-(w : ℚ) * wide / 2), Y := (-h).tdiv 2 },
        Max := { X := goRound ((w : ℚ) * wide / 2), Y := h.tdiv 2 } }
    let canvas := fillUniform canvas (bgColorOf ctxBg)
    (List.range w.toNat).foldl (fun cv x =>
      (List.range h.toNat).foldl (fun cv y =>
        let u : ℚ := ((x : Int) - w.tdiv 2 : Int)
        let v : ℚ := ((y : Int) - h.tdiv 2 : Int)
        cv.Set (goTrunc (c * u + -s * v)) (goTrunc (s * u + c * v)) (img.At x y)) cv) canvas

/-- The `float64` constant `0.001`, exactly. -/
def scaleTolerance : ℚ := 1152921504606847 / 1152921504606846976

/-- The function `Scale(ctx, img, c)`; `ctxBg` is the context value for
`BackgroundColor`. -/
def Scale (ctxBg : Option RGBA) (img : Image) (c : ℚ) : Image :=
  if |c - 1| < scaleTolerance then img
  else
    let c := if c < 0 then 0 else c
    let fillFactor : Int := if c > 1 then goRound (c / (1 / 2)) else 1
    let scaled := NewRGBA
      (Rect 0 0 (goRound ((img.Bounds.Max.X : ℚ) * c)) (goRound ((img.Bounds.Max.Y : ℚ) * c)))
    let scaled := fillUniform scaled (bgColorOf ctxBg)
    (List.range img.Bounds.Dx.toNat).foldl (fun cv x =>
      (List.range img.Bounds.Dy.toNat).foldl (fun cv y =>
        (List.range (2 * fillFactor).toNat).foldl (fun cv k =>
          let i : Int := (k : Int) - fillFactor
          cv.Set (goRound (c * (x : Int)) + i) (goRound (c * (y : Int)) + i) (img.At x y))
          cv) cv) scaled

/-! ## Sample data -/

/-- A 2×2 canvas with four distinct colours. -/
def sampleImage : Image :=
  { Rect := Rect 0 0 2 2, Pix := fun x y => { R := x.toNat, G := y.toNat, B := 0, A := 255 } }

/-- Trigonometric values for a quarter turn, used with `sampleImage`. -/
def sampleTrig : Trig :=
  { cos := fun _ => 0, sin := fun _ => 1 }

/-! ## Fuzzer configuration (draw.go)

A `float64` taken from the configuration is a finite number, an infinity or
NaN.  Finite values are rationals and their arithmetic is exact; zero has no
sign. -/

/-- A `float64` value. -/
inductive Float64 where
  | fin (q : ℚ)
  | inf (negative : Bool)
  | nan
  deriving DecidableEq

/-- The comparison `a < b`; false when an operand is NaN. -/
def Float64.lt : Float64 → Float64 → Bool
  | .fin a, .fin b => decide (a < b)
  | .fin _, .inf s => !s
  | .inf s, .fin _ => s
  | .inf s, .inf t => s && !t
  | _, _ => false

/-- The negation `-a`. -/
def Float64.neg : Float64 → Float64
  | .fin a => .fin (-a)
  | .inf s => .inf (!s)
  | .nan => .nan

/-- The sum `a + b`. -/
def Float64.add : Float64 → Float64 → Float64
  | .fin a, .fin b => .fin (a + b)
  | .fin _, .inf s => .inf s
  | .inf s, .fin _ => .inf s
  | .inf s, .inf t => if s = t then .inf s else .nan
  | _, _ => .nan

/-- The difference `a - b`. -/
def Float64.sub (a b : Float64) : Float64 :=
  Float64.add a (Float64.neg b)

/-- The product `a * b`. -/
def Float64.mul : Float64 → Float64 → Float64
  | .fin a, .fin b => .fin (a * b)
  | .fin a, .inf s => if a = 0 then .nan else .inf (xor s (decide (a < 0)))
  | .inf s, .fin b => if b = 0 then .nan else .inf (xor s (decide (b < 0)))
  | .inf s, .inf t => .inf (xor s t)
  | _, _ => .nan

/-- The quotient `a / b`.  A finite number divided by zero is NaN for `0 / 0`
and an infinity otherwise. -/
def Float64.div : Float64 → Float64 → Float64
  | .fin a, .fin b =>
    if b = 0 then (if a = 0 then .nan else .inf (decide (a < 0))) else .fin (a / b)
  | .fin _, .inf _ => .fin 0
  | .inf s, .fin b => .inf (xor s (decide (b < 0)))
  | _, _ => .nan

/-- The function `math.Round`. -/
def Float64.round : Float64 → Float64
  | .fin a => .fin (goRound a)
  | .inf s => .inf s
  | .nan => .nan

/-- The conversion `int(f)`: truncation toward zero.  For a value that does not
fit, an infinity or NaN the language leaves the result open; the value given
is the one of amd64, `-2^63`. -/
def Float64.toInt : Float64 → Int
  | .fin a => toInt64 (goTrunc a)
  | _ => -9223372036854775808

/-- The conversion `float64(n)` of an `int`. -/
def Float64.ofInt (n : Int) : Float64 :=
  .fin (float64OfInt n)

/-- The value is a number between `lo` and `hi`. -/
def Float64.within (lo hi : ℚ) : Float64 → Bool
  | .fin a => decide (lo ≤ a ∧ a ≤ hi)
  | _ => false

/-- The function `normalizeNoise`. -/
def normalizeNoise (n : Float64) : Float64 :=
  if Float64.lt (.fin 1) n then .fin 1 else if Float64.lt n (.fin 0) then .fin 0 else n

/-- The function `normalizeSlope`. -/
def normalizeSlope (m : Float64) : Float64 :=
  if Float64.lt (.fin 2) m then .fin 2 else if Float64.lt m (.fin (-2)) then .fin (-2) else m

/-- The values a fuzzer factory looks up in its context: `FuzzColor1CtxKey`,
`FuzzColor2CtxKey`, `FuzzNoiseCtxKey`, `FuzzBandThicknessCtxKey` and
`FuzzSlopeCtxKey`; `none` when the key is absent or holds another type. -/
structure FuzzCtx where
  color1 : Option RGBA
  color2 : Option RGBA
  noise : Option Float64
  thickness : Option Int
  slope : Option Float64

/-- The context `context.Background()`: no key is set. -/
def emptyCtx : FuzzCtx :=
  { color1 := none, color2 := none, noise := none, thickness := none, slope := none }

/-- The variable `noise` of `RandomLines` after the context lookup. -/
def RandomLines.noise (ctx : FuzzCtx) : Float64 :=
  match ctx.noise with
  | some n => normalizeNoise n
  | none => .fin (1 / 2)

/-- The variable `noise` of `RandomCircles` after the context lookup. -/
def RandomCircles.noise (ctx : FuzzCtx) : Float64 :=
  match ctx.noise with
  | some n => normalizeNoise n
  | none => .fin (1 / 2)

/-- The variable `noise` of `ConcentricCircles` after the context lookup. -/
def ConcentricCircles.noise (ctx : FuzzCtx) : Float64 :=
  match ctx.noise with
  | some n => normalizeNoise n
  | none => .fin (1 / 2)

/-- The variable `slope` of `Bands` after the context lookup:
`slope = normalizeSlope(-n)`, default `-1.0`. -/
def Bands.slope (ctx : FuzzCtx) : Float64 :=
  match ctx.slope with
  | some n => normalizeSlope (Float64.neg n)
  | none => .fin (-1)

/-- The variable `slope` of `AccurateBands` after the context lookup and the
inline clamp, default `1.0`. -/
def AccurateBands.slope (ctx : FuzzCtx) : Float64 :=
  let slope : Float64 := match ctx.slope with
    | some n => n
    | none => .fin 1
  if Float64.lt (.fin 2) slope then .fin 2
  else if Float64.lt slope (.fin (-2)) then .fin (-2) else slope

/-! ## The `Set` calls of `Scale` -/

/-- The value of `c` after the clamp `if c < 0.0 { c = 0.0 }` of `Scale`. -/
def scaleFactor (c : ℚ) : ℚ :=
  if c < 0 then 0 else c

/-- The variable `fillFactor` of `Scale`. -/
def scaleFill (c : ℚ) : Int :=
  if scaleFactor c > 1 then goRound (scaleFactor c / (1 / 2)) else 1

/-- The `Set` calls that the innermost loop of `Scale` issues for the source
pixel `(x, y)`, in order: destination coordinates and colour. -/
def scaleStamp (img : Image) (c : ℚ) (x y : Nat) : List (Int × Int × RGBA) :=
  (List.range (2 * scaleFill c).toNat).map (fun (k : Nat) =>
    (goRound (scaleFactor c * (x : Int)) + ((k : Int) - scaleFill c),
     goRound (scaleFactor c * (y : Int)) + ((k : Int) - scaleFill c), img.At x y))

/-- All `Set` calls of `Scale`, in order: `x` outermost, then `y`, then `i`. -/
def scaleWrites (img : Image) (c : ℚ) : List (Int × Int × RGBA) :=
  (List.range img.Bounds.Dx.toNat).flatMap (fun (x : Nat) =>
    (List.range img.Bounds.Dy.toNat).flatMap (fun (y : Nat) => scaleStamp img c x y))

/-- The canvas `scaled` of `Scale` before the pixel loops: allocated and filled
with the background colour. -/
def scaleCanvas (ctxBg : Option RGBA) (img : Image) (c : ℚ) : Image :=
  fillUniform
    (NewRGBA (Rect 0 0 (goRound ((img.Bounds.Max.X : ℚ) * scaleFactor c))
      (goRound ((img.Bounds.Max.Y : ℚ) * scaleFactor c))))
    (bgColorOf ctxBg)

/-- A 10×4 canvas. -/
def wideImage : Image :=
  { Rect := Rect 0 0 10 4, Pix := fun x y => { R := x.toNat, G := y.toNat, B := 0, A := 255 } }

/-- A 10×10 canvas whose bounds are centred on the origin, as the bounds of a
canvas returned by `Rotate` are. -/
def centredImage : Image :=
  { Rect := { Min := { X := -5, Y := -5 }, Max := { X := 5, Y := 5 } },
    Pix := fun _ _ => { R := 0, G := 0, B := 0, A := 255 } }

/-! ## Compositing and the random fuzzers (draw.go)

The global random source is a stream `rnd` of raw non-negative draws; the
`k`-th call of `rand.Intn(n)` returns `rnd k % n`.  A function that can panic
returns `none` when it does. -/

/-- The call `rand.Intn(n)` on the raw draw `raw`; it panics for `n ≤ 0`. -/
def Intn (raw : Nat) (n : Int) : Option Int :=
  if n ≤ 0 then none else some ((raw : Int) % n)

/-- Collects the results of a list of computations, `none` if one of them is. -/
def collect {α : Type} : List (Option α) → Option (List α)
  | [] => some []
  | o :: os => o.bind (fun a => (collect os).map (fun l => a :: l))

/-- The call `drawLine(img, x0, y0, x1, y1, col)` of `RandomLines` run to its
`break`: the coordinates written.  The endpoints lie on the canvas, and the
fuel is the number of iterations the loop then makes. -/
def drawLineWrites (x0 y0 x1 y1 : Int) : List (Int × Int) :=
  (drawLine (max (x1 - x0).natAbs (y1 - y0).natAbs + 1) x0 y0 x1 y1).getD []

/-- The call `drawCircle(img, x0, y0, r, c)` run to the end of its loop: the
coordinates written. -/
def drawCircleWrites (x0 y0 r : Int) : List (Int × Int) :=
  (drawCircle (r.toNat + 1) x0 y0 r).getD []

/-- The loop `for rr := r; rr > 0; rr-- { drawCircle(circles, cx, cy, rr, col) }`
of `RandomCircles`: the coordinates written, ring after ring. -/
def diskWrites (cx cy r : Int) : List (Int × Int) :=
  (List.range r.toNat).flatMap (fun (k : Nat) => drawCircleWrites cx cy (r - (k : Int)))

/-- Applies `Set(x, y, col)` for each listed coordinate, in order. -/
def paint (cv : Image) (ws : List (Int × Int)) (col : RGBA) : Image :=
  ws.foldl (fun cv w => cv.Set w.1 w.2 col) cv

/-- One channel of the source-over rule of `draw.Draw` for two RGBA images:
`uint8((d*a/m + s*0x101) >> 8)` with `m = 1<<16 - 1` and
`a = (m - sa*0x101) * 0x101`. -/
def overChannel (d s sa : Nat) : Nat :=
  ((d * ((65535 - sa * 257) * 257) / 65535 + s * 257) / 256) % 256

/-- The source-over rule on one pixel. -/
def overPixel (d s : RGBA) : RGBA :=
  { R := overChannel d.R s.R s.A, G := overChannel d.G s.G s.A,
    B := overChannel d.B s.B s.A, A := overChannel d.A s.A s.A }

/-- The call `draw.Draw(dst, r, src, sp, draw.Over)` for RGBA images: every
pixel of `r` that lies in `dst` and whose source point `sp + (p - r.Min)` lies
in `src` is blended; the bounds of `dst` do not change. -/
def drawOver (dst : Image) (r : Rectangle) (src : Image) (sp : Point) : Image :=
  { dst with Pix := fun x y =>
      if dst.Rect.has x y && r.has x y &&
          src.Rect.has (x - r.Min.X + sp.X) (y - r.Min.Y + sp.Y) then
        overPixel (dst.Pix x y) (src.Pix (x - r.Min.X + sp.X) (y - r.Min.Y + sp.Y))
      else dst.Pix x y }

/-- A fuzzer (`type Fuzzer func(img draw.Image)`): the canvas after the call,
`none` when the call does not return. -/
abbrev Fuzzer := Image → Option Image

/-- The frame shared by the closures that `RandomLines`, `RandomCircles`,
`ConcentricCircles`, `Bands` and `AccurateBands` return: allocate
`image.NewRGBA(img.Bounds())`, draw on it (`draws`), then
`draw.Draw(img, img.Bounds(), scratch, image.ZP, draw.Over)`. -/
def overlayFuzzer (draws : Image → Option Image) : Fuzzer :=
  fun img => (draws (NewRGBA img.Bounds)).map (fun scratch =>
    drawOver img img.Bounds scratch { X := 0, Y := 0 })

/-- Number of iterations of `for i := 0; i < int(noise*100); i++` in
`RandomLines`. -/
def RandomLines.count (noise : Float64) : Nat :=
  (Float64.toInt (Float64.mul noise (.fin 100))).toNat

/-- The endpoints `x0, y0, x1, y1` drawn in iteration `i` of `RandomLines`. -/
def RandomLines.segment (rnd : Nat → Nat) (r : Rectangle) (i : Nat) :
    Option (Int × Int × Int × Int) :=
  (Intn (rnd (4 * i)) r.Max.X).bind (fun x0 =>
    (Intn (rnd (4 * i + 1)) r.Max.Y).bind (fun y0 =>
      (Intn (rnd (4 * i + 2)) r.Max.X).bind (fun x1 =>
        (Intn (rnd (4 * i + 3)) r.Max.Y).bind (fun y1 => some (x0, y0, x1, y1)))))

/-- The `drawLine` calls of one invocation of the `RandomLines` fuzzer on a
canvas with bounds `r`. -/
def RandomLines.segments (noise : Float64) (rnd : Nat → Nat) (r : Rectangle) :
    Option (List (Int × Int × Int × Int)) :=
  collect ((List.range (RandomLines.count noise)).map (RandomLines.segment rnd r))

/-- The colour of `RandomLines`: `FuzzColor1CtxKey` or
`color.RGBA{192, 192, 192, 192}`. -/
def RandomLines.col (ctx : FuzzCtx) : RGBA :=
  match ctx.color1 with
  | some c => c
  | none => { R := 192, G := 192, B := 192, A := 192 }

/-- What the closure returned by `RandomLines(ctx)` draws on its scratch canvas
`lines`; `none` when a `rand.Intn` call panics. -/
def RandomLines.draws (ctx : FuzzCtx) (rnd : Nat → Nat) (lines : Image) : Option Image :=
  (RandomLines.segments (RandomLines.noise ctx) rnd lines.Rect).map (fun segs =>
    segs.foldl (fun cv s => paint cv (drawLineWrites s.1 s.2.1 s.2.2.1 s.2.2.2)
      (RandomLines.col ctx)) lines)

/-- The fuzzer returned by `RandomLines(ctx)`. -/
def RandomLines (ctx : FuzzCtx) (rnd : Nat → Nat) : Fuzzer :=
  overlayFuzzer (RandomLines.draws ctx rnd)

/-- Number of iterations of `for i := 0; i < int(math.Round(noise*10)); i++` in
`RandomCircles`. -/
def RandomCircles.count (noise : Float64) : Nat :=
  (Float64.toInt (Float64.round (Float64.mul noise (.fin 10)))).toNat

/-- The values `r, cx, cy` drawn in iteration `i` of `RandomCircles`. -/
def RandomCircles.disk (rnd : Nat → Nat) (r : Rectangle) (i : Nat) : Option (Int × Int × Int) :=
  (Intn (rnd (3 * i)) r.Max.Y).bind (fun rr =>
    (Intn (rnd (3 * i + 1)) r.Max.X).bind (fun cx =>
      (Intn (rnd (3 * i + 2)) r.Max.Y).bind (fun cy => some (rr, cx, cy))))

/-- The colour of `RandomCircles`: `FuzzColor1CtxKey`, or the gray
`color.RGBA{k, k, k, k}` with `k = uint8(rand.Intn(128))` drawn by the factory
from the raw value `k0`. -/
def RandomCircles.col (ctx : FuzzCtx) (k0 : Nat) : RGBA :=
  match ctx.color1 with
  | some c => c
  | none => { R := k0 % 128 % 256, G := k0 % 128 % 256, B := k0 % 128 % 256, A := k0 % 128 % 256 }

/-- What the closure returned by `RandomCircles(ctx)` draws on its scratch
canvas `circles`; `none` when a `rand.Intn` call panics. -/
def RandomCircles.draws (ctx : FuzzCtx) (k0 : Nat) (rnd : Nat → Nat) (circles : Image) :
    Option Image :=
  (collect ((List.range (RandomCircles.count (RandomCircles.noise ctx))).map
      (RandomCircles.disk rnd circles.Rect))).map (fun disks =>
    disks.foldl (fun cv d => paint cv (diskWrites d.2.1 d.2.2 d.1)
      (RandomCircles.col ctx k0)) circles)

/-- The fuzzer returned by `RandomCircles(ctx)`. -/
def RandomCircles (ctx : FuzzCtx) (k0 : Nat) (rnd : Nat → Nat) : Fuzzer :=
  overlayFuzzer (RandomCircles.draws ctx k0 rnd)

/-- The function `gen(text, fd, fuzzers...)` with the fuzzers applied one
after the other in the order of the list; `none` when a fuzzer does not
return. -/
def gen (text : List Nat) (fd : List Nat → Image) (fuzzers : List Fuzzer) : Option Image :=
  fuzzers.foldl (fun captcha fuzzer => captcha.bind fuzzer) (some (fd text))

/-- Every channel stored inside the bounds of the canvas is an 8-bit value. -/
def Image.valid (img : Image) : Prop :=
  ∀ x y, img.Rect.has x y = true →
    (img.Pix x y).R < 256 ∧ (img.Pix x y).G < 256 ∧ (img.Pix x y).B < 256 ∧ (img.Pix x y).A < 256

/-- The canvas of width 0 that the text layout produces for the empty text. -/
def emptyImage : Image :=
  NewRGBA (Rect 0 0 0 50)

/-! ## `parseExpr` (gotcha.go)

Go `int` is the 64-bit signed type; sums, differences, products and quotients
wrap around modulo `2^64`. -/

/-- The call `strings.Split(s, " ")`. -/
def splitSpaces : List Nat → List (List Nat)
  | [] => [[]]
  | c :: cs =>
    if c = 32 then [] :: splitSpaces cs
    else
      match splitSpaces cs with
      | [] => [[c]]
      | p :: ps => (c :: p) :: ps

/-- The byte is an ASCII decimal digit. -/
def isDigit (c : Nat) : Bool :=
  decide (48 ≤ c) && decide (c ≤ 57)

/-- The value of a string of decimal digits. -/
def digitsValue (ds : List Nat) : Nat :=
  ds.foldl (fun n c => n * 10 + (c - 48)) 0

/-- The library function `strconv.Atoi`: the parsed value, or `none` when it
returns an error (empty string, a byte that is not a digit after the optional
sign, or a value outside the range of `int`). -/
def Atoi (s : List Nat) : Option Int :=
  let ds := if s.head? = some 45 ∨ s.head? = some 43 then s.tail else s
  if ds = [] ∨ ds.all isDigit = false then none
  else
    let v : Int := if s.head? = some 45 then -(digitsValue ds : Int) else (digitsValue ds : Int)
    if -9223372036854775808 ≤ v ∧ v ≤ 9223372036854775807 then some v else none

/-- The decimal digits of `n`, least significant first; `fuel` bounds their
number. -/
def digitsRev : Nat → Nat → List Nat
  | 0, _ => []
  | fuel + 1, n => if n < 10 then [n + 48] else (n % 10 + 48) :: digitsRev fuel (n / 10)

/-- The library function `strconv.Itoa`. -/
def Itoa (n : Int) : List Nat :=
  if n < 0 then 45 :: (digitsRev (n.natAbs + 1) n.natAbs).reverse
  else (digitsRev (n.natAbs + 1) n.natAbs).reverse

/-- The function `parseExpr(expr)`: the returned string and whether the
returned error is non-nil; `none` when the call panics (index out of range on
`split`, integer division by zero). -/
def parseExpr (expr : List Nat) : Option (List Nat × Bool) :=
  let split := splitSpaces expr
  match split[0]? with
  | none => none
  | some s0 =>
    match Atoi s0 with
    | none => some ([48], true)
    | some a =>
      match split[2]? with
      | none => none
      | some s2 =>
        match Atoi s2 with
        | none => some ([48], true)
        | some b =>
          match split[1]? with
          | none => none
          | some op =>
            if op = [43] then some (Itoa (wrapInt (a + b)), false)
            else if op = [45] then
              if a > b then some (Itoa (wrapInt (a - b)), false)
              else some (Itoa (wrapInt (b - a)), false)
            else if op = [195, 151] then some (Itoa (wrapInt (a * b)), false)
            else if op = [195, 183] then
              if a > b then
                if b = 0 then none else some (Itoa (wrapInt (a.tdiv b)), false)
              else
                if a = 0 then none else some (Itoa (wrapInt (b.tdiv a)), false)
            else some ([48], true)

/-- The expression string `"a op b"`: the operands in decimal, separated from
the operator by single spaces. -/
def exprString (a : Nat) (op : List Nat) (b : Nat) : List Nat :=
  Itoa a ++ 32 :: (op ++ 32 :: Itoa b)

/-! ## `ConcentricCircles`, `Bands` and `AccurateBands` (draw.go) -/

/-- The goroutine body of `ConcentricCircles`, one ring stack: the loop
`for j := r; j >= 0; j -= thickness`, whose body picks `col` from `swtch`, calls
`drawCircle(circles, cx, cy, rr, col)` for `rr = j, j-1, ..., j-thickness` and
flips `swtch`.  The result lists the `drawCircle` calls in order, as radius and
colour; one unit of fuel is one evaluation of `j >= 0`. -/
def ringStack (thickness : Int) (col1 col2 : RGBA) : Nat → Int → Bool → Option (List (Int × RGBA))
  | 0, _, _ => none
  | fuel + 1, j, swtch =>
    if j ≥ 0 then
      (ringStack thickness col1 col2 fuel (j - thickness) (!swtch)).map (fun rest =>
        (List.range (thickness + 1).toNat).map
          (fun (k : Nat) => (j - (k : Int), if swtch then col1 else col2)) ++ rest)
    else
      some []

/-- Number of iterations of `for i := 0; i < int(math.Round(noise*20)); i++` in
`ConcentricCircles`. -/
def ConcentricCircles.count (noise : Float64) : Nat :=
  (Float64.toInt (Float64.round (Float64.mul noise (.fin 20)))).toNat

/-- The values `r, cx, cy` drawn in iteration `i` of `ConcentricCircles`. -/
def ConcentricCircles.disk (rnd : Nat → Nat) (r : Rectangle) (i : Nat) :
    Option (Int × Int × Int) :=
  (Intn (rnd (3 * i)) r.Max.Y).bind (fun rr =>
    (Intn (rnd (3 * i + 1)) r.Max.X).bind (fun cx =>
      (Intn (rnd (3 * i + 2)) r.Max.Y).bind (fun cy => some (rr, cx, cy))))

/-- The first colour of a band fuzzer: `FuzzColor1CtxKey` or
`color.RGBA{192, 192, 192, 192}`. -/
def bandCol1 (ctx : FuzzCtx) : RGBA :=
  match ctx.color1 with
  | some c => c
  | none => { R := 192, G := 192, B := 192, A := 192 }

/-- The second colour of a band fuzzer: `FuzzColor2CtxKey` or
`color.RGBA{128, 128, 128, 128}`. -/
def bandCol2 (ctx : FuzzCtx) : RGBA :=
  match ctx.color2 with
  | some c => c
  | none => { R := 128, G := 128, B := 128, A := 128 }

/-- The band thickness: `FuzzBandThicknessCtxKey` or 10. -/
def bandThickness (ctx : FuzzCtx) : Int :=
  match ctx.thickness with
  | some n => n
  | none => 10

/-- What the closure returned by `ConcentricCircles(ctx)` draws on its scratch
canvas, the ring stacks taken one after the other; `none` when a `rand.Intn`
call panics or a ring stack does not finish within `fuel`. -/
def ConcentricCircles.draws (ctx : FuzzCtx) (fuel : Nat) (rnd : Nat → Nat) (circles : Image) :
    Option Image :=
  (collect ((List.range (ConcentricCircles.count (ConcentricCircles.noise ctx))).map
      (ConcentricCircles.disk rnd circles.Rect))).bind (fun disks =>
    disks.foldl (fun (acc : Option Image) d =>
      acc.bind (fun cv =>
        (ringStack (bandThickness ctx) (bandCol1 ctx) (bandCol2 ctx) fuel d.1 true).map
          (fun calls => calls.foldl
            (fun cv call => paint cv (drawCircleWrites d.2.1 d.2.2 call.1) call.2) cv)))
      (some circles))

/-- The fuzzer returned by `ConcentricCircles(ctx)`. -/
def ConcentricCircles (ctx : FuzzCtx) (fuel : Nat) (rnd : Nat → Nat) : Fuzzer :=
  overlayFuzzer (ConcentricCircles.draws ctx fuel rnd)

/-- The function `lineEqB`: `b = y - m*x`. -/
def lineEqB (m : Float64) (x y : Int) : Int :=
  wrapInt (y - Float64.toInt (Float64.round (Float64.mul m (Float64.ofInt x))))

/-- The function `lineEqY`: `y = m*x + b`. -/
def lineEqY (m : Float64) (x b : Int) : Int :=
  Float64.toInt (Float64.round (Float64.add (Float64.mul m (Float64.ofInt x)) (Float64.ofInt b)))

/-- The function `lineEqX`: `x = (y - b)/m`. -/
def lineEqX (m : Float64) (y b : Int) : Int :=
  Float64.toInt (Float64.round (Float64.div (Float64.sub (Float64.ofInt y) (Float64.ofInt b)) m))

/-- The `for { ... }` loop of the closure returned by `Bands`: the `drawLine`
calls it makes, as `(x, y, x1, y1, col)`.  `maxX, maxY` are `bands.Rect.Max`;
`x y i col` are the loop variables.  `none` when `i%thickness` panics
(`thickness = 0`) or when the `break` is not reached within `fuel`
iterations. -/
def bandsLoop (slope : Float64) (thickness : Int) (col1 col2 : RGBA) (maxX maxY : Int) :
    Nat → Int → Int → Int → RGBA → Option (List (Int × Int × Int × Int × RGBA))
  | 0, _, _, _, _ => none
  | fuel + 1, x, y, i, col =>
    if thickness = 0 then none
    else
      let col := if i.tmod thickness = 0 then (if col = col1 then col2 else col1) else col
      if y = maxY ∧ x = maxX + maxY then some []
      else
        let b := lineEqB slope x y
        let y1 := wrapInt (-lineEqY slope (wrapInt (x + thickness)) b)
        let x1 := wrapInt (-lineEqX slope (wrapInt (-y1)) (wrapInt (-b)))
        let xn := if y = maxY then x + 1 else x
        let yn := if y < maxY then y + 1 else y
        (bandsLoop slope thickness col1 col2 maxX maxY fuel xn yn (i + 1) col).map
          (fun rest => (x, y, x1, y1, col) :: rest)

/-- What the closure returned by `Bands(ctx)` draws on its scratch canvas, the
`drawLine` calls taken one after the other; `none` when the loop of the
closure or one of the `drawLine` calls does not finish within `fuel`
iterations. -/
def Bands.draws (ctx : FuzzCtx) (fuel : Nat) (bands : Image) : Option Image :=
  (bandsLoop (Bands.slope ctx) (bandThickness ctx) (bandCol1 ctx) (bandCol2 ctx)
      bands.Rect.Max.X bands.Rect.Max.Y fuel (wrapInt (-bandThickness ctx)) 0 0
      { R := 0, G := 0, B := 0, A := 0 }).bind (fun segs =>
    segs.foldl (fun (acc : Option Image) s =>
      acc.bind (fun cv =>
        (drawLine fuel s.1 s.2.1 s.2.2.1 s.2.2.2.1).map (fun ws => paint cv ws s.2.2.2.2)))
      (some bands))

/-- The fuzzer returned by `Bands(ctx)`. -/
def Bands (ctx : FuzzCtx) (fuel : Nat) : Fuzzer :=
  overlayFuzzer (Bands.draws ctx fuel)

/-- The goroutine body of `AccurateBands` for one band with intercept `b`: the
coordinates of its `bands.Set` calls, for `i = 0, ..., thickness-1` and
`x = -thickness, ..., width`. -/
def accurateBandWrites (slope : Float64) (thickness width b : Int) : List (Int × Int) :=
  (List.range thickness.toNat).flatMap (fun (i : Nat) =>
    (List.range (width + thickness + 1).toNat).map (fun (k : Nat) =>
      (-thickness + (k : Int) + (i : Int),
        wrapInt (wrapInt (-lineEqY slope (-thickness + (k : Int) + (i : Int)) b) - (i : Int)))))

/-- The outer loop of `AccurateBands`,
`for j := -thickness; j < bands.Rect.Max.X*2+thickness; j += thickness`, with
the variables `j, intercept, swtch`: the bands started, as intercept and
colour.  One unit of fuel is one evaluation of the loop condition. -/
def accurateBandsLoop (slope : Float64) (thickness maxX : Int) (col1 col2 : RGBA) :
    Nat → Int → Int → Bool → Option (List (Int × RGBA))
  | 0, _, _, _ => none
  | fuel + 1, j, intercept, swtch =>
    if j < maxX * 2 + thickness then
      (accurateBandsLoop slope thickness maxX col1 col2 fuel (j + thickness)
        (if Float64.lt slope (.fin 0) then intercept + thickness else intercept - thickness)
        (!swtch)).map
        (fun rest => (intercept, if swtch then col1 else col2) :: rest)
    else
      some []

/-- What the closure returned by `AccurateBands(ctx)` draws on its scratch
canvas, the bands taken one after the other. -/
def AccurateBands.draws (ctx : FuzzCtx) (fuel : Nat) (bands : Image) : Option Image :=
  (accurateBandsLoop (AccurateBands.slope ctx) (bandThickness ctx) bands.Rect.Max.X
      (bandCol1 ctx) (bandCol2 ctx) fuel (-bandThickness ctx)
      (if Float64.lt (AccurateBands.slope ctx) (.fin 0) then -bands.Rect.Max.Y else 0)
      true).map (fun bs =>
    bs.foldl (fun cv b =>
      paint cv (accurateBandWrites (AccurateBands.slope ctx) (bandThickness ctx)
        bands.Bounds.Dx b.1) b.2) bands)

/-- The fuzzer returned by `AccurateBands(ctx)`. -/
def AccurateBands (ctx : FuzzCtx) (fuel : Nat) : Fuzzer :=
  overlayFuzzer (AccurateBands.draws ctx fuel)

/-! ## The `Inconsolata` font drawer (fonts.go)

A `FontVariant` is its number: 1 for `VariantInconsolataGray`, 2 for
`VariantInconsolataBlack`, 3 for `VariantInconsolataInverted`.  A rune is its
code point.  The sprite sheets (`b64assets`) are not part of the sources, so
the decoded sheet of a variant is a parameter, as an RGBA image. -/

/-- The runes of the constant `chars`, in order. -/
def chars : List Nat :=
  [97, 98, 99, 100, 101, 102, 103, 104, 105, 106, 107, 108, 109, 110, 111, 112, 113, 114, 115,
    116, 117, 118, 119, 120, 121, 122, 65, 66, 67, 68, 69, 70, 71, 72, 73, 74, 75, 76, 77, 78,
    79, 80, 81, 82, 83, 84, 85, 86, 87, 88, 89, 90, 48, 49, 50, 51, 52, 53, 54, 55, 56, 57, 96,
    126, 33, 64, 35, 36, 37, 94, 38, 42, 40, 41, 123, 125, 91, 93, 39, 34, 60, 62, 44, 46, 47,
    61, 191, 63, 43, 45, 95, 92, 124, 59, 58, 8216, 8217, 8220, 8221, 161, 162, 163, 8364, 165,
    352, 167, 353, 215, 247, 8249, 8250, 8594, 8592, 8593, 8595, 192, 193, 194, 195, 196, 197,
    198, 199, 200, 201, 202, 203, 204, 205, 206, 207, 208, 209, 210, 211, 212, 213, 214, 216,
    217, 218, 219, 220, 221, 222, 223, 224, 225, 226, 227, 228, 229, 230, 231, 232, 233, 234,
    235, 236, 237, 238, 239, 240, 241, 242, 243, 244, 245, 246, 248, 249, 250, 251, 252, 253,
    254, 255, 260, 317, 346, 350, 356, 377, 379, 340, 258, 313, 262, 268, 280, 282, 270, 323,
    327, 336, 344, 366, 369, 322, 261, 259, 269, 271, 281, 318, 314, 324, 328, 337, 345, 347,
    351, 367, 348, 312, 331, 913, 945, 914, 946, 916, 948, 917, 949, 934, 966, 915, 947, 919,
    951, 921, 953, 920, 952, 922, 954, 923, 955, 924, 956, 925, 957, 927, 959, 928, 960, 935,
    967, 929, 961, 931, 963, 932, 964, 933, 965, 937, 969, 926, 958, 936, 968, 918, 950, 32]

/-- The test that ends a row of the sprite sheet:
`r == 'z' || r == 'Z' || r == ']' || r == '€' || r == 'Í' || r == 'è' ||
r == 'Ş' || r == 'ń' || r == 'Θ' || r == 'Ξ'`. -/
def rowEnd (r : Nat) : Bool :=
  r == 122 || r == 90 || r == 93 || r == 8364 || r == 205 || r == 232 || r == 350 ||
    r == 324 || r == 920 || r == 926

/-- The call `draw.Draw(dst, r, src, sp, draw.Src)` for RGBA images: every
pixel of `r` that lies in `dst` and whose source point `sp + (p - r.Min)` lies
in `src` is copied. -/
def drawSrc (dst : Image) (r : Rectangle) (src : Image) (sp : Point) : Image :=
  { dst with Pix := fun x y =>
      if dst.Rect.has x y && r.has x y &&
          src.Rect.has (x - r.Min.X + sp.X) (y - r.Min.Y + sp.Y) then
        src.Pix (x - r.Min.X + sp.X) (y - r.Min.Y + sp.Y)
      else dst.Pix x y }

/-- The package variables `inconsolataSrc`, `lastVariant`, `inconsolataCursor`
and `inconsolataFonts`; a map is its lookup function. -/
structure AtlasCache where
  src : Option Image
  lastVariant : Nat
  cursor : Nat → Option Rectangle
  fonts : Nat → Option Image

/-- The package variables at program start: `nil`, 0, `nil`, `nil`. -/
def AtlasCache.init : AtlasCache :=
  { src := none, lastVariant := 0, cursor := fun _ => none, fonts := fun _ => none }

/-- The image `fontImg` cut out of the sprite sheet for the cell `sr`. -/
def fontImg (sheet : Image) (sr : Rectangle) : Image :=
  let img := NewRGBA
    (Rectangle.mk (Point.mk 0 0) (Point.mk (sr.Max.X - sr.Min.X) (sr.Max.Y - sr.Min.Y)))
  let img := fillUniform img { R := 192, G := 192, B := 192, A := 255 }
  drawSrc img img.Bounds sheet sr.Min

/-- The loop `for _, r := range chars` of `Inconsolata` over the remaining
runes, with the loop variables `x, y` and the two maps held in `st`. -/
def buildAtlas (sheet : Image) : List Nat → Int → Int → AtlasCache → AtlasCache
  | [], _, _, st => st
  | r :: rest, x, y, st =>
    let sr := Rectangle.mk (Point.mk x y) (Point.mk (x + 24) (y + 50))
    let st1 : AtlasCache :=
      { st with
        cursor := fun k => if k = r then some sr else st.cursor k
        fonts := fun k => if k = r then some (fontImg sheet sr) else st.fonts k }
    if rowEnd r then buildAtlas sheet rest 0 (y + 50) st1
    else buildAtlas sheet rest (x + 24) y st1

/-- The condition `inconsolataSrc == nil || lastVariant != variant` under which
a call `Inconsolata(ctx)` rebuilds the atlas. -/
def Inconsolata.rebuilds (st : AtlasCache) (variant : Nat) : Bool :=
  st.src.isNone || st.lastVariant != variant

/-- The effect of one call `Inconsolata(ctx)` with the requested `variant` on
the package variables; `assets variant` is the decoded sprite sheet, `none`
when the lookup or `image.Decode` panics. -/
def Inconsolata.cacheStep (assets : Nat → Option Image) (st : AtlasCache) (variant : Nat) :
    Option AtlasCache :=
  if Inconsolata.rebuilds st variant then
    (assets variant).map (fun sheet =>
      buildAtlas sheet chars 0 0
        { src := some sheet, lastVariant := st.lastVariant,
          cursor := fun _ => none, fonts := fun _ => none })
  else
    some st

/-- A sequence of calls `Inconsolata(ctx)` with the listed variants. -/
def Inconsolata.calls (assets : Nat → Option Image) (variants : List Nat) (st : AtlasCache) :
    Option AtlasCache :=
  variants.foldl (fun (acc : Option AtlasCache) v =>
    acc.bind (fun s => Inconsolata.cacheStep assets s v)) (some st)

/-- The value stored under `BackgroundColor` by the `switch variant` of the
layout closure. -/
def Inconsolata.background (variant : Nat) : RGBA :=
  if variant = 2 then { R := 255, G := 255, B := 255, A := 255 }
  else if variant = 3 then { R := 0, G := 0, B := 0, A := 255 }
  else { R := 192, G := 192, B := 192, A := 255 }

/-- The variable `wide` of the layout closure (`1.3` taken exactly). -/
def Inconsolata.wide (randRot : Bool) (rotation : Int) : ℚ :=
  if (!randRot && decide (rotation ≥ 55 ∧ rotation < 125)) ||
      decide (rotation ≥ 235 ∧ rotation < 305) then 13 / 10 else 1

/-- The start of the layout closure, up to the statement
`draw.Draw(img, img.Bounds(), &image.Uniform{c}, image.ZP, draw.Src)`: the
canvas `img` after the fill, and the colour that the `switch variant` stores
in `ctx`.  `longest` and `nLines` are the results of `breakLines`; `c` is
declared by `var c color.RGBA` and not assigned. -/
def Inconsolata.canvas (variant : Nat) (scale : ℚ) (randRot : Bool) (rotation : Int)
    (longest nLines : Int) : Image × RGBA :=
  let wide := Inconsolata.wide randRot rotation
  let img := NewRGBA (Rect 0 0 (goTrunc (24 * (longest : ℚ) * scale * wide))
    (goTrunc (50 * (nLines : ℚ) * scale)))
  let c : RGBA := { R := 0, G := 0, B := 0, A := 0 }
  let bg := Inconsolata.background variant
  (fillUniform img c, bg)

/-- A call `draw.Draw(img, r, src, sp, op)` of the layout loop; `over` tells
`draw.Over` from `draw.Src`. -/
structure Composite where
  r : Rectangle
  src : Image
  sp : Point
  over : Bool

/-- The loop `for _, run := range line` of the layout closure on the remaining
runes of a line: the `draw.Draw` calls it makes, in order.  `xpos` is the
cursor, `k` counts the glyphs placed so far on the line; the glyph number `k`
is rotated by `rand.Intn(75) - 35` (raw draw `rnd k`) when `randRot` is set and
by `rotation` otherwise.  A rune in neither map only logs a message. -/
def layoutLine (st : AtlasCache) (trig : Trig) (bg : RGBA) (scale : ℚ) (randRot : Bool)
    (rotation : Int) (rnd : Nat → Nat) (ypos : Int) : List Nat → Int → Nat → List Composite
  | [], _, _ => []
  | run :: rest, xpos, k =>
    match st.fonts run with
    | some glyph =>
      let deg := if randRot then ((rnd k : Nat) : Int) % 75 - 35 else rotation
      let scaled := Scale (some bg) glyph scale
      let rotated := Rotate trig (some bg) scaled deg
      let r := Rectangle.mk (Point.mk xpos ypos)
        (Point.mk (xpos + rotated.Bounds.Dx) (ypos + rotated.Bounds.Dy))
      { r := r, src := rotated, sp := rotated.Bounds.Min, over := true } ::
        layoutLine st trig bg scale randRot rotation rnd ypos rest
          (xpos + rotated.Bounds.Dx) (k + 1)
    | none =>
      match st.cursor run, st.src with
      | some sr, some sheet =>
        let r := Rectangle.mk (Point.mk xpos ypos)
          (Point.mk (xpos + sr.Dx) (ypos + sr.Dy))
        { r := r, src := sheet, sp := sr.Min, over := false } ::
          layoutLine st trig bg scale randRot rotation rnd ypos rest
            (xpos + goTrunc (24 * scale)) k
      | _, _ => layoutLine st trig bg scale randRot rotation rnd ypos rest xpos k

/-- The package variables after one call `Inconsolata(ctx)` whose sprite sheet
decodes to `sampleImage`. -/
def sampleAtlas : AtlasCache :=
  buildAtlas sampleImage chars 0 0
    { src := some sampleImage, lastVariant := 0, cursor := fun _ => none, fonts := fun _ => none }

/-! # Theorems

## Loop invariants of `drawLine` -/

theorem getLast?_cons_of_head? {α : Type} (a : α) (l : List α) (b : α)
    (h : l.head? = some b) : (a :: l).getLast? = l.getLast? := by
  cases l with
  | nil => simp at h
  | cons c t => simp [List.getLast?_cons_cons]

/-- Loop invariant, x-major case (`dy = -b`, `b ≤ a = dx`): with `p` steps
left in x and `q` in y, and the error term within half a step of the ideal
line, the loop needs `p + 1` iterations and advances x in each of them. -/
theorem drawLineLoopExact_xmajor (x1 y1 a b sx sy : Int)
    (hsx : sx = 1 ∨ sx = -1) (hsy : sy = 1 ∨ sy = -1) (ha : 0 ≤ a) (hb : 0 ≤ b) (hba : b ≤ a) :
    ∀ (fuel p q : Nat) (x y err : Int),
      x1 = x + sx * p → y1 = y + sy * q → (p : Int) ≤ a → (q : Int) ≤ b →
      err = a - b + (p * b - q * a) →
      -a ≤ 2 * ((p : Int) * b - q * a) → 2 * ((p : Int) * b - q * a) ≤ a →
      p + 1 ≤ fuel →
      ∃ ws, drawLineLoopExact x1 y1 a (-b) sx sy fuel x y err = some ws ∧
        LineTrace x y x1 y1 p ws ∧ ∀ w ∈ ws, 0 ≤ sx * (w.1 - x) := by
  intro fuel
  induction fuel with
  | zero => intro p q x y err _ _ _ _ _ _ _ hf; omega
  | succ fuel ih =>
    intro p q x y err hx hy hpa hqb herr hlo hhi hf
    unfold drawLineLoopExact
    by_cases hdone : x = x1 ∧ y = y1
    · -- the break: both remaining distances are zero
      have hp0 : p = 0 := by
        have : sx * (p : Int) = 0 := by linarith [hdone.1]
        rcases hsx with rfl | rfl <;> omega
      subst hp0
      refine ⟨[(x, y)], by simp [hdone], ⟨by simp, by simp, by simp [hdone.1, hdone.2], by simp, by simp⟩, by simp⟩
    · rw [if_neg hdone]
      -- x still has to move
      have hp1 : 1 ≤ p := by
        by_contra hp
        have hp0 : p = 0 := by omega
        subst hp0
        have hxe : x = x1 := by simp at hx; exact hx.symm
        have hq1 : 1 ≤ q := by
          by_contra hq
          have hq0 : q = 0 := by omega
          subst hq0
          simp at hy
          exact hdone ⟨hxe, hy.symm⟩
        have h1 : (1 : Int) ≤ q := by exact_mod_cast hq1
        have h2 : a ≤ (q : Int) * a := by nlinarith
        simp at hlo hhi
        have : a = 0 := by linarith
        have : b = 0 := by linarith
        linarith
      obtain ⟨p', rfl⟩ : ∃ p', p = p' + 1 := ⟨p - 1, by omega⟩
      push_cast at hx hpa herr hlo hhi
      have hstepx : 2 * err ≥ -b := by rw [herr]; linarith
      simp only [hstepx, if_true]
      by_cases hstepy : 2 * err ≤ a
      · simp only [hstepy, if_true]
        have hq1 : 1 ≤ q := by
          by_contra hq
          have hq0 : q = 0 := by omega
          subst hq0
          simp at herr hlo hhi
          have h3 : 0 ≤ (p' : Int) * b := by positivity
          have : a = 0 := by linarith
          have : (0 : Int) ≤ p' := by positivity
          linarith
        obtain ⟨q', rfl⟩ : ∃ q', q = q' + 1 := ⟨q - 1, by omega⟩
        push_cast at hy hqb herr hlo hhi hstepy
        obtain ⟨ws, hws, htr, hmono⟩ := ih p' q' (x + sx) (y + sy) (err + -b + a)
          (by rw [hx]; ring) (by rw [hy]; ring) (by linarith) (by linarith)
          (by rw [herr]; ring) (by linarith) (by rw [herr] at hstepy; linarith) (by omega)
        refine ⟨(x, y) :: ws, by simp [hws], ⟨?_, ?_, ?_, ?_, ?_⟩, ?_⟩
        · simp [htr.len]
        · simp
        · rw [getLast?_cons_of_head? _ _ _ htr.head]; exact htr.last
        · rw [List.chain'_cons']
          refine ⟨?_, htr.chain⟩
          intro w hw
          rw [htr.head] at hw
          simp at hw
          subst hw
          refine ⟨?_, ?_, ?_⟩
          · rcases hsx with rfl | rfl <;> simp
          · rcases hsy with rfl | rfl <;> simp
          · intro h
            have := congrArg Prod.fst h
            simp at this
            rcases hsx with rfl | rfl <;> simp at this
        · rw [List.nodup_cons]
          refine ⟨?_, htr.nodup⟩
          intro hmem
          have := hmono _ hmem
          simp at this
          rcases hsx with rfl | rfl <;> simp at this
        · intro w hw
          rcases List.mem_cons.1 hw with rfl | hw
          · simp
          · have := hmono w hw
            rcases hsx with rfl | rfl <;> linarith
      · simp only [hstepy, if_false]
        obtain ⟨ws, hws, htr, hmono⟩ := ih p' q (x + sx) y (err + -b)
          (by rw [hx]; ring) hy (by linarith) hqb
          (by rw [herr]; ring) (by rw [herr] at hstepy; linarith) (by linarith) (by omega)
        refine ⟨(x, y) :: ws, by simp [hws], ⟨?_, ?_, ?_, ?_, ?_⟩, ?_⟩
        · simp [htr.len]
        · simp
        · rw [getLast?_cons_of_head? _ _ _ htr.head]; exact htr.last
        · rw [List.chain'_cons']
          refine ⟨?_, htr.chain⟩
          intro w hw
          rw [htr.head] at hw
          simp at hw
          subst hw
          refine ⟨?_, ?_, ?_⟩
          · rcases hsx with rfl | rfl <;> simp
          · simp
          · intro h
            have := congrArg Prod.fst h
            simp at this
            rcases hsx with rfl | rfl <;> simp at this
        · rw [List.nodup_cons]
          refine ⟨?_, htr.nodup⟩
          intro hmem
          have := hmono _ hmem
          simp at this
          rcases hsx with rfl | rfl <;> simp at this
        · intro w hw
          rcases List.mem_cons.1 hw with rfl | hw
          · simp
          · have := hmono w hw
            rcases hsx with rfl | rfl <;> linarith

/-- Exchanging the roles of the two axes (and negating the error term) runs
the same loop on the transposed picture. -/
theorem drawLineLoopExact_swap (x1 y1 dx dy sx sy : Int) :
    ∀ (fuel : Nat) (x y err : Int),
      drawLineLoopExact x1 y1 dx dy sx sy fuel x y err =
        (drawLineLoopExact y1 x1 (-dy) (-dx) sy sx fuel y x (-err)).map (List.map Prod.swap) := by
  intro fuel
  induction fuel with
  | zero => intro x y err; simp [drawLineLoopExact]
  | succ fuel ih =>
    intro x y err
    unfold drawLineLoopExact
    by_cases hdone : x = x1 ∧ y = y1
    · have hdone2 : y = y1 ∧ x = x1 := ⟨hdone.2, hdone.1⟩
      simp [hdone, hdone2]
    · have hdone2 : ¬ (y = y1 ∧ x = x1) := fun h => hdone ⟨h.2, h.1⟩
      rw [if_neg hdone, if_neg hdone2]
      have c1 : (2 * -err ≥ -dx) ↔ (2 * err ≤ dx) := by constructor <;> intro h <;> linarith
      have c2 : (2 * -err ≤ -dy) ↔ (2 * err ≥ dy) := by constructor <;> intro h <;> linarith
      simp only [c1, c2]
      rw [ih]
      by_cases h1 : 2 * err ≥ dy <;> by_cases h2 : 2 * err ≤ dx <;>
        simp [h1, h2, Option.map_map, Function.comp_def, neg_add, add_comm, add_left_comm]

theorem adj8_swap (p q : Int × Int) (h : adj8 p q) : adj8 p.swap q.swap := by
  obtain ⟨h1, h2, h3⟩ := h
  refine ⟨h2, h1, ?_⟩
  intro he
  exact h3 (Prod.swap_injective he)

theorem LineTrace.swap {x0 y0 x1 y1 : Int} {n : Nat} {ws : List (Int × Int)}
    (h : LineTrace y0 x0 y1 x1 n ws) : LineTrace x0 y0 x1 y1 n (ws.map Prod.swap) where
  len := by simp [h.len]
  head := by simp [h.head]
  last := by simp [List.getLast?_map, h.last]
  chain := by
    rw [List.chain'_map]
    exact h.chain.imp (fun p q hpq => adj8_swap p q hpq)
  nodup := h.nodup.map Prod.swap_injective

/-- Every run of `drawLineExact` with enough fuel returns, and its writes form a
`LineTrace` of `max(|x1-x0|, |y1-y0|) + 1` pixels. -/
theorem drawLineExact_trace (x0 y0 x1 y1 : Int) (fuel : Nat)
    (hf : max (x1 - x0).natAbs (y1 - y0).natAbs + 1 ≤ fuel) :
    ∃ ws, drawLineExact fuel x0 y0 x1 y1 = some ws ∧
      LineTrace x0 y0 x1 y1 (max (x1 - x0).natAbs (y1 - y0).natAbs) ws := by
  unfold drawLineExact
  simp only
  have hsx : (if x0 < x1 then (1 : Int) else -1) = 1 ∨ (if x0 < x1 then (1 : Int) else -1) = -1 := by
    split_ifs <;> simp
  have hsy : (if y0 < y1 then (1 : Int) else -1) = 1 ∨ (if y0 < y1 then (1 : Int) else -1) = -1 := by
    split_ifs <;> simp
  have hxe : x1 = x0 + (if x0 < x1 then (1 : Int) else -1) * ((x1 - x0).natAbs : Int) := by
    split_ifs <;> omega
  have hye : y1 = y0 + (if y0 < y1 then (1 : Int) else -1) * ((y1 - y0).natAbs : Int) := by
    split_ifs <;> omega
  have hpa : (((x1 - x0).natAbs : Nat) : Int) = |x1 - x0| := Int.natCast_natAbs _
  have hqb : (((y1 - y0).natAbs : Nat) : Int) = |y1 - y0| := Int.natCast_natAbs _
  by_cases hba : |y1 - y0| ≤ |x1 - x0|
  · have hmax : max (x1 - x0).natAbs (y1 - y0).natAbs = (x1 - x0).natAbs := by
      apply max_eq_left; omega
    rw [hmax] at hf ⊢
    obtain ⟨ws, hws, htr, -⟩ := drawLineLoopExact_xmajor x1 y1 |x1 - x0| |y1 - y0| _ _ hsx hsy
      (abs_nonneg _) (abs_nonneg _) hba fuel (x1 - x0).natAbs (y1 - y0).natAbs x0 y0
      (|x1 - x0| + -|y1 - y0|) hxe hye (le_of_eq hpa) (le_of_eq hqb)
      (by rw [hpa, hqb]; ring) (by rw [hpa, hqb]; nlinarith [abs_nonneg (x1 - x0)])
      (by rw [hpa, hqb]; nlinarith [abs_nonneg (x1 - x0)]) hf
    exact ⟨ws, hws, htr⟩
  · have hab : |x1 - x0| ≤ |y1 - y0| := le_of_lt (not_le.1 hba)
    have hmax : max (x1 - x0).natAbs (y1 - y0).natAbs = (y1 - y0).natAbs := by
      apply max_eq_right; omega
    rw [hmax] at hf ⊢
    obtain ⟨ws, hws, htr, -⟩ := drawLineLoopExact_xmajor y1 x1 |y1 - y0| |x1 - x0| _ _ hsy hsx
      (abs_nonneg _) (abs_nonneg _) hab fuel (y1 - y0).natAbs (x1 - x0).natAbs y0 x0
      (-(|x1 - x0| + -|y1 - y0|)) hye hxe (le_of_eq hqb) (le_of_eq hpa)
      (by rw [hpa, hqb]; ring) (by rw [hpa, hqb]; nlinarith [abs_nonneg (y1 - y0)])
      (by rw [hpa, hqb]; nlinarith [abs_nonneg (y1 - y0)]) hf
    refine ⟨ws.map Prod.swap, ?_, htr.swap⟩
    rw [drawLineLoopExact_swap, neg_neg, hws]
    rfl

theorem drawLineLoopExact_xmajor_points (x1 y1 a b sx sy : Int)
    (ha : 0 ≤ a) (hb : 0 ≤ b) (hba : b ≤ a) :
    ∀ (fuel p q : Nat) (x y err : Int) (ws : List (Int × Int)),
      x1 = x + sx * p → y1 = y + sy * q → (p : Int) ≤ a → (q : Int) ≤ b →
      err = a - b + (p * b - q * a) →
      -a ≤ 2 * ((p : Int) * b - q * a) → 2 * ((p : Int) * b - q * a) ≤ a →
      drawLineLoopExact x1 y1 a (-b) sx sy fuel x y err = some ws →
      ∀ w ∈ ws, ∃ p' q' : Nat, p' ≤ p ∧ q' ≤ q ∧
        w.1 = x1 - sx * p' ∧ w.2 = y1 - sy * q' ∧
        -a ≤ 2 * ((p' : Int) * b - q' * a) ∧ 2 * ((p' : Int) * b - q' * a) ≤ a := by
  intro fuel
  induction fuel with
  | zero => intro p q x y err ws _ _ _ _ _ _ _ h; simp [drawLineLoopExact] at h
  | succ fuel ih =>
    intro p q x y err ws hx hy hpa hqb herr hlo hhi h
    have hhere : ∃ p' q' : Nat, p' ≤ p ∧ q' ≤ q ∧
        (x, y).1 = x1 - sx * p' ∧ (x, y).2 = y1 - sy * q' ∧
        -a ≤ 2 * ((p' : Int) * b - q' * a) ∧ 2 * ((p' : Int) * b - q' * a) ≤ a :=
      ⟨p, q, le_refl _, le_refl _, by simp only; linarith, by simp only; linarith, hlo, hhi⟩
    unfold drawLineLoopExact at h
    by_cases hdone : x = x1 ∧ y = y1
    · rw [if_pos hdone] at h
      simp only [Option.some.injEq] at h
      subst h
      intro w hw
      simp only [List.mem_singleton] at hw
      subst hw
      exact hhere
    · rw [if_neg hdone] at h
      have hp1 : 1 ≤ p := by
        by_contra hp
        have hp0 : p = 0 := by omega
        subst hp0
        have hxe : x = x1 := by simp at hx; exact hx.symm
        have hq1 : 1 ≤ q := by
          by_contra hq
          have hq0 : q = 0 := by omega
          subst hq0
          simp at hy
          exact hdone ⟨hxe, hy.symm⟩
        have h1 : (1 : Int) ≤ q := by exact_mod_cast hq1
        have h2 : a ≤ (q : Int) * a := by nlinarith
        simp at hlo hhi
        have : a = 0 := by linarith
        have : b = 0 := by linarith
        linarith
      obtain ⟨p', rfl⟩ : ∃ p', p = p' + 1 := ⟨p - 1, by omega⟩
      push_cast at hx hpa herr hlo hhi
      have hstepx : 2 * err ≥ -b := by rw [herr]; linarith
      simp only [hstepx, if_true] at h
      by_cases hstepy : 2 * err ≤ a
      · simp only [hstepy, if_true] at h
        have hq1 : 1 ≤ q := by
          by_contra hq
          have hq0 : q = 0 := by omega
          subst hq0
          simp at herr hlo hhi
          have h3 : 0 ≤ (p' : Int) * b := by positivity
          have : a = 0 := by linarith
          have : (0 : Int) ≤ p' := by positivity
          linarith
        obtain ⟨q', rfl⟩ : ∃ q', q = q' + 1 := ⟨q - 1, by omega⟩
        push_cast at hy hqb herr hlo hhi hstepy
        rw [Option.map_eq_some'] at h
        obtain ⟨ws', hws', rfl⟩ := h
        have hrec := ih p' q' (x + sx) (y + sy) (err + -b + a) ws'
          (by rw [hx]; ring) (by rw [hy]; ring) (by linarith) (by linarith)
          (by rw [herr]; ring) (by linarith) (by rw [herr] at hstepy; linarith) hws'
        intro w hw
        rcases List.mem_cons.1 hw with rfl | hw
        · exact hhere
        · obtain ⟨p2, q2, h1, h2, h3⟩ := hrec w hw
          exact ⟨p2, q2, by omega, by omega, h3⟩
      · simp only [hstepy, if_false] at h
        rw [Option.map_eq_some'] at h
        obtain ⟨ws', hws', rfl⟩ := h
        have hrec := ih p' q (x + sx) y (err + -b) ws'
          (by rw [hx]; ring) hy (by linarith) hqb
          (by rw [herr]; ring) (by rw [herr] at hstepy; linarith) (by linarith) hws'
        intro w hw
        rcases List.mem_cons.1 hw with rfl | hw
        · exact hhere
        · obtain ⟨p2, q2, h1, h2, h3⟩ := hrec w hw
          exact ⟨p2, q2, by omega, h2, h3⟩

/-- What the per-pixel invariant says in terms of the endpoints: the pixel lies
within half a step of the ideal line along the minor axis, and inside the
bounding box of the endpoints. -/
theorem near_line_of_steps (x0 y0 x1 y1 a b sx sy : Int) (p q p' q' : Nat) (w : Int × Int)
    (hsx : sx = 1 ∨ sx = -1) (hsy : sy = 1 ∨ sy = -1)
    (hx : x1 = x0 + sx * p) (hy : y1 = y0 + sy * q) (hpa : (p : Int) = a) (hqb : (q : Int) = b)
    (hp : p' ≤ p) (hq : q' ≤ q) (hw1 : w.1 = x1 - sx * p') (hw2 : w.2 = y1 - sy * q')
    (hlo : -a ≤ 2 * ((p' : Int) * b - q' * a)) (hhi : 2 * ((p' : Int) * b - q' * a) ≤ a) :
    2 * |(x1 - x0) * (w.2 - y0) - (y1 - y0) * (w.1 - x0)| ≤ a ∧
      min x0 x1 ≤ w.1 ∧ w.1 ≤ max x0 x1 ∧ min y0 y1 ≤ w.2 ∧ w.2 ≤ max y0 y1 := by
  have hp2 : (p' : Int) ≤ p := by exact_mod_cast hp
  have hq2 : (q' : Int) ≤ q := by exact_mod_cast hq
  have hp0 : (0 : Int) ≤ p' := Int.natCast_nonneg _
  have hq0 : (0 : Int) ≤ q' := Int.natCast_nonneg _
  have hcross : (x1 - x0) * (w.2 - y0) - (y1 - y0) * (w.1 - x0) =
      sx * sy * ((p' : Int) * b - q' * a) := by
    rw [hw1, hw2, hx, hy, ← hpa, ← hqb]
    ring
  have hss : sx * sy = 1 ∨ sx * sy = -1 := by
    rcases hsx with rfl | rfl <;> rcases hsy with rfl | rfl <;> simp
  refine ⟨?_, ?_, ?_, ?_, ?_⟩
  · rw [hcross]
    rcases hss with h | h <;> rw [h]
    · rw [one_mul]
      rcases abs_cases ((p' : Int) * b - q' * a) with ⟨h1, _⟩ | ⟨h1, _⟩ <;> rw [h1] <;> linarith
    · rw [neg_one_mul, abs_neg]
      rcases abs_cases ((p' : Int) * b - q' * a) with ⟨h1, _⟩ | ⟨h1, _⟩ <;> rw [h1] <;> linarith
  · rw [hw1, hx]
    rcases hsx with rfl | rfl <;> simp only [min_le_iff] <;> omega
  · rw [hw1, hx]
    rcases hsx with rfl | rfl <;> simp only [le_max_iff] <;> omega
  · rw [hw2, hy]
    rcases hsy with rfl | rfl <;> simp only [min_le_iff] <;> omega
  · rw [hw2, hy]
    rcases hsy with rfl | rfl <;> simp only [le_max_iff] <;> omega

theorem wrapInt_eq_self (z : Int) (h0 : -9223372036854775808 ≤ z)
    (h1 : z < 9223372036854775808) : wrapInt z = z := by
  unfold wrapInt
  omega

/-- Differences of at most `2^53` in magnitude pass through `float64`
unchanged. -/
theorem absDiff_of_small (a b : Int) (h : |a - b| ≤ 9007199254740992) :
    absDiff a b = |a - b| := by
  have h1 := abs_le.mp h
  have hn : (a - b).natAbs ≤ 9007199254740992 := by omega
  unfold absDiff
  rw [wrapInt_eq_self _ (by omega) (by omega)]
  unfold float64OfInt
  simp only [hn, if_true]
  unfold toInt64
  rw [if_pos]
  constructor
  · have := abs_nonneg (a - b)
    omega
  · omega

/-- A run of the loop on unbounded integers is a run of the loop of the code
as long as the coordinates and the error term stay far from the 64-bit
limits. -/
theorem drawLineLoop_of_exact (x1 y1 a b sx sy : Int)
    (hsx : sx = 1 ∨ sx = -1) (hsy : sy = 1 ∨ sy = -1) (ha : 0 ≤ a) (hb : 0 ≤ b)
    (hab : a + b ≤ 1152921504606846976) :
    ∀ (fuel : Nat) (x y err : Int) (ws : List (Int × Int)),
      drawLineLoopExact x1 y1 a (-b) sx sy fuel x y err = some ws →
      |x| + ws.length ≤ 4611686018427387904 → |y| + ws.length ≤ 4611686018427387904 →
      -(2 * (a + b)) ≤ err → err ≤ 2 * (a + b) →
      drawLineLoop x1 y1 a (-b) sx sy fuel x y err = some ws := by
  intro fuel
  induction fuel with
  | zero => intro x y err ws h; simp [drawLineLoopExact] at h
  | succ fuel ih =>
    intro x y err ws h hx hy hlo hhi
    unfold drawLineLoopExact at h
    unfold drawLineLoop drawLineStep
    by_cases hdone : x = x1 ∧ y = y1
    · rw [if_pos hdone] at h
      rw [if_pos hdone]
      exact h
    · rw [if_neg hdone] at h
      rw [if_neg hdone]
      rw [Option.map_eq_some'] at h
      obtain ⟨ws', hws', rfl⟩ := h
      have hlen : (((x, y) :: ws').length : Int) = (ws'.length : Int) + 1 := by
        simp
      rw [hlen] at hx hy
      have hxa := abs_le.mp (show |x| ≤ 4611686018427387904 by omega)
      have hya := abs_le.mp (show |y| ≤ 4611686018427387904 by omega)
      have hw1 : wrapInt (2 * err) = 2 * err := wrapInt_eq_self _ (by omega) (by omega)
      have hw2 : wrapInt (err + -b) = err + -b := wrapInt_eq_self _ (by omega) (by omega)
      have hw3 : wrapInt (x + sx) = x + sx := by
        rcases hsx with rfl | rfl <;> exact wrapInt_eq_self _ (by omega) (by omega)
      have hw4 : wrapInt (y + sy) = y + sy := by
        rcases hsy with rfl | rfl <;> exact wrapInt_eq_self _ (by omega) (by omega)
      have hw5 : wrapInt (err + -b + a) = err + -b + a :=
        wrapInt_eq_self _ (by omega) (by omega)
      have hw6 : wrapInt (err + a) = err + a := wrapInt_eq_self _ (by omega) (by omega)
      have hxs : |x + sx| ≤ |x| + 1 := by
        rcases hsx with rfl | rfl
        · exact (abs_add x 1).trans (by simp)
        · exact (abs_add x (-1)).trans (by simp)
      have hys : |y + sy| ≤ |y| + 1 := by
        rcases hsy with rfl | rfl
        · exact (abs_add y 1).trans (by simp)
        · exact (abs_add y (-1)).trans (by simp)
      simp only [hw1]
      by_cases h1 : 2 * err ≥ -b <;> by_cases h2 : 2 * err ≤ a
      · simp only [h1, h2, if_true, hw2, hw3, hw4, hw5] at hws' ⊢
        rw [ih _ _ _ ws' hws' (by omega) (by omega) (by omega) (by omega)]
        rfl
      · simp only [h1, h2, if_true, if_false, hw2, hw3] at hws' ⊢
        rw [ih _ _ _ ws' hws' (by omega) (by omega) (by omega) (by omega)]
        rfl
      · simp only [h1, h2, if_true, if_false, hw4, hw6] at hws' ⊢
        rw [ih _ _ _ ws' hws' (by omega) (by omega) (by omega) (by omega)]
        rfl
      · simp only [h1, h2, if_false] at hws' ⊢
        rw [ih _ _ _ ws' hws' (by omega) (by omega) (by omega) (by omega)]
        rfl

/-- For endpoints of at most `2^52` in magnitude and enough fuel, `drawLine`
returns, and returns what the loop on unbounded integers returns. -/
theorem drawLine_eq_exact (x0 y0 x1 y1 : Int) (fuel : Nat)
    (h0 : |x0| ≤ 4503599627370496) (h1 : |y0| ≤ 4503599627370496)
    (h2 : |x1| ≤ 4503599627370496) (h3 : |y1| ≤ 4503599627370496)
    (hf : max (x1 - x0).natAbs (y1 - y0).natAbs + 1 ≤ fuel) :
    ∃ ws, drawLine fuel x0 y0 x1 y1 = some ws ∧ drawLineExact fuel x0 y0 x1 y1 = some ws ∧
      LineTrace x0 y0 x1 y1 (max (x1 - x0).natAbs (y1 - y0).natAbs) ws := by
  obtain ⟨ws, hws, htr⟩ := drawLineExact_trace x0 y0 x1 y1 fuel hf
  refine ⟨ws, ?_, hws, htr⟩
  have a0 := abs_le.mp h0
  have a1 := abs_le.mp h1
  have a2 := abs_le.mp h2
  have a3 := abs_le.mp h3
  have hdx : |x1 - x0| ≤ 9007199254740992 := by rw [abs_le]; constructor <;> omega
  have hdy : |y1 - y0| ≤ 9007199254740992 := by rw [abs_le]; constructor <;> omega
  have hnx : ((x1 - x0).natAbs : Int) = |x1 - x0| := Int.natCast_natAbs _
  have hny : ((y1 - y0).natAbs : Int) = |y1 - y0| := Int.natCast_natAbs _
  have hx0 := abs_nonneg (x1 - x0)
  have hy0 := abs_nonneg (y1 - y0)
  unfold drawLine
  simp only
  rw [absDiff_of_small _ _ hdx, absDiff_of_small _ _ hdy,
    wrapInt_eq_self (-|y1 - y0|) (by omega) (by omega),
    wrapInt_eq_self (|x1 - x0| + -|y1 - y0|) (by omega) (by omega)]
  unfold drawLineExact at hws
  simp only at hws
  have hsx : (if x0 < x1 then (1 : Int) else -1) = 1 ∨ (if x0 < x1 then (1 : Int) else -1) = -1 := by
    split_ifs <;> simp
  have hsy : (if y0 < y1 then (1 : Int) else -1) = 1 ∨ (if y0 < y1 then (1 : Int) else -1) = -1 := by
    split_ifs <;> simp
  have hlenN : ws.length ≤ 9007199254740992 + 1 := by
    rw [htr.len]
    have : max (x1 - x0).natAbs (y1 - y0).natAbs ≤ 9007199254740992 :=
      max_le (by omega) (by omega)
    omega
  have hlen : (ws.length : Int) ≤ 9007199254740992 + 1 := by exact_mod_cast hlenN
  exact drawLineLoop_of_exact x1 y1 |x1 - x0| |y1 - y0| _ _ hsx hsy hx0 hy0 (by omega)
    fuel x0 y0 _ ws hws (by omega) (by omega) (by omega) (by omega)

/-- A state that the loop body maps to itself is never left: the loop does not
reach its `break`, and every `img.Set` call gets the same coordinates. -/
theorem drawLineLoop_stalls (x1 y1 dx dy sx sy x y err : Int)
    (h : drawLineStep x1 y1 dx dy sx sy x y err = some (x, y, err)) :
    (∀ fuel, drawLineLoop x1 y1 dx dy sx sy fuel x y err = none) ∧
      ∀ n, drawLineLoopFirst x1 y1 dx dy sx sy n x y err = List.replicate n (x, y) := by
  constructor
  · intro fuel
    induction fuel with
    | zero => rfl
    | succ n ih =>
      unfold drawLineLoop
      rw [h]
      simp only [ih, Option.map_none']
  · intro n
    induction n with
    | zero => rfl
    | succ n ih =>
      unfold drawLineLoopFirst
      rw [h]
      simp only [ih, List.replicate_succ]

/-- In the x-major case the loop on unbounded integers writes one pixel in each
column from `x` to `x1`, in order. -/
theorem drawLineLoopExact_xmajor_fst (x1 y1 a b sx sy : Int)
    (hsx : sx = 1 ∨ sx = -1) (ha : 0 ≤ a) (hb : 0 ≤ b) (hba : b ≤ a) :
    ∀ (fuel p q : Nat) (x y err : Int) (ws : List (Int × Int)),
      x1 = x + sx * p → y1 = y + sy * q → (p : Int) ≤ a → (q : Int) ≤ b →
      err = a - b + (p * b - q * a) →
      -a ≤ 2 * ((p : Int) * b - q * a) → 2 * ((p : Int) * b - q * a) ≤ a →
      drawLineLoopExact x1 y1 a (-b) sx sy fuel x y err = some ws →
      ws.map Prod.fst = (List.range (p + 1)).map (fun (i : Nat) => x + sx * (i : Int)) := by
  intro fuel
  induction fuel with
  | zero => intro p q x y err ws _ _ _ _ _ _ _ h; simp [drawLineLoopExact] at h
  | succ fuel ih =>
    intro p q x y err ws hx hy hpa hqb herr hlo hhi h
    have hcons : ∀ (p' : Nat) (ws' : List (Int × Int)),
        ws'.map Prod.fst = (List.range (p' + 1)).map (fun (i : Nat) => x + sx + sx * (i : Int)) →
        ((x, y) :: ws').map Prod.fst =
          (List.range (p' + 1 + 1)).map (fun (i : Nat) => x + sx * (i : Int)) := by
      intro p' ws' hrec
      rw [List.map_cons, hrec,
        show List.range (p' + 1 + 1) = 0 :: (List.range (p' + 1)).map Nat.succ from
          List.range_succ_eq_map _,
        List.map_cons, List.map_map]
      congr 1
      · simp
      · apply List.map_congr_left
        intro i _
        simp only [Function.comp_apply, Nat.succ_eq_add_one]
        push_cast
        ring
    unfold drawLineLoopExact at h
    by_cases hdone : x = x1 ∧ y = y1
    · rw [if_pos hdone] at h
      simp only [Option.some.injEq] at h
      subst h
      have hp0 : p = 0 := by
        have : sx * (p : Int) = 0 := by linarith [hdone.1]
        rcases hsx with rfl | rfl <;> omega
      subst hp0
      simp [List.range_succ]
    · rw [if_neg hdone] at h
      have hp1 : 1 ≤ p := by
        by_contra hp
        have hp0 : p = 0 := by omega
        subst hp0
        have hxe : x = x1 := by simp at hx; exact hx.symm
        have hq1 : 1 ≤ q := by
          by_contra hq
          have hq0 : q = 0 := by omega
          subst hq0
          simp at hy
          exact hdone ⟨hxe, hy.symm⟩
        have h1 : (1 : Int) ≤ q := by exact_mod_cast hq1
        have h2 : a ≤ (q : Int) * a := by nlinarith
        simp at hlo hhi
        have : a = 0 := by linarith
        have : b = 0 := by linarith
        linarith
      obtain ⟨p', rfl⟩ : ∃ p', p = p' + 1 := ⟨p - 1, by omega⟩
      push_cast at hx hpa herr hlo hhi
      have hstepx : 2 * err ≥ -b := by rw [herr]; linarith
      simp only [hstepx, if_true] at h
      by_cases hstepy : 2 * err ≤ a
      · simp only [hstepy, if_true] at h
        have hq1 : 1 ≤ q := by
          by_contra hq
          have hq0 : q = 0 := by omega
          subst hq0
          simp at herr hlo hhi
          have h3 : 0 ≤ (p' : Int) * b := by positivity
          have : a = 0 := by linarith
          have : (0 : Int) ≤ p' := by positivity
          linarith
        obtain ⟨q', rfl⟩ : ∃ q', q = q' + 1 := ⟨q - 1, by omega⟩
        push_cast at hy hqb herr hlo hhi hstepy
        rw [Option.map_eq_some'] at h
        obtain ⟨ws', hws', rfl⟩ := h
        exact hcons p' ws' (ih p' q' (x + sx) (y + sy) (err + -b + a) ws'
          (by rw [hx]; ring) (by rw [hy]; ring) (by linarith) (by linarith)
          (by rw [herr]; ring) (by linarith) (by rw [herr] at hstepy; linarith) hws')
      · simp only [hstepy, if_false] at h
        rw [Option.map_eq_some'] at h
        obtain ⟨ws', hws', rfl⟩ := h
        exact hcons p' ws' (ih p' q (x + sx) y (err + -b) ws'
          (by rw [hx]; ring) hy (by linarith) hqb
          (by rw [herr]; ring) (by rw [herr] at hstepy; linarith) (by linarith) hws')

/-- The call `drawLine(img, -10, y, -2^63, -y)` for `1 ≤ y ≤ 2^32`, which
`Bands` issues at slope 0: `dx` comes out as `-2^63`, `err` wraps, and the loop
body leaves `x0`, `y0` and `err` as they are. -/
theorem drawLineStep_fixed (y : Int) (h1 : 1 ≤ y) (h2 : y ≤ 4294967296) :
    drawLineStep (-9223372036854775808) (-y) (absDiff (-9223372036854775808) (-10))
      (wrapInt (-absDiff (-y) y)) (-1) (-1) (-10) y
      (wrapInt (absDiff (-9223372036854775808) (-10) + wrapInt (-absDiff (-y) y))) =
    some (-10, y,
      wrapInt (absDiff (-9223372036854775808) (-10) + wrapInt (-absDiff (-y) y))) := by
  have hdx : absDiff (-9223372036854775808) (-10) = -9223372036854775808 := by decide
  have hdy : absDiff (-y) y = 2 * y := by
    rw [absDiff_of_small _ _ (by rw [abs_le]; constructor <;> omega)]
    rw [abs_of_nonpos (by omega)]
    ring
  rw [hdx, hdy]
  have hw1 : wrapInt (-(2 * y)) = -(2 * y) := wrapInt_eq_self _ (by omega) (by omega)
  rw [hw1]
  have hw2 : wrapInt (-9223372036854775808 + -(2 * y)) = 9223372036854775808 - 2 * y := by
    unfold wrapInt
    omega
  rw [hw2]
  have hw3 : wrapInt (2 * (9223372036854775808 - 2 * y)) = -(4 * y) := by
    unfold wrapInt
    omega
  unfold drawLineStep
  rw [if_neg (by omega), hw3]
  simp only
  rw [if_neg (by omega), if_neg (by omega), if_neg (by omega), if_neg (by omega)]

/-- The call `drawLine(img, -10, y, -2^63, -y)` for `1 ≤ y ≤ 2^32` never reaches
its `break`, and every `img.Set` call gets the start pixel. -/
theorem drawLine_stalls (y : Int) (h1 : 1 ≤ y) (h2 : y ≤ 4294967296) :
    (∀ fuel, drawLine fuel (-10) y (-9223372036854775808) (-y) = none) ∧
      ∀ n, drawLineFirst n (-10) y (-9223372036854775808) (-y) = List.replicate n (-10, y) := by
  have h := drawLineStep_fixed y h1 h2
  have hx : ((-10 : Int) < -9223372036854775808) = False := by decide
  have hy : (y < -y) = False := by
    apply eq_false
    omega
  constructor
  · intro fuel
    unfold drawLine
    simp only [hx, hy, if_false]
    exact (drawLineLoop_stalls _ _ _ _ _ _ _ _ _ h).1 fuel
  · intro n
    unfold drawLineFirst
    simp only [hx, hy, if_false]
    exact (drawLineLoop_stalls _ _ _ _ _ _ _ _ _ h).2 n

/-! ## Loop invariants of `drawCircle` -/

/-- The circle loop exits: each iteration moves `y` up or `x` down. -/
theorem drawCircleLoop_terminates (r : Int) :
    ∀ (fuel : Nat) (x y dx dy err : Int), x - y + 2 ≤ (fuel : Int) → 1 ≤ fuel →
      ∃ ps, drawCircleLoop r fuel x y dx dy err = some ps := by
  intro fuel
  induction fuel with
  | zero => intro x y dx dy err _ hf; omega
  | succ fuel ih =>
    intro x y dx dy err hf _
    unfold drawCircleLoop
    by_cases hxy : x ≥ y
    · rw [if_pos hxy]
      have key : ∀ x2 y1 dx2 dy1 err2 : Int, x2 - y1 < x - y →
          ∃ ps, (drawCircleLoop r fuel x2 y1 dx2 dy1 err2).map (fun ps => (x, y) :: ps) = some ps := by
        intro x2 y1 dx2 dy1 err2 hlt
        obtain ⟨ps, hps⟩ := ih x2 y1 dx2 dy1 err2 (by push_cast at hf; omega)
          (by push_cast at hf; omega)
        exact ⟨(x, y) :: ps, by simp [hps]⟩
      by_cases h1 : err ≤ 0
      · simp only [h1, if_true]
        apply key
        split_ifs <;> omega
      · have h2 : err > 0 := not_le.1 h1
        simp only [h1, if_false, h2, if_true]
        apply key
        omega
    · rw [if_neg hxy]
      exact ⟨[], rfl⟩

/-- Shape of the generated octant: it starts at the current point when the
loop condition holds, consecutive points are 8-adjacent, and the last point
`(a, b)` has `b ≤ a ≤ b + 1`. -/
theorem drawCircleLoop_shape (r : Int) :
    ∀ (fuel : Nat) (x y dx dy err : Int) (ps : List (Int × Int)),
      drawCircleLoop r fuel x y dx dy err = some ps →
      ps.head? = (if x ≥ y then some (x, y) else none) ∧ ps.Chain' adj8 ∧
        ∀ p ∈ ps.getLast?, p.2 ≤ p.1 ∧ p.1 ≤ p.2 + 1 := by
  intro fuel
  induction fuel with
  | zero => intro x y dx dy err ps h; simp [drawCircleLoop] at h
  | succ fuel ih =>
    intro x y dx dy err ps h
    unfold drawCircleLoop at h
    by_cases hxy : x ≥ y
    · rw [if_pos hxy] at h
      have key : ∀ x2 y1 dx2 dy1 err2 : Int,
          (drawCircleLoop r fuel x2 y1 dx2 dy1 err2).map (fun ps => (x, y) :: ps) = some ps →
          x - 1 ≤ x2 → x2 ≤ x → y ≤ y1 → y1 ≤ y + 1 → (x2 ≠ x ∨ y1 ≠ y) →
          ps.head? = (if x ≥ y then some (x, y) else none) ∧ ps.Chain' adj8 ∧
            ∀ p ∈ ps.getLast?, p.2 ≤ p.1 ∧ p.1 ≤ p.2 + 1 := by
        intro x2 y1 dx2 dy1 err2 hm hx1 hx2 hy1 hy2 hne
        rw [Option.map_eq_some'] at hm
        obtain ⟨ps', hps', rfl⟩ := hm
        obtain ⟨hhead, hchain, hlast⟩ := ih x2 y1 dx2 dy1 err2 ps' hps'
        refine ⟨by simp [hxy], ?_, ?_⟩
        · rw [List.chain'_cons']
          refine ⟨?_, hchain⟩
          intro q hq
          rw [hhead] at hq
          split_ifs at hq with hc
          · simp at hq
            subst hq
            refine ⟨?_, ?_, ?_⟩
            · simp only [abs_le]; constructor <;> omega
            · simp only [abs_le]; constructor <;> omega
            · intro he
              simp only [Prod.mk.injEq] at he
              omega
          · simp at hq
        · intro p hp
          cases ps' with
          | nil =>
            simp at hp
            subst hp
            have : ¬ x2 ≥ y1 := by
              intro hc
              rw [if_pos hc] at hhead
              simp at hhead
            simp only
            omega
          | cons q t =>
            rw [List.getLast?_cons_cons] at hp
            exact hlast p hp
      by_cases h1 : err ≤ 0
      · simp only [h1, if_true] at h
        by_cases h2 : err + dy > 0
        · simp only [h2, if_true] at h
          exact key _ _ _ _ _ h (by omega) (by omega) (by omega) (by omega) (by omega)
        · simp only [h2, if_false] at h
          exact key _ _ _ _ _ h (by omega) (by omega) (by omega) (by omega) (by omega)
      · have h2 : err > 0 := not_le.1 h1
        simp only [h1, if_false, h2, if_true] at h
        exact key _ _ _ _ _ h (by omega) (by omega) (by omega) (by omega) (by omega)
    · rw [if_neg hxy] at h
      simp at h
      subst h
      simp [hxy]

/-- Loop invariant of the circle loop: `err = x² + y² - r²`, and every point at
which the body runs lies between the circles of radius `r - 1` and `r`. -/
theorem drawCircleLoop_bounds (r : Int) :
    ∀ (fuel : Nat) (x y dx dy err : Int) (ps : List (Int × Int)),
      dx = 2 * r - 1 - 2 * x → dy = 2 * y + 1 → err = x * x + y * y - r * r →
      x ≤ r - 1 → 0 ≤ y → 1 - 2 * r ≤ err → (err ≤ 0 ∨ x < y) →
      drawCircleLoop r fuel x y dx dy err = some ps →
      ∀ p ∈ ps, (r - 1) * (r - 1) ≤ p.1 * p.1 + p.2 * p.2 ∧ p.1 * p.1 + p.2 * p.2 ≤ r * r ∧
        0 ≤ p.2 ∧ p.2 ≤ p.1 ∧ p.1 ≤ r - 1 := by
  intro fuel
  induction fuel with
  | zero => intro x y dx dy err ps _ _ _ _ _ _ _ h; simp [drawCircleLoop] at h
  | succ fuel ih =>
    intro x y dx dy err ps hdx hdy herr hxr hy hlo hhi h
    unfold drawCircleLoop at h
    by_cases hxy : x ≥ y
    · rw [if_pos hxy] at h
      have h1 : err ≤ 0 := by omega
      simp only [h1, if_true] at h
      have hhere : (r - 1) * (r - 1) ≤ x * x + y * y ∧ x * x + y * y ≤ r * r ∧
          0 ≤ y ∧ y ≤ x ∧ x ≤ r - 1 := by
        refine ⟨by nlinarith, by nlinarith, hy, hxy, hxr⟩
      by_cases h2 : err + dy > 0
      · simp only [h2, if_true] at h
        rw [Option.map_eq_some'] at h
        obtain ⟨ps', hps', rfl⟩ := h
        have hrec := ih (x - 1) (y + 1) (dx + 2) (dy + 2) (err + dy + (dx + 2 - r * 2)) ps'
          (by omega) (by omega) (by rw [herr, hdx, hdy]; ring) (by omega) (by omega)
          (by omega) (by omega) hps'
        intro p hp
        rcases List.mem_cons.1 hp with rfl | hp
        · exact hhere
        · exact hrec p hp
      · simp only [h2, if_false] at h
        rw [Option.map_eq_some'] at h
        obtain ⟨ps', hps', rfl⟩ := h
        have hrec := ih x (y + 1) dx (dy + 2) (err + dy) ps'
          hdx (by omega) (by rw [herr, hdy]; ring) hxr (by omega)
          (by omega) (by omega) hps'
        intro p hp
        rcases List.mem_cons.1 hp with rfl | hp
        · exact hhere
        · exact hrec p hp
    · rw [if_neg hxy] at h
      simp at h
      subst h
      simp

/-- Membership in the eight writes of one iteration, spelled out. -/
theorem mem_octantWrites (x0 y0 : Int) (p w : Int × Int) :
    w ∈ octantWrites x0 y0 p ↔
      (w.1 = x0 + p.1 ∧ w.2 = y0 + p.2) ∨ (w.1 = x0 + p.2 ∧ w.2 = y0 + p.1) ∨
      (w.1 = x0 - p.2 ∧ w.2 = y0 + p.1) ∨ (w.1 = x0 - p.1 ∧ w.2 = y0 + p.2) ∨
      (w.1 = x0 - p.1 ∧ w.2 = y0 - p.2) ∨ (w.1 = x0 - p.2 ∧ w.2 = y0 - p.1) ∨
      (w.1 = x0 + p.2 ∧ w.2 = y0 - p.1) ∨ (w.1 = x0 + p.1 ∧ w.2 = y0 - p.2) := by
  obtain ⟨u, v⟩ := w
  simp only [octantWrites, List.mem_cons, Prod.mk.injEq, List.mem_singleton, List.not_mem_nil,
    or_false]

/-- The eight writes of one iteration are closed under negating either offset
and under exchanging the two offsets. -/
theorem octantWrites_closed (x0 y0 : Int) (p : Int × Int) (a b : Int)
    (h : (x0 + a, y0 + b) ∈ octantWrites x0 y0 p) :
    (x0 - a, y0 + b) ∈ octantWrites x0 y0 p ∧ (x0 + a, y0 - b) ∈ octantWrites x0 y0 p ∧
    (x0 + b, y0 + a) ∈ octantWrites x0 y0 p := by
  rw [mem_octantWrites] at h
  simp only [mem_octantWrites]
  rcases h with h | h | h | h | h | h | h | h <;> obtain ⟨h1, h2⟩ := h <;>
    simp only at h1 h2 <;> refine ⟨?_, ?_, ?_⟩ <;>
    first
    | exact Or.inl ⟨by omega, by omega⟩
    | exact Or.inr (Or.inl ⟨by omega, by omega⟩)
    | exact Or.inr (Or.inr (Or.inl ⟨by omega, by omega⟩))
    | exact Or.inr (Or.inr (Or.inr (Or.inl ⟨by omega, by omega⟩)))
    | exact Or.inr (Or.inr (Or.inr (Or.inr (Or.inl ⟨by omega, by omega⟩))))
    | exact Or.inr (Or.inr (Or.inr (Or.inr (Or.inr (Or.inl ⟨by omega, by omega⟩)))))
    | exact Or.inr (Or.inr (Or.inr (Or.inr (Or.inr (Or.inr (Or.inl ⟨by omega, by omega⟩))))))
    | exact Or.inr (Or.inr (Or.inr (Or.inr (Or.inr (Or.inr (Or.inr ⟨by omega, by omega⟩))))))

/-- The coordinates written by all iterations are closed under the same
reflections. -/
theorem flatMap_octantWrites_closed (x0 y0 : Int) (ps : List (Int × Int)) (a b : Int)
    (h : (x0 + a, y0 + b) ∈ ps.flatMap (octantWrites x0 y0)) :
    (x0 - a, y0 + b) ∈ ps.flatMap (octantWrites x0 y0) ∧
    (x0 + a, y0 - b) ∈ ps.flatMap (octantWrites x0 y0) ∧
    (x0 + b, y0 + a) ∈ ps.flatMap (octantWrites x0 y0) := by
  rw [List.mem_flatMap] at h
  obtain ⟨p, hp, hw⟩ := h
  obtain ⟨h1, h2, h3⟩ := octantWrites_closed x0 y0 p a b hw
  simp only [List.mem_flatMap]
  exact ⟨⟨p, hp, h1⟩, ⟨p, hp, h2⟩, ⟨p, hp, h3⟩⟩

/-! ## Claims about `drawLine` -/

/-- C1, as stated, fails: in the call `drawLine(img, -10, 1, -2^63, -1)`, which
`Bands` issues at slope 0, `dx` comes out as `-2^63` and the loop never reaches
its `break`, whatever the number of iterations allowed. -/
theorem drawLine_never_returns :
    absDiff (-9223372036854775808) (-10) = -9223372036854775808 ∧
      ∀ fuel, drawLine fuel (-10) 1 (-9223372036854775808) (-1) = none :=
  ⟨by decide, (drawLine_stalls 1 (by decide) (by decide)).1⟩

/-- C1, amended: for endpoints of at most `2^52` in magnitude, `drawLine`
returns (with any fuel of at least `max(|x1-x0|, |y1-y0|) + 1` iterations) and
performs exactly `max(|x1-x0|, |y1-y0|) + 1` pixel writes. -/
theorem drawLine_write_count (x0 y0 x1 y1 : Int) (fuel : Nat)
    (h0 : |x0| ≤ 4503599627370496) (h1 : |y0| ≤ 4503599627370496)
    (h2 : |x1| ≤ 4503599627370496) (h3 : |y1| ≤ 4503599627370496)
    (hf : max (x1 - x0).natAbs (y1 - y0).natAbs + 1 ≤ fuel) :
    ∃ ws, drawLine fuel x0 y0 x1 y1 = some ws ∧
      ws.length = max (x1 - x0).natAbs (y1 - y0).natAbs + 1 := by
  obtain ⟨ws, hws, -, htr⟩ := drawLine_eq_exact x0 y0 x1 y1 fuel h0 h1 h2 h3 hf
  exact ⟨ws, hws, htr.len⟩

/-- Witness of the amended C1 on the line from (0,0) to (5,2): six writes. -/
theorem drawLine_write_count_witness :
    |(0 : Int)| ≤ 4503599627370496 ∧ |(0 : Int)| ≤ 4503599627370496 ∧
      |(5 : Int)| ≤ 4503599627370496 ∧ |(2 : Int)| ≤ 4503599627370496 ∧
      max ((5 : Int) - 0).natAbs ((2 : Int) - 0).natAbs + 1 ≤ 10 ∧
      ∃ ws, drawLine 10 0 0 5 2 = some ws ∧
        ws.length = max ((5 : Int) - 0).natAbs ((2 : Int) - 0).natAbs + 1 :=
  ⟨by decide, by decide, by decide, by decide, by decide,
    drawLine_write_count 0 0 5 2 10 (by decide) (by decide) (by decide) (by decide)
      (by decide)⟩

/-- C2, as stated, fails: in the call `drawLine(img, -10, 2, -2^63, -2)` every
`img.Set` call gets the start pixel `(-10, 2)` again, so consecutive writes are
the same pixel, and the end pixel is never reached. -/
theorem drawLine_repeats_start :
    (∀ n, drawLineFirst n (-10) 2 (-9223372036854775808) (-2) = List.replicate n (-10, 2)) ∧
      ∀ fuel, drawLine fuel (-10) 2 (-9223372036854775808) (-2) = none :=
  ⟨(drawLine_stalls 2 (by decide) (by decide)).2,
    (drawLine_stalls 2 (by decide) (by decide)).1⟩

/-- C2, amended: for endpoints of at most `2^52` in magnitude, the pixels
written by `drawLine` start at `(x0, y0)`, end at `(x1, y1)`, and each written
pixel is 8-adjacent to the one written before it (at most one apart in x and in
y, and not the same pixel). -/
theorem drawLine_connected_path (x0 y0 x1 y1 : Int) (fuel : Nat)
    (h0 : |x0| ≤ 4503599627370496) (h1 : |y0| ≤ 4503599627370496)
    (h2 : |x1| ≤ 4503599627370496) (h3 : |y1| ≤ 4503599627370496)
    (hf : max (x1 - x0).natAbs (y1 - y0).natAbs + 1 ≤ fuel) :
    ∃ ws, drawLine fuel x0 y0 x1 y1 = some ws ∧
      ws.head? = some (x0, y0) ∧ ws.getLast? = some (x1, y1) ∧ ws.Chain' adj8 := by
  obtain ⟨ws, hws, -, htr⟩ := drawLine_eq_exact x0 y0 x1 y1 fuel h0 h1 h2 h3 hf
  exact ⟨ws, hws, htr.head, htr.last, htr.chain⟩

/-- Witness of the amended C2 on the line from (0,0) to (-2,7). -/
theorem drawLine_connected_path_witness :
    |(0 : Int)| ≤ 4503599627370496 ∧ |(0 : Int)| ≤ 4503599627370496 ∧
      |(-2 : Int)| ≤ 4503599627370496 ∧ |(7 : Int)| ≤ 4503599627370496 ∧
      max ((-2 : Int) - 0).natAbs ((7 : Int) - 0).natAbs + 1 ≤ 8 ∧
      ∃ ws, drawLine 8 0 0 (-2) 7 = some ws ∧
        ws.head? = some (0, 0) ∧ ws.getLast? = some (-2, 7) ∧ ws.Chain' adj8 :=
  ⟨by decide, by decide, by decide, by decide, by decide,
    drawLine_connected_path 0 0 (-2) 7 8 (by decide) (by decide) (by decide) (by decide)
      (by decide)⟩

/-- C3, as stated, fails: the first two `img.Set` calls of
`drawLine(img, -10, 3, -2^63, -3)` get the same coordinate pair `(-10, 3)`. -/
theorem drawLine_writes_twice :
    drawLineFirst 2 (-10) 3 (-9223372036854775808) (-3) = [(-10, 3), (-10, 3)] := by
  decide

/-- C3, amended: for endpoints of at most `2^52` in magnitude, one call of
`drawLine` passes no coordinate pair to `Set` twice; it writes
`max(|x1-x0|, |y1-y0|) + 1` pixels from `(x0, y0)` to `(x1, y1)`, one in every
column from `x0` to `x1` when the line is at least as wide as high, and one in
every row from `y0` to `y1` when it is at least as high as wide. -/
theorem drawLine_writes_once (x0 y0 x1 y1 : Int) (fuel : Nat)
    (h0 : |x0| ≤ 4503599627370496) (h1 : |y0| ≤ 4503599627370496)
    (h2 : |x1| ≤ 4503599627370496) (h3 : |y1| ≤ 4503599627370496)
    (hf : max (x1 - x0).natAbs (y1 - y0).natAbs + 1 ≤ fuel) :
    ∃ ws, drawLine fuel x0 y0 x1 y1 = some ws ∧ ws.Nodup ∧
      ws.length = max (x1 - x0).natAbs (y1 - y0).natAbs + 1 ∧
      ws.head? = some (x0, y0) ∧ ws.getLast? = some (x1, y1) ∧
      (|y1 - y0| ≤ |x1 - x0| →
        ws.map Prod.fst = (List.range ((x1 - x0).natAbs + 1)).map
          (fun (i : Nat) => x0 + (if x0 < x1 then 1 else -1) * (i : Int))) ∧
      (|x1 - x0| ≤ |y1 - y0| →
        ws.map Prod.snd = (List.range ((y1 - y0).natAbs + 1)).map
          (fun (i : Nat) => y0 + (if y0 < y1 then 1 else -1) * (i : Int))) := by
  obtain ⟨ws, hcode, hws, htr⟩ := drawLine_eq_exact x0 y0 x1 y1 fuel h0 h1 h2 h3 hf
  refine ⟨ws, hcode, htr.nodup, htr.len, htr.head, htr.last, ?_, ?_⟩
  all_goals
    unfold drawLineExact at hws
    simp only at hws
    have hsx : (if x0 < x1 then (1 : Int) else -1) = 1 ∨
        (if x0 < x1 then (1 : Int) else -1) = -1 := by
      split_ifs <;> simp
    have hsy : (if y0 < y1 then (1 : Int) else -1) = 1 ∨
        (if y0 < y1 then (1 : Int) else -1) = -1 := by
      split_ifs <;> simp
    have hxe : x1 = x0 + (if x0 < x1 then (1 : Int) else -1) * ((x1 - x0).natAbs : Int) := by
      split_ifs <;> omega
    have hye : y1 = y0 + (if y0 < y1 then (1 : Int) else -1) * ((y1 - y0).natAbs : Int) := by
      split_ifs <;> omega
    have hpa : (((x1 - x0).natAbs : Nat) : Int) = |x1 - x0| := Int.natCast_natAbs _
    have hqb : (((y1 - y0).natAbs : Nat) : Int) = |y1 - y0| := Int.natCast_natAbs _
  · intro hba
    exact drawLineLoopExact_xmajor_fst x1 y1 |x1 - x0| |y1 - y0| _ _ hsx
      (abs_nonneg _) (abs_nonneg _) hba fuel (x1 - x0).natAbs (y1 - y0).natAbs x0 y0
      (|x1 - x0| + -|y1 - y0|) ws hxe hye (le_of_eq hpa) (le_of_eq hqb)
      (by rw [hpa, hqb]; ring) (by rw [hpa, hqb]; nlinarith [abs_nonneg (x1 - x0)])
      (by rw [hpa, hqb]; nlinarith [abs_nonneg (x1 - x0)]) hws
  · intro hab
    rw [drawLineLoopExact_swap, neg_neg, Option.map_eq_some'] at hws
    obtain ⟨ws', hws', rfl⟩ := hws
    have hcol := drawLineLoopExact_xmajor_fst y1 x1 |y1 - y0| |x1 - x0| _ _ hsy
      (abs_nonneg _) (abs_nonneg _) hab fuel (y1 - y0).natAbs (x1 - x0).natAbs y0 x0
      (-(|x1 - x0| + -|y1 - y0|)) ws' hye hxe (le_of_eq hqb) (le_of_eq hpa)
      (by rw [hpa, hqb]; ring) (by rw [hpa, hqb]; nlinarith [abs_nonneg (y1 - y0)])
      (by rw [hpa, hqb]; nlinarith [abs_nonneg (y1 - y0)]) hws'
    rw [← hcol, List.map_map]
    apply List.map_congr_left
    intro w _
    rfl

/-- Witness of the amended C3 on the line from (3,4) to (-1,1). -/
theorem drawLine_writes_once_witness :
    |(3 : Int)| ≤ 4503599627370496 ∧ |(4 : Int)| ≤ 4503599627370496 ∧
      |(-1 : Int)| ≤ 4503599627370496 ∧ |(1 : Int)| ≤ 4503599627370496 ∧
      max ((-1 : Int) - 3).natAbs ((1 : Int) - 4).natAbs + 1 ≤ 5 ∧
      ∃ ws, drawLine 5 3 4 (-1) 1 = some ws ∧ ws.Nodup ∧
        ws.length = max ((-1 : Int) - 3).natAbs ((1 : Int) - 4).natAbs + 1 ∧
        ws.head? = some (3, 4) ∧ ws.getLast? = some (-1, 1) ∧
        (|(1 : Int) - 4| ≤ |(-1 : Int) - 3| →
          ws.map Prod.fst = (List.range (((-1 : Int) - 3).natAbs + 1)).map
            (fun (i : Nat) => 3 + (if (3 : Int) < -1 then 1 else -1) * (i : Int))) ∧
        (|(-1 : Int) - 3| ≤ |(1 : Int) - 4| →
          ws.map Prod.snd = (List.range (((1 : Int) - 4).natAbs + 1)).map
            (fun (i : Nat) => 4 + (if (4 : Int) < 1 then 1 else -1) * (i : Int))) :=
  ⟨by decide, by decide, by decide, by decide, by decide,
    drawLine_writes_once 3 4 (-1) 1 5 (by decide) (by decide) (by decide) (by decide)
      (by decide)⟩

/-- C30, as stated, fails: in the call `drawLine(img, -2^63, 0, 2^63-1, 5)` the
difference `x1 - x0` wraps to -1, and the seventh pixel written is
`(-2^63+1, 6)`, whose `y` lies beyond `y1 = 5`. -/
theorem drawLine_leaves_bounding_box :
    (drawLineFirst 7 (-9223372036854775808) 0 9223372036854775807 5).getLast? =
        some (-9223372036854775807, 6) ∧
      ¬ ((6 : Int) ≤ max 0 5) := by
  decide

/-- C30, amended: for endpoints of at most `2^52` in magnitude, every pixel
`(x, y)` written by `drawLine` satisfies
`2·|(x1-x0)·(y-y0) - (y1-y0)·(x-x0)| ≤ max(|x1-x0|, |y1-y0|)`, and `x` lies
between `x0` and `x1` and `y` between `y0` and `y1`. -/
theorem drawLine_near_ideal_line (x0 y0 x1 y1 : Int) (fuel : Nat)
    (h0 : |x0| ≤ 4503599627370496) (h1 : |y0| ≤ 4503599627370496)
    (h2 : |x1| ≤ 4503599627370496) (h3 : |y1| ≤ 4503599627370496)
    (hf : max (x1 - x0).natAbs (y1 - y0).natAbs + 1 ≤ fuel) :
    ∃ ws, drawLine fuel x0 y0 x1 y1 = some ws ∧
      ∀ w ∈ ws, 2 * |(x1 - x0) * (w.2 - y0) - (y1 - y0) * (w.1 - x0)|
          ≤ max |x1 - x0| |y1 - y0| ∧
        min x0 x1 ≤ w.1 ∧ w.1 ≤ max x0 x1 ∧ min y0 y1 ≤ w.2 ∧ w.2 ≤ max y0 y1 := by
  obtain ⟨ws, hcode, hws, -⟩ := drawLine_eq_exact x0 y0 x1 y1 fuel h0 h1 h2 h3 hf
  refine ⟨ws, hcode, ?_⟩
  unfold drawLineExact at hws
  simp only at hws
  have hsx : (if x0 < x1 then (1 : Int) else -1) = 1 ∨ (if x0 < x1 then (1 : Int) else -1) = -1 := by
    split_ifs <;> simp
  have hsy : (if y0 < y1 then (1 : Int) else -1) = 1 ∨ (if y0 < y1 then (1 : Int) else -1) = -1 := by
    split_ifs <;> simp
  have hxe : x1 = x0 + (if x0 < x1 then (1 : Int) else -1) * ((x1 - x0).natAbs : Int) := by
    split_ifs <;> omega
  have hye : y1 = y0 + (if y0 < y1 then (1 : Int) else -1) * ((y1 - y0).natAbs : Int) := by
    split_ifs <;> omega
  have hpa : (((x1 - x0).natAbs : Nat) : Int) = |x1 - x0| := Int.natCast_natAbs _
  have hqb : (((y1 - y0).natAbs : Nat) : Int) = |y1 - y0| := Int.natCast_natAbs _
  by_cases hba : |y1 - y0| ≤ |x1 - x0|
  · have hmax : max |x1 - x0| |y1 - y0| = |x1 - x0| := max_eq_left hba
    rw [hmax]
    have hpts := drawLineLoopExact_xmajor_points x1 y1 |x1 - x0| |y1 - y0| _ _
      (abs_nonneg _) (abs_nonneg _) hba fuel (x1 - x0).natAbs (y1 - y0).natAbs x0 y0
      (|x1 - x0| + -|y1 - y0|) ws hxe hye (le_of_eq hpa) (le_of_eq hqb)
      (by rw [hpa, hqb]; ring) (by rw [hpa, hqb]; nlinarith [abs_nonneg (x1 - x0)])
      (by rw [hpa, hqb]; nlinarith [abs_nonneg (x1 - x0)]) hws
    intro w hw
    obtain ⟨p', q', hp, hq, hw1, hw2, hlo, hhi⟩ := hpts w hw
    exact near_line_of_steps x0 y0 x1 y1 _ _ _ _ _ _ p' q' w hsx hsy hxe hye hpa hqb hp hq
      hw1 hw2 hlo hhi
  · have hab : |x1 - x0| ≤ |y1 - y0| := le_of_lt (not_le.1 hba)
    have hmax : max |x1 - x0| |y1 - y0| = |y1 - y0| := max_eq_right hab
    rw [hmax]
    rw [drawLineLoopExact_swap, neg_neg, Option.map_eq_some'] at hws
    obtain ⟨ws', hws', rfl⟩ := hws
    have hpts := drawLineLoopExact_xmajor_points y1 x1 |y1 - y0| |x1 - x0| _ _
      (abs_nonneg _) (abs_nonneg _) hab fuel (y1 - y0).natAbs (x1 - x0).natAbs y0 x0
      (-(|x1 - x0| + -|y1 - y0|)) ws' hye hxe (le_of_eq hqb) (le_of_eq hpa)
      (by rw [hpa, hqb]; ring) (by rw [hpa, hqb]; nlinarith [abs_nonneg (y1 - y0)])
      (by rw [hpa, hqb]; nlinarith [abs_nonneg (y1 - y0)]) hws'
    intro w hw
    rw [List.mem_map] at hw
    obtain ⟨w', hw', rfl⟩ := hw
    obtain ⟨p', q', hp, hq, hw1, hw2, hlo, hhi⟩ := hpts w' hw'
    obtain ⟨h1, h2, h3, h4, h5⟩ := near_line_of_steps y0 x0 y1 x1 _ _ _ _ _ _ p' q' w' hsy hsx
      hye hxe hqb hpa hp hq hw1 hw2 hlo hhi
    refine ⟨?_, h4, h5, h2, h3⟩
    simp only [Prod.fst_swap, Prod.snd_swap]
    rw [abs_sub_comm]
    exact h1

/-- Witness of the amended C30 on the line from (0,0) to (5,2). -/
theorem drawLine_near_ideal_line_witness :
    |(0 : Int)| ≤ 4503599627370496 ∧ |(0 : Int)| ≤ 4503599627370496 ∧
      |(5 : Int)| ≤ 4503599627370496 ∧ |(2 : Int)| ≤ 4503599627370496 ∧
      max ((5 : Int) - 0).natAbs ((2 : Int) - 0).natAbs + 1 ≤ 6 ∧
      ∃ ws, drawLine 6 0 0 5 2 = some ws ∧
        ∀ w ∈ ws, 2 * |((5 : Int) - 0) * (w.2 - 0) - ((2 : Int) - 0) * (w.1 - 0)|
            ≤ max |(5 : Int) - 0| |(2 : Int) - 0| ∧
          min 0 5 ≤ w.1 ∧ w.1 ≤ max 0 5 ∧ min 0 2 ≤ w.2 ∧ w.2 ≤ max 0 2 :=
  ⟨by decide, by decide, by decide, by decide, by decide,
    drawLine_near_ideal_line 0 0 5 2 6 (by decide) (by decide) (by decide) (by decide)
      (by decide)⟩

/-! ## Claims about `drawCircle` -/

/-- Every call of `drawCircle` with at least `r + 1` units of fuel returns,
and each generated octant point lies between the circles of radius `r - 1`
and `r`. -/
theorem drawCirclePoints_spec (r : Int) (fuel : Nat) (hf : r.toNat + 1 ≤ fuel) :
    ∃ ps, drawCirclePoints fuel r = some ps ∧
      ∀ p ∈ ps, (r - 1) * (r - 1) ≤ p.1 * p.1 + p.2 * p.2 ∧ p.1 * p.1 + p.2 * p.2 ≤ r * r ∧
        0 ≤ p.2 ∧ p.2 ≤ p.1 ∧ p.1 ≤ r - 1 := by
  obtain ⟨ps, hps⟩ := drawCircleLoop_terminates r fuel (r - 1) 0 1 1 (1 - r * 2)
    (by omega) (by omega)
  refine ⟨ps, hps, ?_⟩
  exact drawCircleLoop_bounds r fuel (r - 1) 0 1 1 (1 - r * 2) ps (by omega) (by omega)
    (by ring) (by omega) (by omega) (by omega) (by omega) hps

/-- C4: every pixel `(x0 + a, y0 + b)` written by `drawCircle` satisfies
`(r-1)^2 ≤ a^2 + b^2 ≤ (r+1)^2`. -/
theorem drawCircle_within_one_pixel (x0 y0 r : Int) (fuel : Nat) (hf : r.toNat + 1 ≤ fuel) :
    ∃ ws, drawCircle fuel x0 y0 r = some ws ∧
      ∀ w ∈ ws, (r - 1) ^ 2 ≤ (w.1 - x0) ^ 2 + (w.2 - y0) ^ 2 ∧
        (w.1 - x0) ^ 2 + (w.2 - y0) ^ 2 ≤ (r + 1) ^ 2 := by
  obtain ⟨ps, hps, hb⟩ := drawCirclePoints_spec r fuel hf
  refine ⟨ps.flatMap (octantWrites x0 y0), by simp [drawCircle, hps], ?_⟩
  intro w hw
  rw [List.mem_flatMap] at hw
  obtain ⟨p, hp, hwp⟩ := hw
  obtain ⟨h1, h2, h3, h4, h5⟩ := hb p hp
  have hr : 0 ≤ r := by omega
  have hsq : (w.1 - x0) ^ 2 + (w.2 - y0) ^ 2 = p.1 * p.1 + p.2 * p.2 := by
    rw [mem_octantWrites] at hwp
    rcases hwp with h | h | h | h | h | h | h | h <;> obtain ⟨e1, e2⟩ := h <;>
      rw [e1, e2] <;> ring
  rw [hsq]
  constructor
  · rw [pow_two]; exact h1
  · have : r * r ≤ (r + 1) ^ 2 := by rw [pow_two]; nlinarith
    exact le_trans h2 this

/-- Witness of C4 for radius 6 around (10, 10). -/
theorem drawCircle_within_one_pixel_witness :
    (6 : Int).toNat + 1 ≤ 7 ∧
      ∃ ws, drawCircle 7 10 10 6 = some ws ∧
        ∀ w ∈ ws, ((6 : Int) - 1) ^ 2 ≤ (w.1 - 10) ^ 2 + (w.2 - 10) ^ 2 ∧
          (w.1 - 10) ^ 2 + (w.2 - 10) ^ 2 ≤ ((6 : Int) + 1) ^ 2 :=
  ⟨by decide, drawCircle_within_one_pixel 10 10 6 7 (by decide)⟩

/-- C5, as stated, fails: for radius 2 the last generated octant point is
`(1, 1)`, which is its own diagonal mirror and therefore not 8-adjacent to it. -/
theorem drawCircle_last_point_self_mirror :
    drawCirclePoints 3 2 = some [(1, 0), (1, 1)] ∧ ¬ adj8 ((1 : Int), (1 : Int)) (1, 1) := by
  decide

/-- C5, amended: for every radius `r ≥ 1`, `drawCircle` returns, the written
coordinates are closed under negating either offset and exchanging the two
offsets, consecutive octant points are 8-adjacent, and the last octant point
`(a, b)` coincides with or is 8-adjacent to its diagonal mirror `(b, a)`. -/
theorem drawCircle_closed_ring (x0 y0 r : Int) (fuel : Nat) (hr : 1 ≤ r)
    (hf : r.toNat + 1 ≤ fuel) :
    ∃ ps ws, drawCirclePoints fuel r = some ps ∧ drawCircle fuel x0 y0 r = some ws ∧
      (∀ a b, (x0 + a, y0 + b) ∈ ws →
        (x0 - a, y0 + b) ∈ ws ∧ (x0 + a, y0 - b) ∈ ws ∧ (x0 + b, y0 + a) ∈ ws) ∧
      ps.Chain' adj8 ∧
      ∃ a b, ps.getLast? = some (a, b) ∧ near8 (a, b) (b, a) := by
  obtain ⟨ps, hps, -⟩ := drawCirclePoints_spec r fuel hf
  obtain ⟨hhead, hchain, hlast⟩ :=
    drawCircleLoop_shape r fuel (r - 1) 0 1 1 (1 - r * 2) ps hps
  refine ⟨ps, ps.flatMap (octantWrites x0 y0), hps, by simp [drawCircle, hps], ?_, hchain, ?_⟩
  · intro a b h
    exact flatMap_octantWrites_closed x0 y0 ps a b h
  · rw [if_pos (by omega)] at hhead
    cases hl : ps.getLast? with
    | none =>
      rw [List.getLast?_eq_none_iff] at hl
      subst hl
      simp at hhead
    | some q =>
      obtain ⟨a, b⟩ := q
      have := hlast (a, b) (by simp [hl])
      simp only at this
      refine ⟨a, b, rfl, ?_, ?_⟩ <;> simp only [abs_le] <;> constructor <;> omega

/-- Witness of C5 (amended) for radius 6 around (10, 10). -/
theorem drawCircle_closed_ring_witness :
    (1 : Int) ≤ 6 ∧ (6 : Int).toNat + 1 ≤ 7 ∧
      ∃ ps ws, drawCirclePoints 7 6 = some ps ∧ drawCircle 7 10 10 6 = some ws ∧
        (∀ a b, (10 + a, 10 + b) ∈ ws →
          (10 - a, 10 + b) ∈ ws ∧ (10 + a, 10 - b) ∈ ws ∧ (10 + b, 10 + a) ∈ ws) ∧
        ps.Chain' adj8 ∧
        ∃ a b, ps.getLast? = some (a, b) ∧ near8 (a, b) (b, a) :=
  ⟨by decide, by decide, drawCircle_closed_ring 10 10 6 7 (by decide) (by decide)⟩

/-! ## Claims about `breakLines` -/

/-- A fold whose step leaves every state unchanged returns its initial state. -/
theorem foldl_eq_init {σ ι : Type} (f : σ → ι → σ) (l : List ι)
    (h : ∀ j ∈ l, ∀ st, f st j = st) (init : σ) : l.foldl f init = init := by
  induction l generalizing init with
  | nil => rfl
  | cons a t ih =>
    rw [List.foldl_cons, h a (List.mem_cons_self a t) init]
    exact ih (fun j hj => h j (List.mem_cons_of_mem a hj)) init

/-- A byte read at an index `j ≥ 1` that differs from the default lies in the
tail of the text. -/
theorem getD_mem_tail (t : List Nat) (j : Nat) (c : Nat) (hj : 1 ≤ j) (hc : c ≠ 0)
    (h : t.getD j 0 = c) : c ∈ t.tail := by
  cases t with
  | nil => simp at h; exact absurd h.symm hc
  | cons a tl =>
    obtain ⟨k, rfl⟩ : ∃ k, j = k + 1 := ⟨j - 1, by omega⟩
    simp only [List.getD_cons_succ, List.tail_cons] at h ⊢
    by_cases hk : k < tl.length
    · rw [List.getD_eq_getElem tl 0 hk] at h
      rw [← h]
      exact List.getElem_mem hk
    · rw [List.getD_eq_default tl 0 (by omega)] at h
      exact absurd h.symm hc

/-- Without a newline after the first byte, and with fewer bytes than `count`,
no iteration of the loop of `breakLines` changes the state. -/
theorem breakStep_short (t : List Nat) (count : Int) (hnl : (10 : Nat) ∉ t.tail)
    (hlen : (t.length : Int) < count) (j : Nat) (hj : j ∈ List.range' 1 (t.length - 1))
    (st : BreakState) : breakStep t count st j = st := by
  rw [List.mem_range'_1] at hj
  unfold breakStep
  rw [if_neg]
  rintro (⟨-, h⟩ | h)
  · have : (slice t st.i j).length ≤ j := by
      simp only [slice, List.length_drop, List.length_take]
      omega
    omega
  · exact hnl (getD_mem_tail t j 10 hj.1 (by decide) h)

/-- Under the same conditions `breakLines` returns the tab-expanded text as
its only line. -/
theorem breakLines_of_short (text : List Nat) (count : Int)
    (hnl : (10 : Nat) ∉ (replaceTabs text).tail)
    (hlen : ((replaceTabs text).length : Int) < count) :
    breakLines text count = ([replaceTabs text], ((replaceTabs text).length : Int)) := by
  unfold breakLines
  simp only
  rw [foldl_eq_init _ _ (fun j hj st => breakStep_short _ count hnl hlen j hj st)]
  simp

/-- C6, as stated, fails: the three-byte text "a\nb" is shorter than the width
10 and yet is returned as the two lines "a" and "b". -/
theorem breakLines_short_text_two_lines :
    ((ascii "a\nb").length : Int) < 10 ∧
      (breakLines (ascii "a\nb") 10).1 = [ascii "a", ascii "b"] ∧
      (breakLines (ascii "a\nb") 10).1 ≠ [TrimSpace (ascii "a\nb")] := by
  decide

/-- C6, amended: for every text with no newline after its first byte whose
length after tab expansion is less than the width, `breakLines` returns exactly
one line; when the expanded text has no surrounding white space, that line is
the expanded text with its surrounding white space trimmed. -/
theorem breakLines_short_text_one_line (text : List Nat) (count : Int)
    (hnl : (10 : Nat) ∉ (replaceTabs text).tail)
    (hlen : ((replaceTabs text).length : Int) < count) :
    (breakLines text count).1.length = 1 ∧
      (TrimSpace (replaceTabs text) = replaceTabs text →
        (breakLines text count).1 = [TrimSpace (replaceTabs text)]) := by
  rw [breakLines_of_short text count hnl hlen]
  refine ⟨rfl, ?_⟩
  intro h
  rw [h]

/-- Witness of C6 (amended) on the text "ab cd" with width 18. -/
theorem breakLines_short_text_one_line_witness :
    (10 : Nat) ∉ (replaceTabs (ascii "ab cd")).tail ∧
      ((replaceTabs (ascii "ab cd")).length : Int) < 18 ∧
      (breakLines (ascii "ab cd") 18).1.length = 1 ∧
      (TrimSpace (replaceTabs (ascii "ab cd")) = replaceTabs (ascii "ab cd") →
        (breakLines (ascii "ab cd") 18).1 = [TrimSpace (replaceTabs (ascii "ab cd"))]) :=
  ⟨by decide, by decide,
    breakLines_short_text_one_line (ascii "ab cd") 18 (by decide) (by decide)⟩

/-- C7: on the text "ab cd" with width 2 the code returns the single line
"ab cd" and `longest = 5`, not the lines "ab", "cd" with `longest = 2`. -/
theorem breakLines_ab_cd :
    breakLines (ascii "ab cd") 2 = ([ascii "ab cd"], 5) := by
  decide

/-- C8: on the text "a\nbcd" with width 10 the code returns the lines "a" and
"bcd" with `longest = 1`, although the longest returned line has 3 bytes. -/
theorem breakLines_longest_misses_tail :
    breakLines (ascii "a\nbcd") 10 = ([ascii "a", ascii "bcd"], 1) ∧
      ((breakLines (ascii "a\nbcd") 10).1.map List.length).max? = some 3 := by
  decide

/-! ## Claims about `Rotate` and `Scale` -/

/-- C9: for every canvas and every `deg` that is a multiple of 360 (zero,
positive or negative), `Rotate` returns the canvas it was given. -/
theorem Rotate_multiple_of_360 (trig : Trig) (ctxBg : Option RGBA) (img : Image) (deg : Int)
    (h : deg % 360 = 0) : Rotate trig ctxBg img deg = img := by
  have h0 : deg.tmod 360 = 0 := by
    obtain ⟨k, rfl⟩ := Int.dvd_of_emod_eq_zero h
    exact Int.mul_tmod_right 360 k
  unfold Rotate
  rw [if_pos h0]

/-- Witness of C9 on the sample canvas, rotated by -720 degrees. -/
theorem Rotate_multiple_of_360_witness :
    (-720 : Int) % 360 = 0 ∧ Rotate sampleTrig none sampleImage (-720) = sampleImage :=
  ⟨by decide, Rotate_multiple_of_360 sampleTrig none sampleImage (-720) (by decide)⟩

/-- C10: for every canvas and every factor `c` with `|c - 1| < 0.001`, `Scale`
returns the canvas it was given. -/
theorem Scale_near_one (ctxBg : Option RGBA) (img : Image) (c : ℚ)
    (h : |c - 1| < 1 / 1000) : Scale ctxBg img c = img := by
  have h0 : |c - 1| < scaleTolerance := by
    refine lt_trans h ?_
    unfold scaleTolerance
    norm_num
  unfold Scale
  rw [if_pos h0]

/-- Witness of C10 on the sample canvas, scaled by 1.0005. -/
theorem Scale_near_one_witness :
    |(2001 / 2000 : ℚ) - 1| < 1 / 1000 ∧ Scale none sampleImage (2001 / 2000) = sampleImage :=
  ⟨by rw [abs_lt]; constructor <;> norm_num,
    Scale_near_one none sampleImage (2001 / 2000) (by rw [abs_lt]; constructor <;> norm_num)⟩

/-! ## Claims about the fuzzer configuration -/

/-- C11, as stated, fails: a configured NaN passes both comparisons of
`normalizeNoise`, so the noise that the three fuzzers use is NaN, which does
not lie in `[0, 1]`. -/
theorem normalizeNoise_passes_NaN :
    normalizeNoise Float64.nan = Float64.nan ∧
      RandomLines.noise { emptyCtx with noise := some Float64.nan } = Float64.nan ∧
      RandomCircles.noise { emptyCtx with noise := some Float64.nan } = Float64.nan ∧
      ConcentricCircles.noise { emptyCtx with noise := some Float64.nan } = Float64.nan ∧
      Float64.within 0 1 (normalizeNoise Float64.nan) = false := by
  refine ⟨rfl, rfl, rfl, rfl, rfl⟩

/-- C11, amended: for a configured value `n` other than NaN, the noise that
`RandomLines`, `RandomCircles` and `ConcentricCircles` use is
`normalizeNoise n`, which is `n` clamped to `[0, 1]` (0 below 0, 1 above 1,
`n` otherwise), lies in `[0, 1]`, and is left unchanged by a second
application. -/
theorem normalizeNoise_clamps (ctx : FuzzCtx) (n : Float64) (hn : n ≠ Float64.nan) :
    RandomLines.noise { ctx with noise := some n } = normalizeNoise n ∧
    RandomCircles.noise { ctx with noise := some n } = normalizeNoise n ∧
    ConcentricCircles.noise { ctx with noise := some n } = normalizeNoise n ∧
    normalizeNoise n = (if Float64.lt n (.fin 0) then .fin 0
      else if Float64.lt (.fin 1) n then .fin 1 else n) ∧
    Float64.within 0 1 (normalizeNoise n) = true ∧
    normalizeNoise (normalizeNoise n) = normalizeNoise n := by
  refine ⟨rfl, rfl, rfl, ?_⟩
  cases n with
  | nan => exact absurd rfl hn
  | inf s =>
    cases s <;> simp [normalizeNoise, Float64.lt, Float64.within]
  | fin q =>
    simp only [normalizeNoise, Float64.lt]
    by_cases h1 : (1 : ℚ) < q
    · have h0 : ¬ q < 0 := by linarith
      simp [h1, h0, Float64.lt, Float64.within]
    · by_cases h0 : q < 0
      · simp [h1, h0, Float64.lt, Float64.within]
      · have hw : Float64.within 0 1 (.fin q) = true := by
          simp only [Float64.within, decide_eq_true_eq]
          exact ⟨le_of_not_lt h0, le_of_not_lt h1⟩
        simp [h1, h0, Float64.lt, hw]

/-- Witness of the amended C11 for the configured noise 3/2. -/
theorem normalizeNoise_clamps_witness :
    Float64.fin (3 / 2) ≠ Float64.nan ∧
    RandomLines.noise { emptyCtx with noise := some (.fin (3 / 2)) }
      = normalizeNoise (.fin (3 / 2)) ∧
    RandomCircles.noise { emptyCtx with noise := some (.fin (3 / 2)) }
      = normalizeNoise (.fin (3 / 2)) ∧
    ConcentricCircles.noise { emptyCtx with noise := some (.fin (3 / 2)) }
      = normalizeNoise (.fin (3 / 2)) ∧
    normalizeNoise (.fin (3 / 2)) = (if Float64.lt (.fin (3 / 2)) (.fin 0) then .fin 0
      else if Float64.lt (.fin 1) (.fin (3 / 2)) then .fin 1 else .fin (3 / 2)) ∧
    Float64.within 0 1 (normalizeNoise (.fin (3 / 2))) = true ∧
    normalizeNoise (normalizeNoise (.fin (3 / 2))) = normalizeNoise (.fin (3 / 2)) :=
  ⟨by simp, normalizeNoise_clamps emptyCtx (.fin (3 / 2)) (by simp)⟩

/-- C12, as stated, fails: a configured NaN passes the comparisons of
`normalizeSlope` and of the clamp of `AccurateBands`, so the slope that both
fuzzers draw with is NaN, which does not lie in `[-2, 2]`. -/
theorem band_slope_passes_NaN :
    Bands.slope { emptyCtx with slope := some Float64.nan } = Float64.nan ∧
      AccurateBands.slope { emptyCtx with slope := some Float64.nan } = Float64.nan ∧
      Float64.within (-2) 2 (Bands.slope { emptyCtx with slope := some Float64.nan }) = false ∧
      Float64.within (-2) 2
        (AccurateBands.slope { emptyCtx with slope := some Float64.nan }) = false := by
  refine ⟨rfl, rfl, rfl, rfl⟩

/-- C12, amended: for a configured slope `s` other than NaN, the slopes that
`Bands` and `AccurateBands` draw with lie in `[-2, 2]`, and they have the
magnitude of `s` whenever `s` lies in `[-2, 2]`. -/
theorem band_slope_clamped (ctx : FuzzCtx) (s : Float64) (hs : s ≠ Float64.nan) :
    Float64.within (-2) 2 (Bands.slope { ctx with slope := some s }) = true ∧
    Float64.within (-2) 2 (AccurateBands.slope { ctx with slope := some s }) = true ∧
    (∀ v : ℚ, s = .fin v → -2 ≤ v → v ≤ 2 →
      ∃ q1 q2 : ℚ, Bands.slope { ctx with slope := some s } = .fin q1 ∧
        AccurateBands.slope { ctx with slope := some s } = .fin q2 ∧
        |q1| = |v| ∧ |q2| = |v|) := by
  cases s with
  | nan => exact absurd rfl hs
  | inf b =>
    refine ⟨?_, ?_, ?_⟩
    · cases b <;> simp [Bands.slope, normalizeSlope, Float64.neg, Float64.lt, Float64.within]
    · cases b <;> simp [AccurateBands.slope, Float64.lt, Float64.within]
    · intro v hv
      cases hv
  | fin q =>
    refine ⟨?_, ?_, ?_⟩
    · simp only [Bands.slope, normalizeSlope, Float64.neg, Float64.lt]
      by_cases h1 : (2 : ℚ) < -q
      · simp [h1, Float64.within]
      · by_cases h2 : -q < -2
        · simp [h1, h2, Float64.within]
        · simp only [h1, h2, decide_False, Bool.false_eq_true, if_false, Float64.within,
            decide_eq_true_eq]
          exact ⟨le_of_not_lt h2, le_of_not_lt h1⟩
    · simp only [AccurateBands.slope, Float64.lt]
      by_cases h1 : (2 : ℚ) < q
      · simp [h1, Float64.within]
      · by_cases h2 : q < -2
        · simp [h1, h2, Float64.within]
        · simp only [h1, h2, decide_False, Bool.false_eq_true, if_false, Float64.within,
            decide_eq_true_eq]
          exact ⟨le_of_not_lt h2, le_of_not_lt h1⟩
    · intro v hv h1 h2
      injection hv with hv
      subst hv
      refine ⟨-q, q, ?_, ?_, abs_neg q, rfl⟩
      · have e1 : ¬ ((2 : ℚ) < -q) := by linarith
        have e2 : ¬ (-q < (-2 : ℚ)) := by linarith
        simp [Bands.slope, normalizeSlope, Float64.neg, Float64.lt, e1, e2]
      · have e3 : ¬ ((2 : ℚ) < q) := by linarith
        have e4 : ¬ (q < (-2 : ℚ)) := by linarith
        simp [AccurateBands.slope, Float64.lt, e3, e4]

/-- Witness of the amended C12 for the configured slope 3/2. -/
theorem band_slope_clamped_witness :
    Float64.fin (3 / 2) ≠ Float64.nan ∧
    Float64.within (-2) 2 (Bands.slope { emptyCtx with slope := some (.fin (3 / 2)) }) = true ∧
    Float64.within (-2) 2
      (AccurateBands.slope { emptyCtx with slope := some (.fin (3 / 2)) }) = true ∧
    (∀ v : ℚ, Float64.fin (3 / 2) = .fin v → -2 ≤ v → v ≤ 2 →
      ∃ q1 q2 : ℚ, Bands.slope { emptyCtx with slope := some (.fin (3 / 2)) } = .fin q1 ∧
        AccurateBands.slope { emptyCtx with slope := some (.fin (3 / 2)) } = .fin q2 ∧
        |q1| = |v| ∧ |q2| = |v|) :=
  ⟨by simp, band_slope_clamped emptyCtx (.fin (3 / 2)) (by simp)⟩

/-! ## Claims about the bounds and the writes of `Rotate` and `Scale` -/

theorem Image.Bounds_eq (img : Image) : img.Bounds = img.Rect := rfl

theorem Image.Set_Rect (cv : Image) (x y : Int) (c : RGBA) : (cv.Set x y c).Rect = cv.Rect := by
  unfold Image.Set
  split_ifs <;> rfl

/-- A loop of `Set` calls leaves the bounds of the canvas alone. -/
theorem foldl_keeps_Rect {ι : Type} (f : Image → ι → Image)
    (hf : ∀ cv i, (f cv i).Rect = cv.Rect) (l : List ι) (cv : Image) :
    (l.foldl f cv).Rect = cv.Rect := by
  induction l generalizing cv with
  | nil => rfl
  | cons a t ih => rw [List.foldl_cons, ih, hf]

/-- The bounds of the canvas returned by `Rotate` when it is not a no-op. -/
theorem Rotate_Rect (trig : Trig) (ctxBg : Option RGBA) (img : Image) (deg : Int)
    (h : deg.tmod 360 ≠ 0) :
    (Rotate trig ctxBg img deg).Rect =
      Rectangle.mk
        (Point.mk (goRound (-(img.Bounds.Dx : ℚ) *
            (if (deg ≥ 55 ∧ deg < 125) ∨ (deg ≥ 235 ∧ deg < 305) then 13 / 10 else 1) / 2))
          ((-img.Bounds.Dy).tdiv 2))
        (Point.mk (goRound ((img.Bounds.Dx : ℚ) *
            (if (deg ≥ 55 ∧ deg < 125) ∨ (deg ≥ 235 ∧ deg < 305) then 13 / 10 else 1) / 2))
          (img.Bounds.Dy.tdiv 2)) := by
  unfold Rotate
  rw [if_neg h]
  simp only
  rw [foldl_keeps_Rect]
  · rfl
  · intro cv x
    rw [foldl_keeps_Rect]
    intro cv y
    exact Image.Set_Rect _ _ _ _

theorem tmod_ne_zero_of_emod_ne_zero (deg : Int) (h : deg % 360 ≠ 0) : deg.tmod 360 ≠ 0 := by
  intro h0
  apply h
  have hd : (360 : Int) ∣ deg := Int.dvd_of_tmod_eq_zero h0
  exact Int.emod_eq_zero_of_dvd hd

/-- C17, as stated, fails: at `deg = 55`, which is not inside the open interval
(55°, 125°), the 10-pixel-wide canvas gets the widened x bounds -7..7 and not
the bounds -5..5 of "every other angle"; and at `deg = 450`, the angle 90°, it
gets the bounds -5..5 and is not widened. -/
theorem Rotate_55_is_widened :
    (55 : Int) % 360 ≠ 0 ∧ ¬ ((55 : Int) < 55) ∧
      (Rotate sampleTrig none wideImage 55).Bounds =
        { Min := { X := -7, Y := -2 }, Max := { X := 7, Y := 2 } } ∧
      goRound (-(wideImage.Bounds.Dx : ℚ) / 2) = -5 ∧
      goRound ((wideImage.Bounds.Dx : ℚ) / 2) = 5 ∧
      (450 : Int) % 360 = 90 ∧
      (Rotate sampleTrig none wideImage 450).Bounds =
        { Min := { X := -5, Y := -2 }, Max := { X := 5, Y := 2 } } := by
  refine ⟨by decide, by decide, ?_, ?_, ?_, by decide, ?_⟩
  · show (Rotate sampleTrig none wideImage 55).Rect = _
    rw [Rotate_Rect _ _ _ _ (by decide)]
    have hdx : wideImage.Bounds.Dx = 10 := by decide
    have hdy : wideImage.Bounds.Dy = 4 := by decide
    rw [hdx, hdy]
    unfold goRound
    norm_num
    decide
  · have hdx : wideImage.Bounds.Dx = 10 := by decide
    rw [hdx]
    unfold goRound
    norm_num
  · have hdx : wideImage.Bounds.Dx = 10 := by decide
    rw [hdx]
    unfold goRound
    norm_num
  · show (Rotate sampleTrig none wideImage 450).Rect = _
    rw [Rotate_Rect _ _ _ _ (by decide)]
    have hdx : wideImage.Bounds.Dx = 10 := by decide
    have hdy : wideImage.Bounds.Dy = 4 := by decide
    rw [hdx, hdy]
    unfold goRound
    norm_num
    decide

/-- C17, amended: for every canvas of width `W` and height `H` and every `deg`
that is not a multiple of 360, `Rotate` returns a canvas with y bounds
`-(H/2)` to `H/2` and with x bounds `round(-1.3·W/2)` to `round(1.3·W/2)` when
`55 ≤ deg < 125` or `235 ≤ deg < 305` (for `deg` as passed, not reduced modulo
360), and `round(-W/2)` to `round(W/2)` for every other `deg`. -/
theorem Rotate_bounds (trig : Trig) (ctxBg : Option RGBA) (img : Image) (deg : Int)
    (h : deg % 360 ≠ 0) :
    (Rotate trig ctxBg img deg).Bounds.Min.Y = -(img.Bounds.Dy.tdiv 2) ∧
    (Rotate trig ctxBg img deg).Bounds.Max.Y = img.Bounds.Dy.tdiv 2 ∧
    ((55 ≤ deg ∧ deg < 125) ∨ (235 ≤ deg ∧ deg < 305) →
      (Rotate trig ctxBg img deg).Bounds.Min.X = goRound (-(13 / 10 * (img.Bounds.Dx : ℚ) / 2)) ∧
      (Rotate trig ctxBg img deg).Bounds.Max.X = goRound (13 / 10 * (img.Bounds.Dx : ℚ) / 2)) ∧
    (¬ ((55 ≤ deg ∧ deg < 125) ∨ (235 ≤ deg ∧ deg < 305)) →
      (Rotate trig ctxBg img deg).Bounds.Min.X = goRound (-((img.Bounds.Dx : ℚ) / 2)) ∧
      (Rotate trig ctxBg img deg).Bounds.Max.X = goRound ((img.Bounds.Dx : ℚ) / 2)) := by
  have hr := Rotate_Rect trig ctxBg img deg (tmod_ne_zero_of_emod_ne_zero deg h)
  unfold Image.Bounds at *
  rw [hr]
  refine ⟨by simp [Int.neg_tdiv], rfl, ?_, ?_⟩
  · intro hin
    have hin2 : (deg ≥ 55 ∧ deg < 125) ∨ (deg ≥ 235 ∧ deg < 305) := hin
    simp only [hin2, if_true]
    constructor <;> congr 1 <;> ring
  · intro hout
    have hout2 : ¬ ((deg ≥ 55 ∧ deg < 125) ∨ (deg ≥ 235 ∧ deg < 305)) := hout
    simp only [hout2, if_false]
    constructor <;> congr 1 <;> ring

/-- Witness of C17 (amended) on the 10×4 canvas rotated by 90 degrees. -/
theorem Rotate_bounds_witness :
    (90 : Int) % 360 ≠ 0 ∧
    (Rotate sampleTrig none wideImage 90).Bounds.Min.Y = -(wideImage.Bounds.Dy.tdiv 2) ∧
    (Rotate sampleTrig none wideImage 90).Bounds.Max.Y = wideImage.Bounds.Dy.tdiv 2 ∧
    ((55 ≤ (90 : Int) ∧ (90 : Int) < 125) ∨ (235 ≤ (90 : Int) ∧ (90 : Int) < 305) →
      (Rotate sampleTrig none wideImage 90).Bounds.Min.X =
        goRound (-(13 / 10 * (wideImage.Bounds.Dx : ℚ) / 2)) ∧
      (Rotate sampleTrig none wideImage 90).Bounds.Max.X =
        goRound (13 / 10 * (wideImage.Bounds.Dx : ℚ) / 2)) ∧
    (¬ ((55 ≤ (90 : Int) ∧ (90 : Int) < 125) ∨ (235 ≤ (90 : Int) ∧ (90 : Int) < 305)) →
      (Rotate sampleTrig none wideImage 90).Bounds.Min.X =
        goRound (-((wideImage.Bounds.Dx : ℚ) / 2)) ∧
      (Rotate sampleTrig none wideImage 90).Bounds.Max.X =
        goRound ((wideImage.Bounds.Dx : ℚ) / 2)) :=
  ⟨by decide, Rotate_bounds sampleTrig none wideImage 90 (by decide)⟩

/-- A loop over a concatenation of per-item lists is the nested loop. -/
theorem foldl_flatMap_eq {σ ι κ : Type} (f : σ → κ → σ) (g : ι → List κ) (l : List ι) (s : σ) :
    (l.flatMap g).foldl f s = l.foldl (fun acc i => (g i).foldl f acc) s := by
  induction l generalizing s with
  | nil => rfl
  | cons a t ih => rw [List.flatMap_cons, List.foldl_append, List.foldl_cons, ih]

/-- Outside its no-op band `Scale` is the canvas `scaleCanvas` with the calls
`scaleWrites` applied in order. -/
theorem Scale_eq_foldl (ctxBg : Option RGBA) (img : Image) (c : ℚ)
    (h : ¬ |c - 1| < scaleTolerance) :
    Scale ctxBg img c =
      (scaleWrites img c).foldl (fun cv w => cv.Set w.1 w.2.1 w.2.2) (scaleCanvas ctxBg img c) := by
  unfold Scale scaleWrites scaleStamp scaleCanvas scaleFill scaleFactor
  rw [if_neg h, foldl_flatMap_eq]
  simp only [foldl_flatMap_eq, List.foldl_map, bind_pure_comp, List.map_eq_map, Int.cast_natCast]

/-- The bounds of the canvas returned by `Scale` outside its no-op band. -/
theorem Scale_Rect (ctxBg : Option RGBA) (img : Image) (c : ℚ)
    (h : ¬ |c - 1| < scaleTolerance) :
    (Scale ctxBg img c).Rect =
      Rect 0 0 (goRound ((img.Bounds.Max.X : ℚ) * scaleFactor c))
        (goRound ((img.Bounds.Max.Y : ℚ) * scaleFactor c)) := by
  rw [Scale_eq_foldl ctxBg img c h, foldl_keeps_Rect]
  · rfl
  · intro cv w
    exact Image.Set_Rect _ _ _ _

/-- C18: on the 10×10 canvas with bounds (-5,-5)-(5,5) and factor 2 the code
returns a 10×10 canvas, sized from `Bounds().Max`, although `round(Dx × 2)` and
`round(Dy × 2)` are 20. -/
theorem Scale_sizes_from_Max :
    (Scale none centredImage 2).Bounds.Dx = 10 ∧ (Scale none centredImage 2).Bounds.Dy = 10 ∧
      goRound ((centredImage.Bounds.Dx : ℚ) * 2) = 20 ∧
      goRound ((centredImage.Bounds.Dy : ℚ) * 2) = 20 := by
  have h2 : ¬ |(2 : ℚ) - 1| < scaleTolerance := by
    unfold scaleTolerance
    norm_num
  have hf : scaleFactor 2 = 2 := by unfold scaleFactor; norm_num
  have hg : goRound (((5 : Int) : ℚ) * 2) = 10 := by unfold goRound; norm_num
  have hr : (Scale none centredImage 2).Rect = Rect 0 0 10 10 := by
    rw [Scale_Rect none centredImage 2 h2, hf]
    show Rect 0 0 (goRound (((5 : Int) : ℚ) * 2)) (goRound (((5 : Int) : ℚ) * 2)) = _
    rw [hg]
  have h20 : goRound (((10 : Int) : ℚ) * 2) = 20 := by unfold goRound; norm_num
  refine ⟨?_, ?_, ?_, ?_⟩
  · rw [Image.Bounds_eq, hr]; decide
  · rw [Image.Bounds_eq, hr]; decide
  · exact h20
  · exact h20

theorem goRound_intCast (n : Int) : goRound ((n : Int) : ℚ) = n := by
  unfold goRound
  split_ifs with h
  · rw [Int.floor_eq_iff]
    constructor
    · linarith
    · linarith
  · have : ⌊-(n : ℚ) + 1 / 2⌋ = -n := by
      rw [Int.floor_eq_iff]
      constructor
      · push_cast; linarith
      · push_cast; linarith
    rw [this, neg_neg]

theorem goTrunc_intCast (n : Int) : goTrunc ((n : Int) : ℚ) = n := by
  unfold goTrunc
  split_ifs with h
  · exact Int.floor_intCast n
  · have : ⌊-(n : ℚ)⌋ = -n := by
      rw [← Int.cast_neg]
      exact Int.floor_intCast _
    rw [this, neg_neg]

/-- A pixel that no `Set` call of a sequence addresses keeps its colour. -/
theorem foldl_Set_Pix (ws : List (Int × Int × RGBA)) (u v : Int)
    (h : ∀ w ∈ ws, ¬ (u = w.1 ∧ v = w.2.1)) :
    ∀ cv : Image, (ws.foldl (fun cv w => cv.Set w.1 w.2.1 w.2.2) cv).Pix u v = cv.Pix u v := by
  induction ws with
  | nil => intro cv; rfl
  | cons w t ih =>
    intro cv
    rw [List.foldl_cons, ih (fun w' hw' => h w' (List.mem_cons_of_mem _ hw'))]
    unfold Image.Set
    split_ifs
    · simp only
      rw [if_neg (h w (List.mem_cons_self _ _))]
    · rfl

/-- C19: with factor 2 the `Set` calls for the source pixel (0, 0) hit the
eight diagonal cells (-4,-4) .. (3,3), not a square; no `Set` call of
`Scale` on the 2×2 sample canvas addresses the cell (1, 0), which lies in the
square of side 4 at (0, 0), so that cell of the result keeps the background
colour.  With factor 1/2 the source pixel (2, 2) is written to the two cells
(0, 0) and (1, 1), not to one. -/
theorem Scale_stamps_a_diagonal :
    (scaleStamp sampleImage 2 0 0).map (fun w => (w.1, w.2.1)) =
        [(-4, -4), (-3, -3), (-2, -2), (-1, -1), (0, 0), (1, 1), (2, 2), (3, 3)] ∧
      Scale none sampleImage 2 =
        (scaleWrites sampleImage 2).foldl (fun cv w => cv.Set w.1 w.2.1 w.2.2)
          (scaleCanvas none sampleImage 2) ∧
      (∀ w ∈ scaleWrites sampleImage 2, ¬ ((1 : Int) = w.1 ∧ (0 : Int) = w.2.1)) ∧
      (Scale none sampleImage 2).Bounds = Rect 0 0 4 4 ∧
      (Scale none sampleImage 2).At 1 0 = { R := 192, G := 192, B := 192, A := 255 } ∧
      (scaleStamp sampleImage (1 / 2) 2 2).map (fun w => (w.1, w.2.1)) = [(0, 0), (1, 1)] := by
  have hf2 : scaleFactor 2 = 2 := by unfold scaleFactor; norm_num
  have hff2 : scaleFill 2 = 4 := by unfold scaleFill; rw [hf2]; unfold goRound; norm_num
  have hf1 : scaleFactor (1 / 2) = 1 / 2 := by unfold scaleFactor; norm_num
  have hff1 : scaleFill (1 / 2) = 1 := by unfold scaleFill; rw [hf1]; norm_num
  have hr0 : goRound ((2 : ℚ) * ((0 : Nat) : Int)) = 0 := by unfold goRound; norm_num
  have hr1 : goRound ((1 / 2 : ℚ) * ((2 : Nat) : Int)) = 1 := by unfold goRound; norm_num
  have hr : ∀ x : Nat, goRound ((2 : ℚ) * ((x : Nat) : Int)) = 2 * (x : Int) := by
    intro x
    have : (2 : ℚ) * (((x : Nat) : Int) : ℚ) = ((2 * (x : Int) : Int) : ℚ) := by push_cast; ring
    rw [this, goRound_intCast]
  have h2 : ¬ |(2 : ℚ) - 1| < scaleTolerance := by unfold scaleTolerance; norm_num
  have heq := Scale_eq_foldl none sampleImage 2 h2
  have hmem : ∀ w ∈ scaleWrites sampleImage 2, ¬ ((1 : Int) = w.1 ∧ (0 : Int) = w.2.1) := by
    intro w hw
    unfold scaleWrites scaleStamp at hw
    simp only [List.mem_flatMap, List.mem_map, List.mem_range] at hw
    obtain ⟨x, -, y, -, k, -, rfl⟩ := hw
    simp only [hf2, hff2, hr]
    omega
  have hrect : (Scale none sampleImage 2).Rect = Rect 0 0 4 4 := by
    rw [Scale_Rect none sampleImage 2 h2, hf2]
    have hx : goRound (((sampleImage.Bounds.Max.X : Int) : ℚ) * 2) = 4 := by
      have : sampleImage.Bounds.Max.X = 2 := by decide
      rw [this]; unfold goRound; norm_num
    have hy : goRound (((sampleImage.Bounds.Max.Y : Int) : ℚ) * 2) = 4 := by
      have : sampleImage.Bounds.Max.Y = 2 := by decide
      rw [this]; unfold goRound; norm_num
    rw [hx, hy]
  refine ⟨?_, heq, hmem, ?_, ?_, ?_⟩
  · unfold scaleStamp
    rw [hf2, hff2, hr0]
    decide
  · rw [Image.Bounds_eq, hrect]
  · unfold Image.At
    rw [hrect, if_pos (by decide), heq, foldl_Set_Pix _ 1 0 hmem]
    rfl
  · unfold scaleStamp
    rw [hf1, hff1, hr1]
    decide

/-! ## Claims about the random fuzzers and `gen` -/

theorem RandomLines_count_half : RandomLines.count (.fin (1 / 2)) = 50 := by
  simp only [RandomLines.count, Float64.mul, Float64.toInt, toInt64, goTrunc]
  norm_num
  rfl

theorem RandomCircles_count_half : RandomCircles.count (.fin (1 / 2)) = 5 := by
  simp only [RandomCircles.count, Float64.mul, Float64.round, Float64.toInt, toInt64, goRound,
    goTrunc]
  norm_num
  rfl


theorem collect_length {α : Type} : ∀ (os : List (Option α)) (l : List α),
    collect os = some l → l.length = os.length := by
  intro os
  induction os with
  | nil => intro l h; simp [collect] at h; subst h; rfl
  | cons o t ih =>
    intro l h
    cases o with
    | none => simp [collect] at h
    | some a =>
      cases ht : collect t with
      | none => simp [collect, ht] at h
      | some l' =>
        simp [collect, ht] at h
        subst h
        simp [ih l' ht]

theorem collect_isSome {α : Type} : ∀ (os : List (Option α)),
    (∀ o ∈ os, o.isSome) → ∃ l, collect os = some l := by
  intro os
  induction os with
  | nil => intro _; exact ⟨[], rfl⟩
  | cons o t ih =>
    intro h
    obtain ⟨l, hl⟩ := ih (fun o ho => h o (List.mem_cons_of_mem _ ho))
    have ho := h o (List.mem_cons_self _ _)
    cases o with
    | none => simp at ho
    | some a => exact ⟨a :: l, by simp [collect, hl]⟩

/-- On a canvas with positive `Max.X` and `Max.Y` no `rand.Intn` call of
`RandomLines` panics, and the fuzzer makes `int(noise*100)` calls of `drawLine`. -/
theorem RandomLines_segments_length (noise : Float64) (rnd : Nat → Nat) (r : Rectangle)
    (hx : 0 < r.Max.X) (hy : 0 < r.Max.Y) :
    ∃ segs, RandomLines.segments noise rnd r = some segs ∧
      segs.length = RandomLines.count noise := by
  obtain ⟨l, hl⟩ := collect_isSome
    ((List.range (RandomLines.count noise)).map (RandomLines.segment rnd r)) (by
      intro o ho
      rw [List.mem_map] at ho
      obtain ⟨i, -, rfl⟩ := ho
      simp [RandomLines.segment, Intn, not_le.2 hx, not_le.2 hy])
  refine ⟨l, hl, ?_⟩
  have := collect_length _ l hl
  simpa using this

/-- C13: with the configured noise 0.71875 the fuzzer of `RandomLines` makes
71 calls of `drawLine` on the sample canvas, while `round(noise × 100)` is 72. -/
theorem RandomLines_truncates_count :
    (RandomLines.segments
        (RandomLines.noise { emptyCtx with noise := some (.fin (23 / 32)) })
        (fun k => k) sampleImage.Bounds).map List.length = some 71 ∧
      goRound ((23 / 32 : ℚ) * 100) = 72 := by
  have hn : RandomLines.noise { emptyCtx with noise := some (.fin (23 / 32)) }
      = .fin (23 / 32) := by
    simp only [RandomLines.noise, normalizeNoise, Float64.lt]
    norm_num
  have ht : RandomLines.count (.fin (23 / 32)) = 71 := by
    simp only [RandomLines.count, Float64.mul, Float64.toInt, toInt64, goTrunc]
    norm_num
    rfl
  constructor
  · obtain ⟨segs, hs, hlen⟩ := RandomLines_segments_length (.fin (23 / 32)) (fun k => k)
      sampleImage.Bounds (by decide) (by decide)
    rw [hn, hs, Option.map_some', hlen, ht]
  · unfold goRound; norm_num

theorem overChannel_transparent (d : Nat) (h : d < 256) : overChannel d 0 0 = d := by
  unfold overChannel
  have h1 : d * ((65535 - 0 * 257) * 257) / 65535 = d * 257 := by
    rw [Nat.zero_mul, Nat.sub_zero, ← Nat.mul_assoc, Nat.mul_right_comm]
    exact Nat.mul_div_cancel _ (by norm_num)
  have h2 : (d * 257 + 0 * 257) / 256 = d := by omega
  rw [h1, h2]
  exact Nat.mod_eq_of_lt h

theorem overPixel_transparent (d : RGBA) (h : d.R < 256 ∧ d.G < 256 ∧ d.B < 256 ∧ d.A < 256) :
    overPixel d { R := 0, G := 0, B := 0, A := 0 } = d := by
  obtain ⟨r, g, b, a⟩ := d
  simp only at h
  simp only [overPixel, overChannel_transparent r h.1, overChannel_transparent g h.2.1,
    overChannel_transparent b h.2.2.1, overChannel_transparent a h.2.2.2]

/-- Compositing a fully transparent canvas over a canvas with 8-bit channels
changes nothing. -/
theorem drawOver_transparent (img : Image) (r : Rectangle) (sp : Point) (hv : img.valid) :
    drawOver img r (NewRGBA img.Bounds) sp = img := by
  obtain ⟨rect, pix⟩ := img
  unfold drawOver
  congr 1
  funext x y
  split_ifs with hc
  · simp only [Bool.and_eq_true] at hc
    exact overPixel_transparent _ (hv x y hc.1.1)
  · rfl

/-- C14: with the configured noise 0 or negative, the fuzzers of `RandomLines`
and `RandomCircles` make no `drawLine` and no `drawCircle` call, and they return
the input canvas (8-bit channels) with its bounds and every pixel unchanged. -/
theorem zero_noise_draws_nothing (ctx : FuzzCtx) (n : ℚ) (k0 : Nat) (rnd : Nat → Nat)
    (img : Image) (hn : n ≤ 0) (hv : img.valid) :
    RandomLines.segments (RandomLines.noise { ctx with noise := some (.fin n) }) rnd img.Bounds
        = some [] ∧
      collect ((List.range (RandomCircles.count
          (RandomCircles.noise { ctx with noise := some (.fin n) }))).map
            (RandomCircles.disk rnd img.Bounds)) = some [] ∧
      RandomLines { ctx with noise := some (.fin n) } rnd img = some img ∧
      RandomCircles { ctx with noise := some (.fin n) } k0 rnd img = some img := by
  have h0 : normalizeNoise (.fin n) = .fin 0 := by
    simp only [normalizeNoise, Float64.lt]
    have h1 : ¬ ((1 : ℚ) < n) := by linarith
    by_cases h2 : n < 0
    · simp [h1, h2]
    · have : n = 0 := le_antisymm hn (le_of_not_lt h2)
      simp [this]
  have hl : RandomLines.count (.fin 0) = 0 := by
    simp only [RandomLines.count, Float64.mul, Float64.toInt, toInt64, goTrunc]
    norm_num
  have hc : RandomCircles.count (.fin 0) = 0 := by
    simp only [RandomCircles.count, Float64.mul, Float64.round, Float64.toInt, toInt64,
      goTrunc, goRound]
    norm_num
  have hnl : RandomLines.noise { ctx with noise := some (.fin n) } = .fin 0 := h0
  have hnc : RandomCircles.noise { ctx with noise := some (.fin n) } = .fin 0 := h0
  have hsegs : ∀ r, RandomLines.segments (.fin 0) rnd r = some [] := by
    intro r
    unfold RandomLines.segments
    rw [hl]
    rfl
  refine ⟨?_, ?_, ?_, ?_⟩
  · rw [hnl]; exact hsegs _
  · rw [hnc, hc]; rfl
  · simp only [RandomLines, RandomLines.draws, overlayFuzzer, hnl, hsegs, Option.map_some', List.foldl_nil]
    rw [drawOver_transparent img _ _ hv]
  · simp only [RandomCircles, RandomCircles.draws, overlayFuzzer, hnc, hc, List.range_zero, List.map_nil, collect,
      Option.map_some', List.foldl_nil]
    rw [drawOver_transparent img _ _ hv]

theorem sampleImage_valid : sampleImage.valid := by
  intro x y h
  have hx : 0 ≤ x ∧ x < 2 ∧ 0 ≤ y ∧ y < 2 := by
    simpa [sampleImage, Rect, Rectangle.has, and_assoc] using h
  refine ⟨?_, ?_, ?_, ?_⟩
  · show x.toNat < 256
    omega
  · show y.toNat < 256
    omega
  · show (0 : Nat) < 256
    decide
  · show (255 : Nat) < 256
    decide

/-- Witness of C14 on the sample canvas with the configured noise -1. -/
theorem zero_noise_draws_nothing_witness :
    (-1 : ℚ) ≤ 0 ∧ sampleImage.valid ∧
      RandomLines.segments (RandomLines.noise { emptyCtx with noise := some (.fin (-1)) })
          (fun k => k) sampleImage.Bounds = some [] ∧
      collect ((List.range (RandomCircles.count
          (RandomCircles.noise { emptyCtx with noise := some (.fin (-1)) }))).map
            (RandomCircles.disk (fun k => k) sampleImage.Bounds)) = some [] ∧
      RandomLines { emptyCtx with noise := some (.fin (-1)) } (fun k => k) sampleImage
        = some sampleImage ∧
      RandomCircles { emptyCtx with noise := some (.fin (-1)) } 7 (fun k => k) sampleImage
        = some sampleImage :=
  ⟨by norm_num, sampleImage_valid,
    zero_noise_draws_nothing emptyCtx (-1) 7 (fun k => k) sampleImage (by norm_num)
      sampleImage_valid⟩

theorem collect_none_of_mem {α : Type} : ∀ (os : List (Option α)), none ∈ os → collect os = none := by
  intro os
  induction os with
  | nil => intro h; simp at h
  | cons o t ih =>
    intro h
    cases o with
    | none => simp [collect]
    | some a =>
      have ht : none ∈ t := by simpa using h
      simp [collect, ih ht]

/-- A fuzzer of the overlay shape returns a canvas with the bounds of its
argument. -/
theorem overlayFuzzer_Bounds (draws : Image → Option Image) (img res : Image)
    (h : overlayFuzzer draws img = some res) : res.Bounds = img.Bounds := by
  unfold overlayFuzzer at h
  rw [Option.map_eq_some'] at h
  obtain ⟨s, -, rfl⟩ := h
  rfl

/-- Overlay fuzzers whose drawing completes on the fresh canvas of the given
bounds, applied in turn to a canvas of those bounds, return a canvas of those
bounds. -/
theorem foldl_overlay_Bounds (b : Rectangle) :
    ∀ (fs : List Fuzzer) (img : Image), img.Bounds = b →
      (∀ f ∈ fs, ∃ draws, f = overlayFuzzer draws ∧ (draws (NewRGBA b)).isSome) →
      ∃ res, fs.foldl (fun captcha fuzzer => captcha.bind fuzzer) (some img) = some res ∧
        res.Bounds = b := by
  intro fs
  induction fs with
  | nil => intro img hb _; exact ⟨img, rfl, hb⟩
  | cons f t ih =>
    intro img hb hf
    obtain ⟨draws, rfl, hd⟩ := hf f (List.mem_cons_self _ _)
    obtain ⟨s, hs⟩ := Option.isSome_iff_exists.1 hd
    have hstep : overlayFuzzer draws img =
        some (drawOver img img.Bounds s { X := 0, Y := 0 }) := by
      unfold overlayFuzzer
      rw [hb, hs]
      rfl
    rw [List.foldl_cons, Option.some_bind, hstep]
    exact ih _ (by rw [← hb]; rfl) (fun g hg => hf g (List.mem_cons_of_mem _ hg))

/-- C15: for the empty text `breakLines` returns one empty line and
`longest = 0`, so the layout allocates a canvas of width 0; on that canvas
`RandomLines` with its default noise calls `rand.Intn(0)`, which panics, so
`gen` does not return a canvas. -/
theorem gen_panics_on_empty_canvas :
    breakLines [] 18 = ([[]], 0) ∧
      (Inconsolata.canvas 1 1 true 0 0 1).1 = emptyImage ∧
      gen [] (fun _ => emptyImage) [RandomLines emptyCtx (fun k => k)] = none := by
  have hcv : (Inconsolata.canvas 1 1 true 0 0 1).1 = emptyImage := by
    have hw : goTrunc (24 * ((0 : Int) : ℚ) * 1 * Inconsolata.wide true 0) = 0 := by
      unfold goTrunc; norm_num
    have hh : goTrunc (50 * ((1 : Int) : ℚ) * 1) = 50 := by
      unfold goTrunc; norm_num
    simp only [Inconsolata.canvas, hw, hh]
    rfl
  have hc : RandomLines.count (RandomLines.noise emptyCtx) = 50 := RandomLines_count_half
  have hseg : RandomLines.segment (fun k => k) emptyImage.Bounds 0 = none := by decide
  have hsegs : RandomLines.segments (RandomLines.noise emptyCtx) (fun k => k) emptyImage.Bounds
      = none := by
    unfold RandomLines.segments
    apply collect_none_of_mem
    rw [hc, List.mem_map]
    exact ⟨0, by simp, hseg⟩
  have hd : RandomLines.draws emptyCtx (fun k => k) (NewRGBA emptyImage.Bounds) = none := by
    unfold RandomLines.draws
    have : (NewRGBA emptyImage.Bounds).Rect = emptyImage.Bounds := rfl
    rw [this, hsegs]
    rfl
  refine ⟨by decide, hcv, ?_⟩
  simp only [gen, List.foldl_cons, List.foldl_nil, Option.some_bind, RandomLines, overlayFuzzer,
    hd, Option.map_none']

/-! ## Claims about `parseExpr` -/

theorem splitSpaces_of_no_space (u : List Nat) (hu : (32 : Nat) ∉ u) : splitSpaces u = [u] := by
  induction u with
  | nil => rfl
  | cons c t ih =>
    have hc : c ≠ 32 := fun h => hu (by simp [h])
    have ht : (32 : Nat) ∉ t := fun h => hu (List.mem_cons_of_mem _ h)
    simp [splitSpaces, hc, ih ht]

theorem splitSpaces_append (u rest : List Nat) (hu : (32 : Nat) ∉ u) :
    splitSpaces (u ++ 32 :: rest) = u :: splitSpaces rest := by
  induction u with
  | nil => simp [splitSpaces]
  | cons c t ih =>
    have hc : c ≠ 32 := fun h => hu (by simp [h])
    have ht : (32 : Nat) ∉ t := fun h => hu (List.mem_cons_of_mem _ h)
    simp [splitSpaces, hc, ih ht]

/-- The digits produced for `n` are ASCII digits, there is at least one, and
they denote `n`. -/
theorem digitsRev_spec : ∀ (fuel n : Nat), n < fuel →
    (∀ c ∈ digitsRev fuel n, isDigit c = true) ∧ digitsRev fuel n ≠ [] ∧
      (digitsRev fuel n).foldr (fun c v => v * 10 + (c - 48)) 0 = n := by
  intro fuel
  induction fuel with
  | zero => intro n h; omega
  | succ fuel ih =>
    intro n h
    unfold digitsRev
    by_cases h10 : n < 10
    · rw [if_pos h10]
      refine ⟨?_, by simp, by simp⟩
      intro c hc
      simp only [List.mem_singleton] at hc
      subst hc
      simp [isDigit]
      omega
    · rw [if_neg h10]
      obtain ⟨h1, -, h3⟩ := ih (n / 10) (by omega)
      refine ⟨?_, by simp, ?_⟩
      · intro c hc
        rcases List.mem_cons.1 hc with rfl | hc
        · simp [isDigit]
          omega
        · exact h1 c hc
      · rw [List.foldr_cons, h3]
        omega

/-- The function `Atoi` reads back what `Itoa` prints for a non-negative
`int`. -/
theorem Atoi_Itoa (n : Nat) (hn : n < 9223372036854775808) : Atoi (Itoa n) = some (n : Int) := by
  obtain ⟨h1, h2, h3⟩ := digitsRev_spec (n + 1) n (by omega)
  have hI : Itoa (n : Int) = (digitsRev (n + 1) n).reverse := by
    unfold Itoa
    rw [if_neg (by omega)]
    simp
  have hall : ∀ c ∈ (digitsRev (n + 1) n).reverse, isDigit c = true := by
    intro c hc
    exact h1 c (List.mem_reverse.1 hc)
  have hne : (digitsRev (n + 1) n).reverse ≠ [] := by simpa using h2
  have hval : digitsValue (digitsRev (n + 1) n).reverse = n := by
    unfold digitsValue
    rw [List.foldl_reverse]
    exact h3
  have hhead : ∀ c, (digitsRev (n + 1) n).reverse.head? = some c → 48 ≤ c := by
    intro c hc
    have := hall c (List.mem_of_mem_head? hc)
    simp [isDigit] at this
    exact this.1
  have h45 : ¬ ((digitsRev (n + 1) n).reverse.head? = some 45) := by
    intro h; have := hhead 45 h; omega
  have h43 : ¬ ((digitsRev (n + 1) n).reverse.head? = some 43) := by
    intro h; have := hhead 43 h; omega
  rw [hI]
  unfold Atoi
  simp only [h45, h43, or_self, if_false]
  have hall2 : ((digitsRev (n + 1) n).reverse.all isDigit) = true := by
    rw [List.all_eq_true]
    exact hall
  rw [if_neg (by simp [hne, hall2]), hval, if_pos (by omega)]

theorem Itoa_no_space (n : Nat) : (32 : Nat) ∉ Itoa n := by
  obtain ⟨h1, -, -⟩ := digitsRev_spec (n + 1) n (by omega)
  intro h
  unfold Itoa at h
  rw [if_neg (by omega)] at h
  simp only [Int.natAbs_ofNat, List.mem_reverse] at h
  have := h1 32 h
  simp [isDigit] at this

theorem wrapInt_of_fits (z : Int) (h0 : 0 ≤ z) (h1 : z < 9223372036854775808) :
    wrapInt z = z := by
  unfold wrapInt
  omega

/-- What `parseExpr` sees after `strings.Split` and the two `Atoi` calls on an
expression string. -/
theorem parseExpr_exprString (a b : Nat) (op : List Nat) (ha : a < 9223372036854775808)
    (hb : b < 9223372036854775808) (hop : (32 : Nat) ∉ op) :
    parseExpr (exprString a op b) =
      (if op = [43] then some (Itoa (wrapInt ((a : Int) + b)), false)
        else if op = [45] then
          if (a : Int) > b then some (Itoa (wrapInt ((a : Int) - b)), false)
          else some (Itoa (wrapInt ((b : Int) - a)), false)
        else if op = [195, 151] then some (Itoa (wrapInt ((a : Int) * b)), false)
        else if op = [195, 183] then
          if (a : Int) > b then
            if (b : Int) = 0 then none else some (Itoa (wrapInt ((a : Int).tdiv b)), false)
          else
            if (a : Int) = 0 then none else some (Itoa (wrapInt ((b : Int).tdiv a)), false)
        else some ([48], true)) := by
  have hs : splitSpaces (exprString a op b) = [Itoa a, op, Itoa b] := by
    unfold exprString
    rw [splitSpaces_append _ _ (Itoa_no_space a), splitSpaces_append _ _ hop,
      splitSpaces_of_no_space _ (Itoa_no_space b)]
  unfold parseExpr
  simp only [hs, List.getElem?_cons_zero, List.getElem?_cons_succ, Atoi_Itoa a ha, Atoi_Itoa b hb]

/-- C16: for non-negative `a`, `b` that fit in an `int`, `parseExpr` on
"a op b" returns a nil error and the decimal string of `a + b` for "+" and of
`a · b` for "×" when these fit in an `int`, of the quotient of the larger by
the smaller operand for "÷" with positive operands, and of `|a - b|` for "-";
"99 ÷ 2" gives "49" and "100 × 100" gives "10000". -/
theorem parseExpr_arithmetic (a b : Nat) (ha : a < 9223372036854775808)
    (hb : b < 9223372036854775808) :
    (a + b < 9223372036854775808 →
      parseExpr (exprString a [43] b) = some (Itoa ((a + b : Nat) : Int), false)) ∧
    (a * b < 9223372036854775808 →
      parseExpr (exprString a [195, 151] b) = some (Itoa ((a * b : Nat) : Int), false)) ∧
    (0 < a → 0 < b →
      parseExpr (exprString a [195, 183] b) =
        some (Itoa ((max a b / min a b : Nat) : Int), false)) ∧
    parseExpr (exprString a [45] b) = some (Itoa ((max a b - min a b : Nat) : Int), false) ∧
    parseExpr (ascii "99 " ++ [195, 183] ++ ascii " 2") = some (ascii "49", false) ∧
    parseExpr (ascii "100 " ++ [195, 151] ++ ascii " 100") = some (ascii "10000", false) := by
  refine ⟨?_, ?_, ?_, ?_, by decide, by decide⟩
  · intro h
    rw [parseExpr_exprString a b [43] ha hb (by decide), if_pos rfl,
      wrapInt_of_fits _ (by omega) (by omega)]
    norm_cast
  · intro h
    rw [parseExpr_exprString a b [195, 151] ha hb (by decide), if_neg (by decide),
      if_neg (by decide), if_pos rfl]
    have hc : ((a : Int) * b) = ((a * b : Nat) : Int) := by push_cast; rfl
    rw [hc, wrapInt_of_fits _ (by omega) (by omega)]
  · intro h0a h0b
    rw [parseExpr_exprString a b [195, 183] ha hb (by decide), if_neg (by decide),
      if_neg (by decide), if_neg (by decide), if_pos rfl]
    by_cases hab : (a : Int) > b
    · have hmax : max a b = a := max_eq_left (by omega)
      have hmin : min a b = b := min_eq_right (by omega)
      have hd : (a : Int).tdiv b = ((a / b : Nat) : Int) := by
        rw [Int.tdiv_eq_ediv (by omega) (by omega)]
        norm_cast
      have hle : a / b < 9223372036854775808 := lt_of_le_of_lt (Nat.div_le_self a b) ha
      rw [if_pos hab, if_neg (by omega), hmax, hmin, hd,
        wrapInt_of_fits _ (Int.natCast_nonneg _) (by exact_mod_cast hle)]
    · have hmax : max a b = b := max_eq_right (by omega)
      have hmin : min a b = a := min_eq_left (by omega)
      have hd : (b : Int).tdiv a = ((b / a : Nat) : Int) := by
        rw [Int.tdiv_eq_ediv (by omega) (by omega)]
        norm_cast
      have hle : b / a < 9223372036854775808 := lt_of_le_of_lt (Nat.div_le_self b a) hb
      rw [if_neg hab, if_neg (by omega), hmax, hmin, hd,
        wrapInt_of_fits _ (Int.natCast_nonneg _) (by exact_mod_cast hle)]
  · rw [parseExpr_exprString a b [45] ha hb (by decide), if_neg (by decide), if_pos rfl]
    by_cases hab : (a : Int) > b
    · have hc : (a : Int) - b = ((max a b - min a b : Nat) : Int) := by omega
      rw [if_pos hab, hc, wrapInt_of_fits _ (by omega) (by omega)]
    · have hc : (b : Int) - a = ((max a b - min a b : Nat) : Int) := by omega
      rw [if_neg hab, hc, wrapInt_of_fits _ (by omega) (by omega)]

/-- Witness of C16 on the operands 16 and 3. -/
theorem parseExpr_arithmetic_witness :
    (16 : Nat) < 9223372036854775808 ∧ (3 : Nat) < 9223372036854775808 ∧
    ((16 + 3 < 9223372036854775808 →
      parseExpr (exprString 16 [43] 3) = some (Itoa ((16 + 3 : Nat) : Int), false)) ∧
    (16 * 3 < 9223372036854775808 →
      parseExpr (exprString 16 [195, 151] 3) = some (Itoa ((16 * 3 : Nat) : Int), false)) ∧
    (0 < 16 → 0 < 3 →
      parseExpr (exprString 16 [195, 183] 3) =
        some (Itoa ((max 16 3 / min 16 3 : Nat) : Int), false)) ∧
    parseExpr (exprString 16 [45] 3) = some (Itoa ((max 16 3 - min 16 3 : Nat) : Int), false) ∧
    parseExpr (ascii "99 " ++ [195, 183] ++ ascii " 2") = some (ascii "49", false) ∧
    parseExpr (ascii "100 " ++ [195, 151] ++ ascii " 100") = some (ascii "10000", false)) :=
  ⟨by decide, by decide, parseExpr_arithmetic 16 3 (by decide) (by decide)⟩

/-! ## Claims about filled disks -/

theorem octantWrites_translate (x0 y0 : Int) (p : Int × Int) (a b : Int)
    (h : (a, b) ∈ octantWrites 0 0 p) : (x0 + a, y0 + b) ∈ octantWrites x0 y0 p := by
  rw [mem_octantWrites] at h ⊢
  simp only at h ⊢
  rcases h with h | h | h | h | h | h | h | h <;> obtain ⟨h1, h2⟩ := h
  · exact Or.inl ⟨by omega, by omega⟩
  · exact Or.inr (Or.inl ⟨by omega, by omega⟩)
  · exact Or.inr (Or.inr (Or.inl ⟨by omega, by omega⟩))
  · exact Or.inr (Or.inr (Or.inr (Or.inl ⟨by omega, by omega⟩)))
  · exact Or.inr (Or.inr (Or.inr (Or.inr (Or.inl ⟨by omega, by omega⟩))))
  · exact Or.inr (Or.inr (Or.inr (Or.inr (Or.inr (Or.inl ⟨by omega, by omega⟩)))))
  · exact Or.inr (Or.inr (Or.inr (Or.inr (Or.inr (Or.inr (Or.inl ⟨by omega, by omega⟩))))))
  · exact Or.inr (Or.inr (Or.inr (Or.inr (Or.inr (Or.inr (Or.inr ⟨by omega, by omega⟩))))))

/-- The writes of one ring around `(x0, y0)` are those around the origin,
shifted. -/
theorem drawCircleWrites_translate (x0 y0 r a b : Int)
    (h : (a, b) ∈ drawCircleWrites 0 0 r) : (x0 + a, y0 + b) ∈ drawCircleWrites x0 y0 r := by
  unfold drawCircleWrites drawCircle at h ⊢
  cases hp : drawCirclePoints (r.toNat + 1) r with
  | none => simp [hp] at h
  | some ps =>
    simp only [hp, Option.map_some', Option.getD_some, List.mem_flatMap] at h ⊢
    obtain ⟨p, hp1, hp2⟩ := h
    exact ⟨p, hp1, octantWrites_translate x0 y0 p a b hp2⟩

theorem diskWrites_translate (x0 y0 r a b : Int)
    (h : (a, b) ∈ diskWrites 0 0 r) : (x0 + a, y0 + b) ∈ diskWrites x0 y0 r := by
  unfold diskWrites at h ⊢
  rw [List.mem_flatMap] at h ⊢
  obtain ⟨k, hk, hw⟩ := h
  exact ⟨k, hk, drawCircleWrites_translate x0 y0 _ a b hw⟩

/-- Around the origin the rings of the radii `r, ..., 1` cover the disk of
radius `r - 1` for every `r` from 1 to 5. -/
theorem diskWrites_cover_small (r a b : Int) (h1 : 1 ≤ r) (h5 : r ≤ 5)
    (h : a * a + b * b ≤ (r - 1) * (r - 1)) : (a, b) ∈ diskWrites 0 0 r := by
  have ha1 : -4 ≤ a := by nlinarith
  have ha2 : a ≤ 4 := by nlinarith
  have hb1 : -4 ≤ b := by nlinarith
  have hb2 : b ≤ 4 := by nlinarith
  interval_cases r <;> interval_cases a <;> interval_cases b <;>
    first
    | decide
    | (exfalso; revert h; decide)

/-- C20, as stated, fails: after the rings of the radii 6, 5, ..., 1 around
(10, 10) the pixel (13, 13), whose offset (3, 3) satisfies 3² + 3² ≤ 5², has
not been written. -/
theorem disk_has_hole :
    (3 : Int) ^ 2 + (3 : Int) ^ 2 ≤ (6 - 1) ^ 2 ∧
      ((10 : Int) + 3, (10 : Int) + 3) ∉ diskWrites 10 10 6 := by
  decide

/-- In the ring of radius `a + 1` the loop stays in the column `x = a` as long
as `y² ≤ 2a + 1`: started at `(a, j)` it reaches `(a, k)` for every `k ≥ j`
with `k ≤ a` and `k² ≤ 2a + 1`. -/
theorem drawCircleLoop_column (a k : Int) (hka : k ≤ a) (hk : k * k ≤ 2 * a + 1) :
    ∀ (fuel : Nat) (x j dx dy err : Int) (ps : List (Int × Int)),
      x = a → 0 ≤ j → j ≤ k → dx = 1 → dy = 2 * j + 1 → err = j * j - 2 * a - 1 →
      drawCircleLoop (a + 1) fuel x j dx dy err = some ps → (a, k) ∈ ps := by
  intro fuel
  induction fuel with
  | zero => intro x j dx dy err ps _ _ _ _ _ _ h; simp [drawCircleLoop] at h
  | succ fuel ih =>
    intro x j dx dy err ps hx hj0 hjk hdx hdy herr h
    subst hx
    unfold drawCircleLoop at h
    have hxy : x ≥ j := by omega
    have herr0 : err ≤ 0 := by nlinarith
    rw [if_pos hxy] at h
    simp only [herr0, if_true] at h
    by_cases hjk2 : j = k
    · subst hjk2
      rw [Option.map_eq_some'] at h
      obtain ⟨ps', -, rfl⟩ := h
      exact List.mem_cons_self _ _
    · have hlt : j + 1 ≤ k := by omega
      have herr1 : ¬ (err + dy > 0) := by
        rw [herr, hdy]
        nlinarith
      simp only [herr1, if_false] at h
      rw [Option.map_eq_some'] at h
      obtain ⟨ps', hps', rfl⟩ := h
      have := ih x (j + 1) dx (dy + 2) (err + dy) ps' rfl (by omega) hlt hdx (by omega)
        (by rw [herr, hdy]; ring) hps'
      exact List.mem_cons_of_mem _ this

/-- The ring of radius `M + 1` contains the eight pixels with offsets
`(±M, ±m)` and `(±m, ±M)` whenever `0 ≤ m ≤ M` and `m² ≤ 2M + 1`. -/
theorem drawCircleWrites_column (x0 y0 M m : Int) (h0 : 0 ≤ m) (hM : m ≤ M)
    (hm : m * m ≤ 2 * M + 1) :
    ∀ w ∈ octantWrites x0 y0 (M, m), w ∈ drawCircleWrites x0 y0 (M + 1) := by
  obtain ⟨ps, hps, -⟩ := drawCirclePoints_spec (M + 1) ((M + 1).toNat + 1) (le_refl _)
  have hmem : (M, m) ∈ ps := by
    unfold drawCirclePoints at hps
    exact drawCircleLoop_column M m hM hm _ (M + 1 - 1) 0 1 1 (1 - (M + 1) * 2) ps
      (by ring) (le_refl _) h0 rfl (by ring) (by ring) hps
  intro w hw
  unfold drawCircleWrites drawCircle
  simp only [hps, Option.map_some', Option.getD_some, List.mem_flatMap]
  exact ⟨(M, m), hmem, hw⟩

theorem drawCircleWrites_subset_diskWrites (x0 y0 r rr : Int) (h1 : 1 ≤ rr) (h2 : rr ≤ r) :
    ∀ w ∈ drawCircleWrites x0 y0 rr, w ∈ diskWrites x0 y0 r := by
  intro w hw
  unfold diskWrites
  rw [List.mem_flatMap]
  refine ⟨(r - rr).toNat, by rw [List.mem_range]; omega, ?_⟩
  have : r - ((r - rr).toNat : Int) = rr := by omega
  rw [this]
  exact hw

/-- C20, amended: after `drawCircle` has been called for the radii
`r, r-1, ..., 1`, every pixel with `a² + b² ≤ (r-1)²` has been written when
`r ≤ 5`; and for every `r ≥ 1` the eight pixels with offsets `(±M, ±m)`,
`(±m, ±M)` have been written whenever `0 ≤ m ≤ M ≤ r - 1` and `m² ≤ 2M + 1`
(in particular every pixel on the two axes through the centre). -/
theorem disk_rings_cover (x0 y0 r : Int) (hr : 1 ≤ r) :
    (r ≤ 5 → ∀ a b : Int, a ^ 2 + b ^ 2 ≤ (r - 1) ^ 2 → (x0 + a, y0 + b) ∈ diskWrites x0 y0 r) ∧
    (∀ M m : Int, 0 ≤ m → m ≤ M → M ≤ r - 1 → m ^ 2 ≤ 2 * M + 1 →
      ∀ w ∈ octantWrites x0 y0 (M, m), w ∈ diskWrites x0 y0 r) := by
  constructor
  · intro h5 a b h
    apply diskWrites_translate
    exact diskWrites_cover_small r a b hr h5 (by rw [pow_two, pow_two, pow_two] at h; exact h)
  · intro M m h0 hM hMr hm w hw
    apply drawCircleWrites_subset_diskWrites x0 y0 r (M + 1) (by omega) (by omega)
    exact drawCircleWrites_column x0 y0 M m h0 hM (by rw [pow_two] at hm; exact hm) w hw

/-- Witness of C20 (amended) for the rings 4, 3, 2, 1 around (10, 10). -/
theorem disk_rings_cover_witness :
    (1 : Int) ≤ 4 ∧
    (((4 : Int) ≤ 5 → ∀ a b : Int, a ^ 2 + b ^ 2 ≤ ((4 : Int) - 1) ^ 2 →
      (10 + a, 10 + b) ∈ diskWrites 10 10 4) ∧
    (∀ M m : Int, 0 ≤ m → m ≤ M → M ≤ (4 : Int) - 1 → m ^ 2 ≤ 2 * M + 1 →
      ∀ w ∈ octantWrites 10 10 (M, m), w ∈ diskWrites 10 10 4)) :=
  ⟨by decide, disk_rings_cover 10 10 4 (by decide)⟩

/-! ## Claims about `ConcentricCircles`, `Bands` and `AccurateBands` -/

/-- The ring stack loop from `(j, swtch)` with `thickness ≥ 1`: it finishes, every
radius it draws is at most `j`, and the last call with radius `p` (`0 < p ≤ j`)
has the colour selected by `swtch` when `(j - p) / thickness` is even and the
other colour when it is odd. -/
theorem ringStack_last (t : Int) (col1 col2 : RGBA) (ht : 1 ≤ t) :
    ∀ (fuel : Nat) (j : Int) (s : Bool), j + 2 ≤ (fuel : Int) → 1 ≤ fuel →
      ∃ calls, ringStack t col1 col2 fuel j s = some calls ∧
        (∀ c ∈ calls, c.1 ≤ j) ∧
        ∀ p : Int, 0 < p → p ≤ j →
          (calls.filter (fun c => decide (c.1 = p))).getLast? =
            some (p, if (((j - p) / t) % 2 = 0) = (s = true) then col1 else col2) := by
  intro fuel
  induction fuel with
  | zero => intro j s _ h; omega
  | succ n ih =>
    intro j s hf _
    unfold ringStack
    by_cases hj : j ≥ 0
    · rw [if_pos hj]
      obtain ⟨rest, hrest, hle, hlast⟩ := ih (j - t) (!s) (by push_cast at hf; omega) (by omega)
      rw [hrest]
      refine ⟨_, rfl, ?_, ?_⟩
      · intro c hc
        rw [List.mem_append] at hc
        rcases hc with hc | hc
        · rw [List.mem_map] at hc
          obtain ⟨k, _, rfl⟩ := hc
          show j - (k : Int) ≤ j
          omega
        · have := hle c hc
          omega
      · intro p hp hpj
        rw [List.filter_append]
        by_cases hlow : p ≤ j - t
        · have h1 := hlast p hp hlow
          have hne : rest.filter (fun c => decide (c.1 = p)) ≠ [] := by
            intro h0
            rw [h0] at h1
            simp at h1
          rw [List.getLast?_append_of_ne_nil _ hne, h1]
          have hdiv : (j - p) / t = (j - t - p) / t + 1 := by
            have : j - p = (j - t - p) + t := by ring
            rw [this, Int.add_ediv_of_dvd_right (dvd_refl t), Int.ediv_self (by omega)]
          rw [hdiv]
          have hpar : ((((j - t - p) / t + 1) % 2 = 0) = (s = true)) ↔
              ((((j - t - p) / t) % 2 = 0) = ((!s) = true)) := by
            cases s <;> simp <;> omega
          by_cases hc : (((j - t - p) / t) % 2 = 0) = ((!s) = true)
          · rw [if_pos hc, if_pos (hpar.mpr hc)]
          · rw [if_neg hc, if_neg (fun h => hc (hpar.mp h))]
        · have hnone : rest.filter (fun c => decide (c.1 = p)) = [] := by
            rw [List.filter_eq_nil_iff]
            intro c hc
            have := hle c hc
            simp
            omega
          rw [hnone, List.append_nil]
          have hdiv : (j - p) / t = 0 := Int.ediv_eq_zero_of_lt (by omega) (by omega)
          rw [hdiv]
          have hk : (j - p).toNat < (t + 1).toNat := by omega
          have hsplit : List.range (t + 1).toNat =
              List.range (j - p).toNat ++ (j - p).toNat ::
                (List.range ((t + 1).toNat - (j - p).toNat - 1)).map
                  (fun (i : Nat) => (j - p).toNat + 1 + i) := by
            apply List.ext_getElem
            · simp; omega
            · intro i h1 h2
              simp only [List.getElem_range]
              rcases Nat.lt_trichotomy i (j - p).toNat with hlt | heq | hgt
              · rw [List.getElem_append_left (by simpa using hlt)]
                simp
              · subst heq
                rw [List.getElem_append_right (by simp)]
                simp
              · rw [List.getElem_append_right (by simp; omega)]
                simp only [List.length_range]
                obtain ⟨d, hd⟩ : ∃ d, i - (j - p).toNat = d + 1 := ⟨i - (j - p).toNat - 1, by omega⟩
                simp only [hd, List.getElem_cons_succ, List.getElem_map, List.getElem_range]
                omega
          rw [hsplit]
          simp only [List.map_append, List.map_cons, List.filter_append, List.filter_cons,
            List.map_map]
          have hhit : j - ((j - p).toNat : Int) = p := by omega
          rw [hhit]
          simp only [decide_True, if_true]
          have hpre : (List.map (fun (k : Nat) => (j - (k : Int), if s = true then col1 else col2))
              (List.range (j - p).toNat)).filter (fun c => decide (c.1 = p)) = [] := by
            rw [List.filter_eq_nil_iff]
            intro c hc
            rw [List.mem_map] at hc
            obtain ⟨k, hk, rfl⟩ := hc
            rw [List.mem_range] at hk
            simp
            omega
          rw [hpre]
          have hpost : (List.map ((fun (k : Nat) => (j - (k : Int), if s = true then col1 else col2)) ∘
                fun (i : Nat) => (j - p).toNat + 1 + i)
              (List.range ((t + 1).toNat - (j - p).toNat - 1))).filter
                (fun c => decide (c.1 = p)) = [] := by
            rw [List.filter_eq_nil_iff]
            intro c hc
            rw [List.mem_map] at hc
            obtain ⟨k, hk, rfl⟩ := hc
            simp
            omega
          rw [hpost]
          simp
    · rw [if_neg hj]
      refine ⟨[], rfl, ?_, ?_⟩
      · intro c hc; simp at hc
      · intro p hp hpj; omega

/-- C21: a ring stack of `ConcentricCircles` with outer radius `r ≥ 0` and
thickness `t ≥ 1` finishes, and the last `drawCircle` call with radius `p`
(`0 < p ≤ r`) uses colour 1 when `floor((r - p) / t)` is even and colour 2 when
it is odd. -/
theorem ringStack_colour_alternates (t r : Int) (col1 col2 : RGBA) (fuel : Nat)
    (ht : 1 ≤ t) (hr : 0 ≤ r) (hf : r + 2 ≤ (fuel : Int)) :
    ∃ calls, ringStack t col1 col2 fuel r true = some calls ∧
      ∀ p : Int, 0 < p → p ≤ r →
        (calls.filter (fun c => decide (c.1 = p))).getLast? =
          some (p, if ((r - p) / t) % 2 = 0 then col1 else col2) := by
  obtain ⟨calls, hc, _, hlast⟩ := ringStack_last t col1 col2 ht fuel r true hf (by omega)
  refine ⟨calls, hc, ?_⟩
  intro p hp hpr
  rw [hlast p hp hpr]
  simp

/-- Witness of C21 on the ring stack of radius 5 and thickness 2. -/
theorem ringStack_colour_alternates_witness :
    (1 : Int) ≤ 2 ∧ (0 : Int) ≤ 5 ∧ (5 : Int) + 2 ≤ ((7 : Nat) : Int) ∧
      ∃ calls, ringStack 2 (bandCol1 emptyCtx) (bandCol2 emptyCtx) 7 5 true = some calls ∧
        ∀ p : Int, 0 < p → p ≤ 5 →
          (calls.filter (fun c => decide (c.1 = p))).getLast? =
            some (p, if ((5 - p) / 2) % 2 = 0 then bandCol1 emptyCtx else bandCol2 emptyCtx) :=
  ⟨by decide, by decide, by decide,
    ringStack_colour_alternates 2 5 (bandCol1 emptyCtx) (bandCol2 emptyCtx) 7
      (by decide) (by decide) (by decide)⟩

theorem collect_mem {α : Type} : ∀ (os : List (Option α)) (l : List α),
    collect os = some l → ∀ d ∈ l, some d ∈ os := by
  intro os
  induction os with
  | nil => intro l h d hd; simp [collect] at h; subst h; simp at hd
  | cons o t ih =>
    intro l h d hd
    cases o with
    | none => simp [collect] at h
    | some a =>
      simp only [collect, Option.some_bind, Option.map_eq_some'] at h
      obtain ⟨l', hl', rfl⟩ := h
      rcases List.mem_cons.mp hd with rfl | hd'
      · exact List.mem_cons_self _ _
      · exact List.mem_cons_of_mem _ (ih l' hl' d hd')

theorem foldl_bind_none {σ ι : Type} (f : σ → ι → Option σ) (l : List ι) :
    l.foldl (fun (acc : Option σ) i => acc.bind (fun s => f s i)) none = none := by
  induction l with
  | nil => rfl
  | cons a t ih => rw [List.foldl_cons, Option.none_bind, ih]

theorem bandsLoop_zero_thickness (slope : Float64) (col1 col2 : RGBA) (maxX maxY : Int) (fuel : Nat)
    (x y i : Int) (col : RGBA) :
    bandsLoop slope 0 col1 col2 maxX maxY fuel x y i col = none := by
  cases fuel with
  | zero => rfl
  | succ n => simp [bandsLoop]

theorem accurateBandsLoop_zero_thickness (slope : Float64) (maxX : Int) (col1 col2 : RGBA)
    (hx : 0 < maxX) :
    ∀ (fuel : Nat) (intercept : Int) (s : Bool),
      accurateBandsLoop slope 0 maxX col1 col2 fuel 0 intercept s = none := by
  intro fuel
  induction fuel with
  | zero => intro _ _; rfl
  | succ n ih =>
    intro intercept s
    unfold accurateBandsLoop
    rw [if_pos (by omega)]
    simp only [add_zero, sub_zero, ite_self]
    rw [ih]
    rfl

theorem ringStack_zero_thickness (col1 col2 : RGBA) :
    ∀ (fuel : Nat) (j : Int) (s : Bool), 0 ≤ j → ringStack 0 col1 col2 fuel j s = none := by
  intro fuel
  induction fuel with
  | zero => intro _ _ _; rfl
  | succ n ih =>
    intro j s hj
    unfold ringStack
    rw [if_pos hj, sub_zero, ih j (!s) hj]
    rfl

theorem ConcentricCircles_count_default (ctx : FuzzCtx) (h : ctx.noise = none) :
    ConcentricCircles.count (ConcentricCircles.noise ctx) = 10 := by
  simp only [ConcentricCircles.count, ConcentricCircles.noise, h, Float64.mul, Float64.round,
    Float64.toInt, toInt64, goRound, goTrunc]
  norm_num
  rfl

theorem ConcentricCircles_disk_radius (rnd : Nat → Nat) (r : Rectangle) (i : Nat)
    (d : Int × Int × Int) (h : ConcentricCircles.disk rnd r i = some d) : 0 ≤ d.1 := by
  unfold ConcentricCircles.disk Intn at h
  by_cases hy : r.Max.Y ≤ 0
  · simp [hy] at h
  · by_cases hx : r.Max.X ≤ 0
    · simp [hy, hx] at h
    · simp only [hy, hx, if_false, Option.some_bind] at h
      injection h with h
      subst h
      exact Int.emod_nonneg _ (by omega)

theorem ConcentricCircles_zero_thickness (ctx : FuzzCtx) (fuel : Nat) (rnd : Nat → Nat)
    (img : Image) (hn : ctx.noise = none) (ht : ctx.thickness = some 0) :
    ConcentricCircles ctx fuel rnd img = none := by
  have hd : ConcentricCircles.draws ctx fuel rnd (NewRGBA img.Bounds) = none := by
    unfold ConcentricCircles.draws
    rw [ConcentricCircles_count_default ctx hn]
    cases hc : collect ((List.range 10).map
        (ConcentricCircles.disk rnd (NewRGBA img.Bounds).Rect)) with
    | none => rfl
    | some disks =>
      have hlen := collect_length _ _ hc
      simp only [List.length_map, List.length_range] at hlen
      cases disks with
      | nil => simp at hlen
      | cons d rest =>
        have hmem := collect_mem _ _ hc d (List.mem_cons_self _ _)
        rw [List.mem_map] at hmem
        obtain ⟨i, _, hi⟩ := hmem
        have hr := ConcentricCircles_disk_radius _ _ _ _ hi
        have hth : bandThickness ctx = 0 := by simp [bandThickness, ht]
        rw [Option.some_bind, List.foldl_cons, Option.some_bind, hth,
          ringStack_zero_thickness _ _ fuel d.1 true hr, Option.map_none']
        exact foldl_bind_none _ rest
  simp only [ConcentricCircles, overlayFuzzer, hd, Option.map_none']

theorem lineEqX_slope_zero (y b : Int) :
    lineEqX (.fin 0) y b = -9223372036854775808 := by
  simp only [lineEqX, Float64.div, Float64.sub, Float64.add, Float64.neg, Float64.ofInt]
  split_ifs <;> rfl

theorem lineEqB_slope_zero (x y : Int) : lineEqB (.fin 0) x y = wrapInt y := by
  simp only [lineEqB, Float64.mul, Float64.ofInt, zero_mul, Float64.round, Float64.toInt]
  have h : goRound 0 = 0 := by simpa using goRound_intCast 0
  rw [h]
  have h2 : goTrunc ((0 : Int) : ℚ) = 0 := goTrunc_intCast 0
  rw [h2]
  simp [toInt64]

theorem lineEqY_slope_zero (x b : Int) (hb : |b| ≤ 9007199254740992) :
    lineEqY (.fin 0) x b = b := by
  have hb2 := abs_le.mp hb
  have hf : float64OfInt b = b := by
    unfold float64OfInt
    simp only
    rw [if_pos (by omega)]
  simp only [lineEqY, Float64.mul, Float64.ofInt, zero_mul, Float64.add, zero_add,
    Float64.round, Float64.toInt, hf, goRound_intCast, goTrunc_intCast]
  unfold toInt64
  rw [if_pos (by omega)]

/-- The first two iterations of the loop of `Bands` at slope 0 and thickness 10
on a 48×50 canvas: both `drawLine` calls get the end point `x1 = -2^63`. -/
theorem bandsLoop_slope_zero (n : Nat) :
    bandsLoop (.fin 0) 10 (bandCol1 emptyCtx) (bandCol2 emptyCtx) 48 50 (n + 2)
        (-10) 0 0 { R := 0, G := 0, B := 0, A := 0 } =
      (bandsLoop (.fin 0) 10 (bandCol1 emptyCtx) (bandCol2 emptyCtx) 48 50 n (-10) 2 2
        (bandCol1 emptyCtx)).map (fun rest =>
          (-10, 0, -9223372036854775808, 0, bandCol1 emptyCtx) ::
            (-10, 1, -9223372036854775808, -1, bandCol1 emptyCtx) :: rest) := by
  have w0 : wrapInt 0 = 0 := by decide
  have w1 : wrapInt 1 = 1 := by decide
  have wm1 : wrapInt (-1) = -1 := by decide
  have wmin : wrapInt 9223372036854775808 = -9223372036854775808 := by decide
  have wt : wrapInt (-10 + 10) = 0 := by decide
  have hy0 : lineEqY (.fin 0) 0 0 = 0 := lineEqY_slope_zero 0 0 (by decide)
  have hy1 : lineEqY (.fin 0) 0 1 = 1 := lineEqY_slope_zero 0 1 (by decide)
  have hc : ({ R := 0, G := 0, B := 0, A := 0 } : RGBA) ≠ bandCol1 emptyCtx := by decide
  have ht : Int.tmod 1 10 = 1 := by decide
  simp [bandsLoop, lineEqB_slope_zero, lineEqX_slope_zero, w0, w1, wm1, wmin, wt, hy0, hy1, hc,
    ht, Option.map_map, Function.comp_def]

/-- C22: with thickness 10 and slope 0 the slope used by `Bands` is 0.  In the
second iteration of its loop (`x = -10`, `y = 1`) the line equations give
`b = 1`, `y1 = -1` and `x1 = -lineEqX(slope, 1, -1)`, the conversion to `int` of
`2 / 0`, which comes out as `-2^63`; the call `drawLine(bands, -10, 1, -2^63,
-1, col)` never reaches its `break`, so the fuzzer does not complete on the
48×50 canvas, whatever the number of loop iterations allowed. -/
theorem Bands_slope_zero_never_completes (fuel : Nat) :
    Bands.slope { emptyCtx with thickness := some 10, slope := some (.fin 0) } = .fin 0 ∧
      lineEqB (.fin 0) (-10) 1 = 1 ∧
      wrapInt (-lineEqY (.fin 0) (wrapInt (-10 + 10)) 1) = -1 ∧
      wrapInt (-lineEqX (.fin 0) (wrapInt (- -1)) (wrapInt (-1))) = -9223372036854775808 ∧
      (∀ n, drawLine n (-10) 1 (-9223372036854775808) (-1) = none) ∧
      Bands { emptyCtx with thickness := some 10, slope := some (.fin 0) } fuel
        (NewRGBA (Rect 0 0 48 50)) = none := by
  have hs : Bands.slope { emptyCtx with thickness := some 10, slope := some (.fin 0) }
      = .fin 0 := by
    simp only [Bands.slope, normalizeSlope, Float64.neg, Float64.lt]
    norm_num
  have hstall := (drawLine_stalls 1 (by decide) (by decide)).1
  refine ⟨hs, ?_, ?_, ?_, hstall, ?_⟩
  · rw [lineEqB_slope_zero]; decide
  · rw [lineEqY_slope_zero _ 1 (by decide)]; decide
  · rw [lineEqX_slope_zero]; decide
  have hd : Bands.draws { emptyCtx with thickness := some 10, slope := some (.fin 0) } fuel
      (NewRGBA (NewRGBA (Rect 0 0 48 50)).Bounds) = none := by
    unfold Bands.draws
    rw [hs]
    have hth : bandThickness { emptyCtx with thickness := some 10, slope := some (.fin 0) }
        = 10 := rfl
    have hc1 : bandCol1 { emptyCtx with thickness := some 10, slope := some (.fin 0) }
        = bandCol1 emptyCtx := rfl
    have hc2 : bandCol2 { emptyCtx with thickness := some 10, slope := some (.fin 0) }
        = bandCol2 emptyCtx := rfl
    have hx : (NewRGBA (NewRGBA (Rect 0 0 48 50)).Bounds).Rect.Max.X = 48 := by decide
    have hy : (NewRGBA (NewRGBA (Rect 0 0 48 50)).Bounds).Rect.Max.Y = 50 := by decide
    have hw : wrapInt (-10) = -10 := by decide
    rw [hth, hc1, hc2, hx, hy, hw]
    match fuel with
    | 0 => rfl
    | 1 => simp [bandsLoop]
    | n + 2 =>
      rw [bandsLoop_slope_zero n]
      cases bandsLoop (.fin 0) 10 (bandCol1 emptyCtx) (bandCol2 emptyCtx) 48 50 n (-10) 2 2
          (bandCol1 emptyCtx) with
      | none => rfl
      | some rest =>
        simp only [Option.map_some', Option.some_bind, List.foldl_cons]
        rw [hstall (n + 2)]
        simp only [Option.map_none', Option.bind_none, Option.none_bind, Option.bind_eq_none]
        have := foldl_bind_none (fun (cv : Image) (s : Int × Int × Int × Int × RGBA) =>
          (drawLine (n + 2) s.1 s.2.1 s.2.2.1 s.2.2.2.1).map (fun ws => paint cv ws s.2.2.2.2))
          rest
        exact this
  simp only [Bands, overlayFuzzer, hd, Option.map_none']

/-- C23: with band thickness 0 none of the three fuzzers completes on a canvas
of positive width and height, whatever the number of loop iterations allowed:
`Bands` fails at `i%thickness`, the outer loop of `AccurateBands` and the ring
stack loop of `ConcentricCircles` never advance their counter. -/
theorem zero_thickness_never_completes (fuel w h : Nat) (rnd : Nat → Nat) :
    Bands { emptyCtx with thickness := some 0 } fuel
        (NewRGBA (Rect 0 0 ((w : Int) + 1) ((h : Int) + 1))) = none ∧
      AccurateBands { emptyCtx with thickness := some 0 } fuel
        (NewRGBA (Rect 0 0 ((w : Int) + 1) ((h : Int) + 1))) = none ∧
      ConcentricCircles { emptyCtx with thickness := some 0 } fuel rnd
        (NewRGBA (Rect 0 0 ((w : Int) + 1) ((h : Int) + 1))) = none := by
  refine ⟨?_, ?_, ConcentricCircles_zero_thickness _ fuel rnd _ rfl rfl⟩
  · have hd : Bands.draws { emptyCtx with thickness := some 0 } fuel
        (NewRGBA (NewRGBA (Rect 0 0 ((w : Int) + 1) ((h : Int) + 1))).Bounds) = none := by
      unfold Bands.draws
      have hth : bandThickness { emptyCtx with thickness := some 0 } = 0 := rfl
      rw [hth, bandsLoop_zero_thickness]
      rfl
    simp only [Bands, overlayFuzzer, hd, Option.map_none']
  · have hd : AccurateBands.draws { emptyCtx with thickness := some 0 } fuel
        (NewRGBA (NewRGBA (Rect 0 0 ((w : Int) + 1) ((h : Int) + 1))).Bounds) = none := by
      unfold AccurateBands.draws
      have hth : bandThickness { emptyCtx with thickness := some 0 } = 0 := rfl
      have hx : (0 : Int) <
          (NewRGBA (NewRGBA (Rect 0 0 ((w : Int) + 1) ((h : Int) + 1))).Bounds).Rect.Max.X := by
        show (0 : Int) < max 0 ((w : Int) + 1)
        omega
      rw [hth, neg_zero, accurateBandsLoop_zero_thickness _ _ _ _ hx]
      rfl
    simp only [AccurateBands, overlayFuzzer, hd, Option.map_none']

/-- C24: on the canvas of width 0 that the layout produces for the empty text,
`RandomLines`, `RandomCircles` and `ConcentricCircles` with their default noise
(50, 5 and 10 shapes) call `rand.Intn(0)`, which panics, whatever the random
source: none of the three completes. -/
theorem random_fuzzers_fail_on_empty_canvas (rnd : Nat → Nat) (k0 fuel : Nat) :
    RandomLines emptyCtx rnd emptyImage = none ∧
      RandomCircles emptyCtx k0 rnd emptyImage = none ∧
      ConcentricCircles emptyCtx fuel rnd emptyImage = none := by
  have hb : (NewRGBA emptyImage.Bounds).Rect = emptyImage.Bounds := rfl
  have hmaxX : emptyImage.Bounds.Max.X = 0 := by decide
  refine ⟨?_, ?_, ?_⟩
  · have hc : RandomLines.count (RandomLines.noise emptyCtx) = 50 := RandomLines_count_half
    have hseg : RandomLines.segment rnd emptyImage.Bounds 0 = none := by
      simp [RandomLines.segment, Intn, hmaxX]
    have hd : RandomLines.draws emptyCtx rnd (NewRGBA emptyImage.Bounds) = none := by
      unfold RandomLines.draws RandomLines.segments
      rw [hb, hc, collect_none_of_mem _ (List.mem_map.mpr ⟨0, by simp, hseg⟩)]
      rfl
    simp only [RandomLines, overlayFuzzer, hd, Option.map_none']
  · have hc : RandomCircles.count (RandomCircles.noise emptyCtx) = 5 :=
      RandomCircles_count_half
    have hdisk : RandomCircles.disk rnd emptyImage.Bounds 0 = none := by
      simp [RandomCircles.disk, Intn, hmaxX]
    have hd : RandomCircles.draws emptyCtx k0 rnd (NewRGBA emptyImage.Bounds) = none := by
      unfold RandomCircles.draws
      rw [hb, hc, collect_none_of_mem _ (List.mem_map.mpr ⟨0, by simp, hdisk⟩)]
      rfl
    simp only [RandomCircles, overlayFuzzer, hd, Option.map_none']
  · have hc := ConcentricCircles_count_default emptyCtx rfl
    have hdisk : ConcentricCircles.disk rnd emptyImage.Bounds 0 = none := by
      simp [ConcentricCircles.disk, Intn, hmaxX]
    have hd : ConcentricCircles.draws emptyCtx fuel rnd (NewRGBA emptyImage.Bounds) = none := by
      unfold ConcentricCircles.draws
      rw [hb, hc, collect_none_of_mem _ (List.mem_map.mpr ⟨0, by simp, hdisk⟩)]
      rfl
    simp only [ConcentricCircles, overlayFuzzer, hd, Option.map_none']

/-! ## Claims about the `Inconsolata` font drawer -/

theorem buildAtlas_not_mem (sheet : Image) :
    ∀ (cs : List Nat) (x y : Int) (st : AtlasCache) (u : Nat), u ∉ cs →
      (buildAtlas sheet cs x y st).fonts u = st.fonts u ∧
        (buildAtlas sheet cs x y st).cursor u = st.cursor u ∧
        (buildAtlas sheet cs x y st).lastVariant = st.lastVariant ∧
        (buildAtlas sheet cs x y st).src = st.src := by
  intro cs
  induction cs with
  | nil => intro x y st u _; exact ⟨rfl, rfl, rfl, rfl⟩
  | cons r rest ih =>
    intro x y st u hu
    rw [List.mem_cons, not_or] at hu
    unfold buildAtlas
    split_ifs
    · obtain ⟨h1, h2, h3, h4⟩ := ih 0 (y + 50) _ u hu.2
      rw [h1, h2, h3, h4]
      simp [hu.1]
    · obtain ⟨h1, h2, h3, h4⟩ := ih (x + 24) y _ u hu.2
      rw [h1, h2, h3, h4]
      simp [hu.1]

theorem buildAtlas_mem (sheet : Image) :
    ∀ (cs : List Nat) (x y : Int) (st : AtlasCache) (r : Nat), r ∈ cs →
      ∃ g, (buildAtlas sheet cs x y st).fonts r = some g ∧
        g.Bounds = Rectangle.mk (Point.mk 0 0) (Point.mk 24 50) := by
  intro cs
  induction cs with
  | nil => intro x y st r hr; simp at hr
  | cons c rest ih =>
    intro x y st r hr
    unfold buildAtlas
    by_cases hin : r ∈ rest
    · split_ifs
      · exact ih _ _ _ r hin
      · exact ih _ _ _ r hin
    · have hrc : r = c := by
        rcases List.mem_cons.mp hr with h | h
        · exact h
        · exact absurd h hin
      subst hrc
      refine ⟨fontImg sheet (Rectangle.mk (Point.mk x y) (Point.mk (x + 24) (y + 50))), ?_, ?_⟩
      · split_ifs
        · rw [(buildAtlas_not_mem sheet rest _ _ _ r hin).1]
          simp
        · rw [(buildAtlas_not_mem sheet rest _ _ _ r hin).1]
          simp
      · show Rectangle.mk (Point.mk 0 0) (Point.mk (x + 24 - x) (y + 50 - y)) = _
        congr 2 <;> omega

theorem layoutLine_skip (st : AtlasCache) (trig : Trig) (bg : RGBA) (scale : ℚ) (randRot : Bool)
    (rotation : Int) (rnd : Nat → Nat) (ypos : Int) (u : Nat) (post : List Nat)
    (hf : st.fonts u = none) (hc : st.cursor u = none) :
    ∀ (pre : List Nat) (xpos : Int) (k : Nat),
      layoutLine st trig bg scale randRot rotation rnd ypos (pre ++ u :: post) xpos k =
        layoutLine st trig bg scale randRot rotation rnd ypos (pre ++ post) xpos k := by
  intro pre
  induction pre with
  | nil =>
    intro xpos k
    rw [List.nil_append, List.nil_append, layoutLine, hf, hc]
  | cons a t ih =>
    intro xpos k
    rw [List.cons_append, List.cons_append, layoutLine, layoutLine]
    cases hfa : st.fonts a with
    | some glyph => simp only [ih]
    | none =>
      cases hca : st.cursor a with
      | none => simp only [ih]
      | some sr =>
        cases hs : st.src with
        | none => simp only [ih]
        | some sheet => simp only [ih]

/-- After any sequence of calls `Inconsolata(ctx)` the variable `lastVariant`
still holds 0, and a rune outside `chars` is in neither map. -/
theorem calls_invariant (assets : Nat → Option Image) :
    ∀ (variants : List Nat) (st0 st : AtlasCache),
      st0.lastVariant = 0 → (∀ u, u ∉ chars → st0.fonts u = none ∧ st0.cursor u = none) →
      Inconsolata.calls assets variants st0 = some st →
      st.lastVariant = 0 ∧ ∀ u, u ∉ chars → st.fonts u = none ∧ st.cursor u = none := by
  intro variants
  induction variants with
  | nil =>
    intro st0 st h0 hu h
    simp only [Inconsolata.calls, List.foldl_nil, Option.some.injEq] at h
    subst h
    exact ⟨h0, hu⟩
  | cons v rest ih =>
    intro st0 st h0 hu h
    simp only [Inconsolata.calls, List.foldl_cons, Option.some_bind] at h
    cases hstep : Inconsolata.cacheStep assets st0 v with
    | none =>
      rw [hstep] at h
      have := foldl_bind_none (fun s v => Inconsolata.cacheStep assets s v) rest
      rw [this] at h
      exact absurd h (by simp)
    | some st1 =>
      rw [hstep] at h
      refine ih st1 st ?_ ?_ h
      · unfold Inconsolata.cacheStep at hstep
        by_cases hr : Inconsolata.rebuilds st0 v = true
        · rw [if_pos hr, Option.map_eq_some'] at hstep
          obtain ⟨sheet, _, rfl⟩ := hstep
          rw [(buildAtlas_not_mem sheet chars 0 0 _ 0 (by decide)).2.2.1]
          exact h0
        · rw [if_neg hr] at hstep
          injection hstep with hstep
          rw [← hstep]
          exact h0
      · unfold Inconsolata.cacheStep at hstep
        by_cases hr : Inconsolata.rebuilds st0 v = true
        · rw [if_pos hr, Option.map_eq_some'] at hstep
          obtain ⟨sheet, _, rfl⟩ := hstep
          intro u hnot
          obtain ⟨h1, h2, _, _⟩ := buildAtlas_not_mem sheet chars 0 0
            { src := some sheet, lastVariant := st0.lastVariant,
              cursor := fun _ => none, fonts := fun _ => none } u hnot
          exact ⟨h1, h2⟩
        · rw [if_neg hr] at hstep
          injection hstep with hstep
          rw [← hstep]
          exact hu

theorem glyph_unchanged (trig : Trig) (bg : Option RGBA) (g : Image) :
    Rotate trig bg (Scale bg g 1) 0 = g := by
  have hs : Scale bg g 1 = g := by
    unfold Scale
    rw [if_pos]
    rw [sub_self, abs_zero]
    unfold scaleTolerance
    norm_num
  rw [hs]
  unfold Rotate
  rw [if_pos (by decide)]

/-- C25, as stated, fails: with the atlas built by a first call, scale 1 and no
rotation, the line "a中b" places "b" at x = 24, directly after "a", exactly as
the line "ab" does, and not one cell further right at x = 48. -/
theorem layoutLine_unknown_does_not_advance :
    Inconsolata.cacheStep (fun _ => some sampleImage) AtlasCache.init 1 = some sampleAtlas ∧
      (layoutLine sampleAtlas sampleTrig (Inconsolata.background 1) 1 false 0 (fun k => k) 0
          [97, 20013, 98] 0 0).map (fun c => c.r.Min.X) = [0, 24] ∧
      (layoutLine sampleAtlas sampleTrig (Inconsolata.background 1) 1 false 0 (fun k => k) 0
          [97, 98] 0 0).map (fun c => c.r.Min.X) = [0, 24] := by
  refine ⟨rfl, ?_⟩
  obtain ⟨ga, hga, hba⟩ := buildAtlas_mem sampleImage chars 0 0
    { src := some sampleImage, lastVariant := 0,
      cursor := fun _ => none, fonts := fun _ => none } 97 (by decide)
  obtain ⟨gb, hgb, hbb⟩ := buildAtlas_mem sampleImage chars 0 0
    { src := some sampleImage, lastVariant := 0,
      cursor := fun _ => none, fonts := fun _ => none } 98 (by decide)
  obtain ⟨hu1, hu2, _, _⟩ := buildAtlas_not_mem sampleImage chars 0 0
    { src := some sampleImage, lastVariant := 0,
      cursor := fun _ => none, fonts := fun _ => none } 20013 (by decide)
  have hf : sampleAtlas.fonts 20013 = none := by
    unfold sampleAtlas
    rw [hu1]
  have hc : sampleAtlas.cursor 20013 = none := by
    unfold sampleAtlas
    rw [hu2]
  have hskip := layoutLine_skip sampleAtlas sampleTrig (Inconsolata.background 1) 1 false 0
    (fun k => k) 0 20013 [98] hf hc [97] 0 0
  have hab : (layoutLine sampleAtlas sampleTrig (Inconsolata.background 1) 1 false 0
      (fun k => k) 0 [97, 98] 0 0).map (fun c => c.r.Min.X) = [0, 24] := by
    unfold sampleAtlas
    simp only [layoutLine, hga, hgb, glyph_unchanged, hba, Bool.false_eq_true, if_false,
      List.map_cons, List.map_nil, Rectangle.Dx]
    norm_num
  refine ⟨?_, hab⟩
  have h3 : [97, 20013, 98] = [97] ++ 20013 :: [98] := rfl
  rw [h3, hskip]
  exact hab

/-- C25, amended: after any sequence of calls `Inconsolata(ctx)`, a rune that
is not in `chars` is skipped by the layout loop without advancing the cursor:
the line with the rune draws exactly what the line without it draws. -/
theorem layoutLine_skips_unknown (assets : Nat → Option Image) (variants : List Nat)
    (st : AtlasCache) (trig : Trig) (bg : RGBA) (scale : ℚ) (randRot : Bool) (rotation : Int)
    (rnd : Nat → Nat) (ypos : Int) (pre post : List Nat) (u : Nat) (xpos : Int) (k : Nat)
    (hst : Inconsolata.calls assets variants AtlasCache.init = some st) (hu : u ∉ chars) :
    layoutLine st trig bg scale randRot rotation rnd ypos (pre ++ u :: post) xpos k =
      layoutLine st trig bg scale randRot rotation rnd ypos (pre ++ post) xpos k := by
  obtain ⟨_, hinv⟩ := calls_invariant assets variants AtlasCache.init st rfl
    (fun _ _ => ⟨rfl, rfl⟩) hst
  exact layoutLine_skip st trig bg scale randRot rotation rnd ypos u post
    (hinv u hu).1 (hinv u hu).2 pre xpos k

/-- Witness of the amended C25 on the line "a中b" after one call with the gray
variant. -/
theorem layoutLine_skips_unknown_witness :
    Inconsolata.calls (fun _ => some sampleImage) [1] AtlasCache.init = some sampleAtlas ∧
      20013 ∉ chars ∧
      layoutLine sampleAtlas sampleTrig (Inconsolata.background 1) 1 false 0 (fun k => k) 0
          ([97] ++ 20013 :: [98]) 0 0 =
        layoutLine sampleAtlas sampleTrig (Inconsolata.background 1) 1 false 0 (fun k => k) 0
          ([97] ++ [98]) 0 0 :=
  ⟨rfl, by decide,
    layoutLine_skips_unknown (fun _ => some sampleImage) [1] sampleAtlas sampleTrig
      (Inconsolata.background 1) 1 false 0 (fun k => k) 0 [97] [98] 20013 0 0 rfl (by decide)⟩

/-- C26: for every variant and every text size the canvas allocated by the
layout closure is filled with the zero colour `(0, 0, 0, 0)`, which is none of
the three background colours; the background of the variant is only stored in
the context.  For the default variant and one line of two characters the
canvas is 48×50 and its pixel (0, 0) is `(0, 0, 0, 0)`, not `(192, 192, 192,
255)`. -/
theorem Inconsolata_canvas_fill_is_zero (variant : Nat) (scale : ℚ) (randRot : Bool)
    (rotation longest nLines : Int) :
    (∀ x y : Int, (Inconsolata.canvas variant scale randRot rotation longest nLines).1.Pix x y
        = { R := 0, G := 0, B := 0, A := 0 }) ∧
      (Inconsolata.canvas variant scale randRot rotation longest nLines).2
        = Inconsolata.background variant ∧
      Inconsolata.background variant ≠ { R := 0, G := 0, B := 0, A := 0 } ∧
      (Inconsolata.canvas 1 1 true 0 2 1).1.Bounds = Rect 0 0 48 50 ∧
      (Inconsolata.canvas 1 1 true 0 2 1).1.At 0 0 = { R := 0, G := 0, B := 0, A := 0 } ∧
      (Inconsolata.canvas 1 1 true 0 2 1).2 = { R := 192, G := 192, B := 192, A := 255 } := by
  refine ⟨fun _ _ => rfl, rfl, ?_, ?_, ?_, ?_⟩
  · unfold Inconsolata.background
    split_ifs <;> simp
  · show Rect 0 0 (goTrunc (24 * ((2 : Int) : ℚ) * 1 * Inconsolata.wide true 0))
      (goTrunc (50 * ((1 : Int) : ℚ) * 1)) = Rect 0 0 48 50
    have hw : Inconsolata.wide true 0 = 1 := by simp [Inconsolata.wide]
    rw [hw]
    unfold goTrunc
    norm_num
  · unfold Image.At
    split_ifs <;> rfl
  · simp [Inconsolata.canvas, Inconsolata.background]

/-- C27: after any sequence of calls `Inconsolata(ctx)` the variable
`lastVariant` still holds 0, so the next call with any of the variants (which
are numbered from 1) rebuilds the atlas, also when the preceding call asked
for the same variant. -/
theorem atlas_rebuilt_on_every_call (assets : Nat → Option Image) (variants : List Nat)
    (st : AtlasCache) (v : Nat)
    (hst : Inconsolata.calls assets variants AtlasCache.init = some st) (hv : v ≠ 0) :
    st.lastVariant = 0 ∧ Inconsolata.rebuilds st v = true := by
  obtain ⟨h0, _⟩ := calls_invariant assets variants AtlasCache.init st rfl
    (fun _ _ => ⟨rfl, rfl⟩) hst
  refine ⟨h0, ?_⟩
  unfold Inconsolata.rebuilds
  rw [h0]
  simp
  exact Or.inr (fun h => hv h.symm)

/-- Witness of C27: a second consecutive call with the gray variant rebuilds
the atlas. -/
theorem atlas_rebuilt_on_every_call_witness :
    Inconsolata.calls (fun _ => some sampleImage) [1] AtlasCache.init = some sampleAtlas ∧
      (1 : Nat) ≠ 0 ∧
      sampleAtlas.lastVariant = 0 ∧ Inconsolata.rebuilds sampleAtlas 1 = true :=
  ⟨rfl, by decide,
    atlas_rebuilt_on_every_call (fun _ => some sampleImage) [1] sampleAtlas 1 rfl (by decide)⟩

/-! ## Claims about the text kept by `breakLines` -/

/-- C29: on the text "abc def ghij" with width 2 the code returns the lines
"abc" and "def" and loses "ghij"; on "a\nb\nc" with width 10 it returns "a",
"b\nc", "b", "c", so "b" and "c" occur twice. -/
theorem breakLines_loses_and_duplicates :
    breakLines (ascii "abc def ghij") 2 = ([ascii "abc", ascii "def"], 3) ∧
      ((breakLines (ascii "abc def ghij") 2).1.flatten.filter (fun c => c != 32 && c != 10)
        = ascii "abcdef") ∧
      ((ascii "abc def ghij").filter (fun c => c != 32 && c != 10) = ascii "abcdefghij") ∧
      breakLines (ascii "a\nb\nc") 10 = ([ascii "a", ascii "b\nc", ascii "b", ascii "c"], 1) ∧
      ((breakLines (ascii "a\nb\nc") 10).1.flatten.filter (fun c => c != 32 && c != 10)
        = ascii "abcbc") := by
  decide

end Gotcha
